import Mathlib

/-!
# exec.library memory handling, module loading and lists

A verification development for `src/exec/memory.cpp` / `src/exec/memory.hpp` (zones,
free chains, the zone list), for `src/exec/library.cpp` / `src/exec/library.hpp`
(packed function tables, the ROMTag scanner, the resident array, the jump vectors
and the checksum of a library) and for `src/exec/list.hpp` / `src/exec/list.cpp`
(the linked lists).

Modelling conventions

* The target is the 32-bit m68k build (`size_t = uint32_t`, `types.hpp`): every
  `size_t` / `uint32_t` computation is carried out modulo `WORD = 2^32`.
* An address (`char *`, `Chunk *`) is a natural number and `nullptr` is `0`.
  In the allocator a pointer sum such as `memory + size` is the sum of the two
  numbers, which is the 32-bit sum of the source whenever the span ends inside
  the address space, as every span of memory does.  The scan cursor of
  `BuilderList::search` is stepped modulo `2^32`.
* The free chain of a zone (`Heap::first`, linked through `Chunk::next`) is the
  list of its chunk headers in link order; a header is the pair of its own
  address and its `size` field.  Updating `*pchunk` is replacing the tail of the
  list that starts at that link.  A header takes 8 bytes of the chunk it
  describes (`Chunk::size` counts the header).  The list is what the memory
  holds as long as a header written by `allocate` or `deallocate` reaches no
  other header of the chain, which is so whenever every chunk has at least 8
  bytes and a carve leaves a rest of 0 or of at least 8 bytes (as with sizes
  that are multiples of 8).
* The contents of allocated memory are not part of the state: `bzero` clears
  bytes of the block, which holds no header of such a chain.  A `MemEntry`
  directory record is carried as a value next to the address of the block that
  holds it: the stores through the record pointer are not applied to the zone
  memory.  In the source the record block is shorter than the record, so the
  stores to `entries[]` reach the memory behind the block; where such a store
  lands on the header of a free chunk, the theorem on the rollback of
  `allocate_multiple` carries on from the zone with the header as stored.
* The module code reads memory through typed views: the `Resident` record seen at
  an address, the pointer stored in a 32-bit cell, the 16-bit cells of a function
  table.  A `const char *` name is the list of the bytes before its NUL.  The
  memory is not changed by the code modelled on it.
* A loop whose end depends on the memory contents takes the number of iterations
  it may run (`fuel`) and reports when that number did not suffice.
* A linked list of nodes is the list of its nodes in link order.  Where the links
  themselves matter (`MinNode`, `MinList`), the memory is a map from addresses to
  32-bit cells: the node at `n` has its `next` in the cell at `n` and its `prev` in
  the cell at `n + 4`, the list header at `l` has `head`, `tail` and `tail_prev` in
  the cells at `l`, `l + 4` and `l + 8`.
* The memory of a library is a map from byte offsets relative to the library base
  to bytes, read and written big-endian; the jump vectors lie at negative offsets.
* `PackedStruct::unpack` works on a memory of bytes (a map from addresses to
  bytes, multi-byte values big-endian) and reads its table through a cursor that
  starts at the address of the table.
* `ExecBase::AllocMem`, which `operator new` calls and the sources do not define,
  is a parameter of `new_allocate` and of `Library.make_library`.
-/

namespace exec

/-- Number of values of a `uint32_t` / `size_t`. -/
def WORD : Nat := 4294967296

/-- The rounding `size = (size + 7) & ~7` on a 32-bit `size_t`. -/
def roundup8 (size : Nat) : Nat := (size + 7) % WORD / 8 * 8

/-- A free chunk header (`Heap::Chunk`): where it lives and its `size` field
(`next` is the following element of the chain). -/
structure Chunk where
  addr : Nat
  size : Nat
deriving DecidableEq, Repr

/-- A memory zone (`Heap`): `pri` is the `Node` priority, `first` the free chain. -/
structure Heap where
  attributes : Nat
  pri : Int
  first : List Chunk
  lower : Nat
  upper : Nat
  free : Nat
deriving DecidableEq, Repr

/-- The constructor `Heap::Heap(size_, attributes_, priority_, base_, name_)`:
one chunk covering the whole zone (`base_` is declared `nonnull`). -/
def Heap.ctor (size_ attributes_ : Nat) (priority_ : Int) (base_ : Nat) : Heap :=
  { attributes := attributes_, pri := priority_,
    first := [⟨base_, size_⟩],
    lower := base_, upper := base_ + size_, free := size_ }

/-- Method `Heap::available`. -/
def Heap.available (h : Heap) : Nat := h.free

/-- Method `Heap::contains`. -/
def Heap.contains (h : Heap) (p : Nat) : Bool := decide (h.lower ≤ p) && decide (p < h.upper)

/-- Method `Heap::provides`. -/
def Heap.provides (h : Heap) (a : Nat) : Bool := decide (h.attributes &&& a = a)

/-- The chain walk of `Heap::allocate` and the carve that follows it: the first
chunk with `size` bytes or more is unlinked (exact fit) or replaced, at the same
link, by a new header at `cstart + size`.  `none` is `found == nullptr`. -/
def allocate_chain (size : Nat) : List Chunk → Option (Nat × List Chunk)
  | [] => none
  | chunk :: next =>
    if chunk.size ≥ size then
      if chunk.size = size then some (chunk.addr, next)
      else some (chunk.addr, ⟨chunk.addr + size, chunk.size - size⟩ :: next)
    else
      match allocate_chain size next with
      | none => none
      | some (p, next') => some (p, chunk :: next')

/-- Method `Heap::allocate`: the result pointer (`0` for `nullptr`) and the zone afterwards. -/
def Heap.allocate (h : Heap) (size : Nat) : Nat × Heap :=
  if size = 0 ∨ size > h.free then (0, h)
  else
    match allocate_chain (roundup8 size) h.first with
    | none => (0, h)
    | some (p, chain) =>
      (p, { h with first := chain, free := (h.free + WORD - roundup8 size) % WORD })

/-- The chain walk of `Heap::allocate_reverse` and its carve: `found` ends up at
the last chunk of the chain with `size` bytes or more, which is unlinked (exact
fit) or truncated in place; the block is the top of that chunk. -/
def allocate_reverse_chain (size : Nat) : List Chunk → Option (Nat × List Chunk)
  | [] => none
  | chunk :: next =>
    match allocate_reverse_chain size next with
    | some (p, next') => some (p, chunk :: next')
    | none =>
      if chunk.size ≥ size then
        if chunk.size = size then some (chunk.addr, next)
        else some (chunk.addr + (chunk.size - size), ⟨chunk.addr, chunk.size - size⟩ :: next)
      else none

/-- Method `Heap::allocate_reverse`. -/
def Heap.allocate_reverse (h : Heap) (size : Nat) : Nat × Heap :=
  if size = 0 ∨ size > h.free then (0, h)
  else
    match allocate_reverse_chain (roundup8 size) h.first with
    | none => (0, h)
    | some (p, chain) =>
      (p, { h with first := chain, free := (h.free + WORD - roundup8 size) % WORD })

/-- The loop of `Heap::allocate_at`: at the first chunk that contains
`[memory, memory + size)` a remainder header is linked in after the block when the
block does not reach the chunk's end (its size field is `chunk->size - size`), and
the chunk is truncated by `size` when it starts below `memory`, unlinked otherwise. -/
def allocate_at_chain (memory size : Nat) : List Chunk → Option (List Chunk)
  | [] => none
  | chunk :: next =>
    if chunk.addr ≤ memory ∧ memory + size ≤ chunk.addr + chunk.size then
      let next' :=
        if memory + size < chunk.addr + chunk.size then
          ⟨memory + size, chunk.size - size⟩ :: next
        else next
      if chunk.addr < memory then some (⟨chunk.addr, chunk.size - size⟩ :: next')
      else some next'
    else
      match allocate_at_chain memory size next with
      | none => none
      | some next' => some (chunk :: next')

/-- Method `Heap::allocate_at`. -/
def Heap.allocate_at (h : Heap) (memory size : Nat) : Nat × Heap :=
  if memory = 0 ∨ size = 0 ∨ size > h.free then (0, h)
  else
    match allocate_at_chain memory (roundup8 size) h.first with
    | none => (0, h)
    | some chain =>
      (memory, { h with first := chain, free := (h.free + WORD - roundup8 size) % WORD })

/-- The `if(mc_next)` block of `Heap::deallocate`: a following chunk that starts
exactly at the end of the span is merged (`size += mc_next->size`, a `size_t`
addition) and skipped; one that starts inside the span makes the function return
(`none`).  Gives the new `size` and the new `mc_next`. -/
def deallocate_next (memory size : Nat) : List Chunk → Option (Nat × List Chunk)
  | [] => some (size, [])
  | mc_next :: rest =>
    if mc_next.addr = memory + size then some ((size + mc_next.size) % WORD, rest)
    else if mc_next.addr < memory + size then none
    else some (size, mc_next :: rest)

/-- The `if(previous)` block of `Heap::deallocate` and the final link: a previous
chunk that ends exactly at `memory` absorbs the span and is linked to `mc_next`;
one that ends above `memory` makes the function return (`none`); otherwise a new
header at `memory` is linked in.  Gives the chain from `previous` on. -/
def deallocate_previous (memory size : Nat) (mc_next : List Chunk) :
    Option Chunk → Option (List Chunk)
  | none => some (⟨memory, size⟩ :: mc_next)
  | some previous =>
    if previous.addr + previous.size = memory then
      some (⟨previous.addr, (previous.size + size) % WORD⟩ :: mc_next)
    else if previous.addr + previous.size > memory then none
    else some (previous :: ⟨memory, size⟩ :: mc_next)

/-- The part of `Heap::deallocate` after its scan loop.  `previous` is the chunk
before the insertion point (if any) and `pchunk` the chain from the insertion
point on.  The result is the chain from `previous` on, or `none` when the function
returns at one of its two overlap checks, having written nothing. -/
def deallocate_link (memory size : Nat) (previous : Option Chunk) (pchunk : List Chunk) :
    Option (List Chunk) :=
  match deallocate_next memory size pchunk with
  | none => none
  | some (size', mc_next) => deallocate_previous memory size' mc_next previous

/-- The scan loop of `Heap::deallocate` (stops at the first chunk above `memory`,
remembering the chunk before it) followed by `deallocate_link`.  The result is the
chain from `previous` on. -/
def deallocate_chain (memory size : Nat) (previous : Option Chunk) :
    List Chunk → Option (List Chunk)
  | [] => deallocate_link memory size previous []
  | chunk :: next =>
    if chunk.addr > memory then deallocate_link memory size previous (chunk :: next)
    else
      match deallocate_chain memory size (some chunk) next with
      | none => none
      | some chain => some (previous.toList ++ chain)

/-- Method `Heap::deallocate`: the cached total is raised first; the chain is rewritten
unless an overlap check returned early. -/
def Heap.deallocate (h : Heap) (memory size : Nat) : Heap :=
  if memory = 0 ∨ size = 0 then h
  else
    let free' := (h.free + roundup8 size) % WORD
    match deallocate_chain memory (roundup8 size) none h.first with
    | none => { h with free := free' }
    | some chain => { h with first := chain, free := free' }

/-- Method `Heap::count_chunks`. -/
def Heap.count_chunks (h : Heap) : Nat := h.first.length

/-- The loop of `Heap::count_free`, `count` being a `size_t`. -/
def count_free_loop (count : Nat) : List Chunk → Nat
  | [] => count
  | chunk :: next => count_free_loop ((count + chunk.size) % WORD) next

/-- Method `Heap::count_free`. -/
def Heap.count_free (h : Heap) : Nat := count_free_loop 0 h.first

/-- The loop of `Heap::is_sane`. -/
def is_sane_loop : List Chunk → Bool
  | [] => true
  | chunk :: next =>
    match next with
    | [] => is_sane_loop next
    | n :: _ => if n.addr ≤ chunk.addr then false else is_sane_loop next

/-- Method `Heap::is_sane`. -/
def Heap.is_sane (h : Heap) : Bool := is_sane_loop h.first

/-! ## The zone list (`HeapList`) -/

/-- Constant `Heap::MEMF_PUBLIC`. -/
def MEMF_PUBLIC : Nat := 1
/-- Constant `Heap::MEMF_CLEAR`. -/
def MEMF_CLEAR : Nat := 1
/-- Constant `Heap::MEMF_REVERSE`. -/
def MEMF_REVERSE : Nat := 4

/-- Method `HeapList::allocate` over the zones in list order.  The zones are returned
as the call leaves them; `bzero(mem, size)` clears bytes of the block and does not
change the chain of a zone whose chunks have a multiple of 8 bytes each. -/
def HeapList.allocate (size attributes options : Nat) : List Heap → Nat × List Heap
  | [] => (0, [])
  | heap :: rest =>
    if heap.provides attributes then
      let r := if options &&& MEMF_REVERSE ≠ 0 then heap.allocate_reverse size
               else heap.allocate size
      if r.1 ≠ 0 then (r.1, r.2 :: rest)
      else
        let t := HeapList.allocate size attributes options rest
        (t.1, r.2 :: t.2)
    else
      let t := HeapList.allocate size attributes options rest
      (t.1, heap :: t.2)

/-- Method `HeapList::deallocate`: the first zone that contains `address` releases it; an
address inside no zone is dropped. -/
def HeapList.deallocate (address size : Nat) : List Heap → List Heap
  | [] => []
  | heap :: rest =>
    if heap.contains address then heap.deallocate address size :: rest
    else heap :: HeapList.deallocate address size rest

/-- One element of `MemEntry::entries` read as a request. -/
structure MemEntryRequestEntry where
  size : Nat
  attributes : Nat
  options : Nat
deriving DecidableEq, Repr

/-- A `MemEntry` read as a request: `count` (a `uint16_t`) and the flexible array
`entries[]`, indexed as the source indexes it (an index at or beyond `count` reads
what lies behind the record). -/
structure MemEntryRequest where
  count : Nat
  entries : Nat → MemEntryRequestEntry

/-- A `MemEntry` read as a directory of results: `count` and the `(addr, size)`
pairs written so far. -/
structure MemEntry where
  count : Nat
  entries : List (Nat × Nat)
deriving DecidableEq, Repr

/-- Class `MemEntryResponse`: `mementry` is the address of the directory or `0`. -/
structure MemEntryResponse where
  failed : Nat
  mementry : Nat
deriving DecidableEq, Repr

/-- Method `HeapList::allocate_mementry`: the address of the record (or `0`) and the
zones; `me->count = count` stores a `uint16_t` through the record pointer, at
offset 14 of the block, and is not applied to the zone memory. -/
def HeapList.allocate_mementry (count : Nat) (zones : List Heap) : Nat × List Heap :=
  let bytes := (2 + count * 4) % WORD
  HeapList.allocate bytes MEMF_PUBLIC MEMF_CLEAR zones

/-- Method `HeapList::deallocate_mementry` for the record at `me` whose count field is
`count`. -/
def HeapList.deallocate_mementry (me count : Nat) (zones : List Heap) : List Heap :=
  if me ≠ 0 then
    let bytes := (2 + count * 4) % WORD
    HeapList.deallocate me bytes zones
  else zones

/-- The loop of `HeapList::deallocate_multiple` over the directory entries. -/
def deallocate_multiple_loop : List (Nat × Nat) → List Heap → List Heap
  | [], zones => zones
  | entry :: rest, zones =>
    deallocate_multiple_loop rest (HeapList.deallocate entry.1 entry.2 zones)

/-- Method `HeapList::deallocate_multiple` for the record at `me` with contents `dir`. -/
def HeapList.deallocate_multiple (me : Nat) (dir : MemEntry) (zones : List Heap) : List Heap :=
  HeapList.deallocate_mementry me dir.count
    (deallocate_multiple_loop (dir.entries.take dir.count) zones)

/-- The loop of `HeapList::allocate_multiple` from index `i` on, `n` iterations
left: every request is attempted with the options of `entries[1]`, every result is
written to the directory, and `failed` is overwritten at each failure.  Returns the
zones, the entries written and `failed`. -/
def allocate_multiple_loop (request : MemEntryRequest) :
    Nat → Nat → Nat → List Heap → List Heap × List (Nat × Nat) × Nat
  | 0, _, failed, zones => (zones, [], failed)
  | n + 1, i, failed, zones =>
    let r := HeapList.allocate (request.entries i).size (request.entries i).attributes
      (request.entries 1).options zones
    let failed' := if r.1 = 0 then (request.entries i).size else failed
    let t := allocate_multiple_loop request n (i + 1) failed' r.2
    (t.1, (r.1, (request.entries i).size) :: t.2.1, t.2.2)

/-- Method `HeapList::allocate_multiple`: the response, the contents of the directory
record the call worked on, and the zones afterwards. -/
def HeapList.allocate_multiple (request : MemEntryRequest) (zones : List Heap) :
    MemEntryResponse × MemEntry × List Heap :=
  let me_size := (2 + 4 * request.count) % WORD
  let a := HeapList.allocate_mementry request.count zones
  if a.1 = 0 then (⟨me_size, 0⟩, ⟨0, []⟩, a.2)
  else
    let t := allocate_multiple_loop request request.count 0 0 a.2
    let dir : MemEntry := ⟨request.count % 65536, t.2.1⟩
    if t.2.2 = 0 then (⟨0, a.1⟩, dir, t.1)
    else (⟨t.2.2, 0⟩, dir, HeapList.deallocate_multiple a.1 dir t.1)

/-! ## Sequences of calls on one zone -/

/-- A call of one of the three operations of a zone that a client strings together. -/
inductive Call where
  | allocate (size : Nat)
  | allocate_reverse (size : Nat)
  | deallocate (memory size : Nat)
deriving DecidableEq, Repr

/-- The zone after one call. -/
def Heap.call (h : Heap) : Call → Heap
  | .allocate size => (h.allocate size).2
  | .allocate_reverse size => (h.allocate_reverse size).2
  | .deallocate memory size => h.deallocate memory size

/-- The zone after a sequence of calls. -/
def Heap.run (h : Heap) : List Call → Heap
  | [] => h
  | c :: cs => (h.call c).run cs

/-- A zone together with the blocks handed out and not yet released, each with
the size it was requested with. -/
structure Session where
  heap : Heap
  live : List (Nat × Nat)
deriving DecidableEq, Repr

/-- One call of a client that releases only what it holds: an allocation that
returns an address adds the block to `live`; a release must name a live block with
its requested size (otherwise the call is not part of such a sequence, `none`). -/
def Session.step (s : Session) : Call → Option Session
  | .allocate size =>
    let r := s.heap.allocate size
    some ⟨r.2, if r.1 ≠ 0 then (r.1, size) :: s.live else s.live⟩
  | .allocate_reverse size =>
    let r := s.heap.allocate_reverse size
    some ⟨r.2, if r.1 ≠ 0 then (r.1, size) :: s.live else s.live⟩
  | .deallocate memory size =>
    if (memory, size) ∈ s.live then
      some ⟨s.heap.deallocate memory size, s.live.erase (memory, size)⟩
    else none

/-- A sequence of such calls. -/
def Session.run (s : Session) : List Call → Option Session
  | [] => some s
  | c :: cs =>
    match s.step c with
    | none => none
    | some s' => s'.run cs

/-! ## Predicates on chains and zones -/

/-- A chunk `a` lies wholly below chunk `b`, at a strictly lower address. -/
def Chunk.before (a b : Chunk) : Prop := a.addr + a.size ≤ b.addr ∧ a.addr < b.addr

instance (a b : Chunk) : Decidable (a.before b) := by
  unfold Chunk.before; infer_instance

/-- Sum of the size fields of a chain. -/
def chain_bytes : List Chunk → Nat
  | [] => 0
  | c :: l => c.size + chain_bytes l

/-- The span `[memory, memory + size)` meets no chunk of the chain. -/
def span_clear (memory size : Nat) (l : List Chunk) : Prop :=
  ∀ c ∈ l, memory + size ≤ c.addr ∨ c.addr + c.size ≤ memory

instance (memory size : Nat) (l : List Chunk) : Decidable (span_clear memory size l) := by
  unfold span_clear; infer_instance

/-- A well-formed zone: the chain is strictly ascending and non-overlapping, every
chunk has a non-null address and ends at least eight bytes below the top of the
32-bit address space, and the cached total is the sum of the chunk sizes. -/
structure Heap.WF (h : Heap) : Prop where
  sorted : h.first.Pairwise Chunk.before
  bounded : ∀ c ∈ h.first, c.addr ≠ 0 ∧ c.addr + c.size + 8 ≤ WORD
  cache : h.free = chain_bytes h.first

/-- Every chunk of the zone lies inside the zone's range `[lower, upper)`. -/
def Heap.Inside (h : Heap) : Prop :=
  ∀ c ∈ h.first, h.lower ≤ c.addr ∧ c.addr + c.size ≤ h.upper

/-- A well-formed zone whose chunks lie inside its range, the range starting above
the null address and ending at least eight bytes below the top of the address
space. -/
def Heap.Zoned (h : Heap) : Prop :=
  h.WF ∧ h.Inside ∧ 0 < h.lower ∧ h.upper + 8 ≤ WORD

/-- Two blocks `(address, requested size)` do not intersect. -/
def blocks_disjoint (a b : Nat × Nat) : Prop :=
  a.1 + roundup8 a.2 ≤ b.1 ∨ b.1 + roundup8 b.2 ≤ a.1

/-- A block `(address, requested size)` that a zone has handed out: non-empty,
inside the zone's range and clear of its free chain. -/
def Heap.Holds (h : Heap) (b : Nat × Nat) : Prop :=
  b.2 ≠ 0 ∧ b.2 ≤ roundup8 b.2 ∧ h.lower ≤ b.1 ∧ b.1 + roundup8 b.2 ≤ h.upper ∧
    span_clear b.1 (roundup8 b.2) h.first

/-- The chain `l'` is `l` with the block `[p, p + r)` carved out of one chunk: the
chunk is dropped when the block is all of it, and otherwise replaced in place by
one non-empty chunk that holds the rest of it. -/
def Carved (p r : Nat) (l l' : List Chunk) : Prop :=
  ∃ pre c post, l = pre ++ c :: post ∧ c.addr ≤ p ∧ p + r ≤ c.addr + c.size ∧
    ((c.size = r ∧ l' = pre ++ post) ∨
     (∃ d, l' = pre ++ d :: post ∧ d.size + r = c.size ∧ 0 < d.size ∧ c.addr ≤ d.addr ∧
        d.addr + d.size ≤ c.addr + c.size ∧ (p + r ≤ d.addr ∨ d.addr + d.size ≤ p)))


/-- The invariant of a client session on one zone. -/
def Session.Sound (s : Session) : Prop :=
  s.heap.Zoned ∧ (∀ b ∈ s.live, s.heap.Holds b) ∧ s.live.Pairwise blocks_disjoint

/-- The ranges of two zones do not intersect. -/
def ranges_disjoint (a b : Heap) : Prop := a.upper ≤ b.lower ∨ b.upper ≤ a.lower

instance (a b : Heap) : Decidable (ranges_disjoint a b) := by
  unfold ranges_disjoint; infer_instance

/-- The invariant of a zone list together with the blocks it has handed out: every
zone is well-formed inside its range, the ranges are pairwise disjoint, every block
is held by one of the zones and no two blocks intersect. -/
def HeapList.Sound (zones : List Heap) (live : List (Nat × Nat)) : Prop :=
  (∀ z ∈ zones, z.Zoned) ∧ zones.Pairwise ranges_disjoint ∧
  (∀ b ∈ live, ∃ z ∈ zones, z.Holds b) ∧ live.Pairwise blocks_disjoint

/-- The bytes of the blocks in `live` whose address lies in the range of `z`. -/
def held_bytes (z : Heap) : List (Nat × Nat) → Nat
  | [] => 0
  | b :: l => (if z.contains b.1 then roundup8 b.2 else 0) + held_bytes z l

/-- Per zone, the cached total plus the bytes handed out from the zone. -/
def HeapList.budget (zones : List Heap) (live : List (Nat × Nat)) : List Nat :=
  zones.map (fun z => z.free + held_bytes z live)

/-! ## Zones used as examples -/

/-- The zone of the first-fit / last-fit example: free chunks of 100, 50 and 200
bytes at ascending addresses. -/
def zone_100_50_200 : Heap :=
  { attributes := 1, pri := 0,
    first := [⟨4096, 100⟩, ⟨8192, 50⟩, ⟨12288, 200⟩],
    lower := 4096, upper := 16384, free := 350 }

/-- A freshly constructed zone of 256 bytes at address 4096. -/
def zone_256 : Heap := Heap.ctor 256 1 0 4096

/-- Two requests that both exceed the free memory of `zone_256`. -/
def request_1000_2000 : MemEntryRequest :=
  ⟨2, fun i => if i = 0 then ⟨1000, 1, 0⟩ else ⟨2000, 1, 0⟩⟩

/-- A request that exceeds the free memory of `zone_256` followed by one that fits. -/
def request_1000_16 : MemEntryRequest :=
  ⟨2, fun i => if i = 0 then ⟨1000, 1, 0⟩ else ⟨16, 1, 0⟩⟩

/-! ## Queries on the zone list -/

/-- Constant `Heap::MEMF_LARGEST`. -/
def MEMF_LARGEST : Nat := 2
/-- Constant `Heap::MEMF_TOTAL`. -/
def MEMF_TOTAL : Nat := 8

/-- The inner loop of `HeapList::available` for `MEMF_LARGEST`: the running maximum
`size` after the chunks of one chain. -/
def available_largest (size : Nat) : List Chunk → Nat
  | [] => size
  | chunk :: rest => available_largest (if chunk.size > size then chunk.size else size) rest

/-- The loop of `HeapList::available` with the accumulator `size` (a `size_t`).  The
pointer difference `upper - lower` is added as a `size_t`. -/
def available_loop (attributes options : Nat) : Nat → List Heap → Nat
  | size, [] => size
  | size, heap :: rest =>
    if heap.provides attributes then
      if options &&& MEMF_TOTAL ≠ 0 then
        available_loop attributes options
          ((size + (heap.upper % WORD + WORD - heap.lower % WORD)) % WORD) rest
      else if options &&& MEMF_LARGEST ≠ 0 then
        available_loop attributes options (available_largest size heap.first) rest
      else
        available_loop attributes options ((size + heap.free) % WORD) rest
    else available_loop attributes options size rest

/-- Method `HeapList::available`, a `const` method: the zones are only read. -/
def HeapList.available (attributes options : Nat) (zones : List Heap) : Nat :=
  available_loop attributes options 0 zones

/-- The sum of the cached totals of the zones that provide `attributes`. -/
def free_total (attributes : Nat) (zones : List Heap) : Nat :=
  ((zones.filter (fun z => z.provides attributes)).map Heap.free).sum

/-- The largest size of a free chunk among the zones that provide `attributes`,
`0` when they have no free chunk. -/
def largest_chunk (attributes : Nat) (zones : List Heap) : Nat :=
  ((zones.filter (fun z => z.provides attributes)).flatMap
    (fun z => z.first.map Chunk.size)).foldr max 0

/-- A zone of chip memory (attributes `MEMF_PUBLIC | MEMF_CHIP`) with free chunks of
24 and 64 bytes. -/
def zone_chip : Heap :=
  { attributes := 3, pri := -10,
    first := [⟨65536, 24⟩, ⟨66000, 64⟩],
    lower := 65536, upper := 131072, free := 88 }

/-- Two requests of which the second has size zero. -/
def request_16_0 : MemEntryRequest :=
  ⟨2, fun i => if i = 0 then ⟨16, 1, 0⟩ else ⟨0, 1, 0⟩⟩

/-! ## Lists of named nodes (`list.hpp`, `list.cpp`, `libc.hpp`) -/

/-- Function `strcmp` of `libc.hpp` on two C strings, each given by the bytes that
precede its terminating NUL (the end of the list reads as the NUL; a zero byte
inside the list ends the string there, as it does in memory). -/
def strcmp : List Nat → List Nat → Int
  | [], [] => 0
  | [], b :: _ => 0 - (b : Int)
  | a :: _, [] => (a : Int) - 0
  | a :: s1, b :: s2 =>
    if a = b then (if a = 0 then 0 else strcmp s1 s2) else (a : Int) - (b : Int)

/-- Class `Node`: the fields `type`, `priority` (an `int8_t`) and `name` (the string
the field points to); the links of the node are its place in the list. -/
structure Node where
  type : Nat
  priority : Int
  name : List Nat
deriving DecidableEq, Repr

/-- Modelled from the spec: method `List::enqueue`, which `list.hpp` declares and no
compiled source defines (the body in `list.cpp` sits in a disabled block and reads
the same): scan from the head, insert the node immediately before the first node
whose priority is strictly less than its own, and append it at the tail when there
is none. -/
def List.enqueue {α : Type} (node : α → Node) (node_ : α) : List α → List α
  | [] => [node_]
  | np :: rest =>
    if (node np).priority < (node node_).priority then node_ :: np :: rest
    else np :: List.enqueue node node_ rest

/-- Method `List::find_name` with the default start (the head): the position of the
first node whose name compares equal under `strcmp`, `none` for `nullptr`. -/
def List.find_name {α : Type} (node : α → Node) (name : List Nat) : List α → Option Nat
  | [] => none
  | i :: rest =>
    if strcmp name (node i).name = 0 then some 0
    else (List.find_name node name rest).map (fun k => k + 1)

/-! ## Module headers and the resident array (`library.cpp`) -/

/-- Conversion to `uint8_t`. -/
def uint8_cast (x : Int) : Int := x % 256
/-- Conversion to `int8_t`. -/
def int8_cast (x : Int) : Int := (x + 128) % 256 - 128
/-- Conversion to `int16_t`. -/
def int16_cast (x : Int) : Int := (x + 32768) % 65536 - 32768
/-- Conversion to `int32_t`. -/
def int32_cast (x : Int) : Int := (x + 2147483648) % 4294967296 - 2147483648
/-- Conversion to `size_t` / `uint32_t`. -/
def uint32_cast (x : Int) : Nat := (x % 4294967296).toNat

/-- Class `Resident` (a ROMTag) as read at an address: `end_` is the field `end`,
`name` the string the field `name` points to; `version` and `flags` are `uint8_t`,
`priority` is an `int8_t`. -/
structure Resident where
  match_word : Nat
  match_tag : Nat
  end_ : Nat
  flags : Nat
  version : Nat
  priority : Int
  name : List Nat
deriving DecidableEq, Repr

/-- Constant `Resident::MATCHWORD`. -/
def Resident.MATCHWORD : Nat := 0x4afc

/-- The memory that the module code reads: `resident p` is the `Resident` record
that a read through `(const Resident *)p` sees, `entry p` the pointer stored in the
32-bit cell at `p`. -/
structure Memory where
  resident : Nat → Resident
  entry : Nat → Nat

/-- Class `ResidentArray::BuilderNode`: a `Node` with the address of a header. -/
structure BuilderNode extends Node where
  resident : Nat
deriving DecidableEq, Repr

/-- Constant `Node::NT_UNKNOWN`. -/
def NT_UNKNOWN : Nat := 0

/-- Constructor `BuilderNode::BuilderNode(uint8_t priority_, name_, resident_)`, which
passes the priority on to `Node(Type, int8_t, const char *)`. -/
def BuilderNode.ctor (priority_ : Int) (name_ : List Nat) (resident_ : Nat) : BuilderNode :=
  { type := NT_UNKNOWN, priority := int8_cast (uint8_cast priority_), name := name_,
    resident := resident_ }

/-- Class `ResidentArray::BuilderList`: the nodes in list order and the field `count`
(an `int`; it counts allocated nodes and stays far below `2^31`). -/
structure BuilderList where
  nodes : List BuilderNode
  count : Int
deriving DecidableEq, Repr

/-- Constructor `BuilderList::BuilderList()`: the empty list with `count(1)`. -/
def BuilderList.ctor : BuilderList := ⟨[], 1⟩

/-- Method `ResidentArray::BuilderList::add` for the header at address `resident`. -/
def BuilderList.add (mem : Memory) (bl : BuilderList) (resident : Nat) : BuilderList :=
  match List.find_name BuilderNode.toNode (mem.resident resident).name bl.nodes with
  | some k =>
    match bl.nodes.get? k with
    | some rn =>
      if (mem.resident resident).version > (mem.resident rn.resident).version
          ∨ (mem.resident resident).priority > rn.priority then
        { bl with nodes := bl.nodes.set k { rn with resident := resident } }
      else bl
    | none => bl
  | none =>
    { nodes := List.enqueue BuilderNode.toNode
        (BuilderNode.ctor (mem.resident resident).priority (mem.resident resident).name resident)
        bl.nodes,
      count := bl.count + 1 }

/-- The state of a scan: the positions examined so far in order, the builder list,
and the position at or above `end_` at which the loop was left (`none` while the
loop is still running). -/
structure Scan where
  examined : List Nat
  list : BuilderList
  stopped : Option Nat
deriving DecidableEq, Repr

/-- The test of `BuilderList::search` at position `p`: the magic word and the
pointer to self. -/
def Memory.is_romtag (mem : Memory) (p : Nat) : Bool :=
  decide ((mem.resident p).match_word = Resident.MATCHWORD) &&
    decide ((mem.resident p).match_tag = p)

/-- The loop of `ResidentArray::BuilderList::search` from cursor `p`, for at most
`fuel` iterations; the cursor is a 32-bit pointer to `uint16_t`. -/
def BuilderList.search_loop (mem : Memory) (end_ : Nat) : Nat → Nat → BuilderList → Scan
  | 0, _, bl => ⟨[], bl, none⟩
  | fuel + 1, p, bl =>
    if p < end_ then
      if mem.is_romtag p then
        let s := BuilderList.search_loop mem end_ fuel (mem.resident p).end_ (bl.add mem p)
        ⟨p :: s.examined, s.list, s.stopped⟩
      else
        let s := BuilderList.search_loop mem end_ fuel ((p + 2) % WORD) bl
        ⟨p :: s.examined, s.list, s.stopped⟩
    else ⟨[], bl, some p⟩

/-- Method `ResidentArray::BuilderList::search(start, end_)` run for at most `fuel`
iterations. -/
def BuilderList.search (mem : Memory) (fuel : Nat) (bl : BuilderList) (start end_ : Nat) : Scan :=
  BuilderList.search_loop mem end_ fuel start bl

/-- Method `ResidentArray::BuilderList::flatten`: the slots written to the new array,
in order (the array is asked for with `count` slots). -/
def BuilderList.flatten (bl : BuilderList) : List Nat :=
  bl.nodes.map (fun i => i.resident) ++ [0]

/-- The loop of `ResidentArray::find_name` with the cursor `next` (the address of an
array slot), for at most `fuel` iterations: `some` of the returned header address
(`0` for `NULL`), `none` when the fuel runs out. -/
def ResidentArray.find_name_loop (mem : Memory) (name : List Nat) : Nat → Nat → Option Nat
  | 0, _ => none
  | fuel + 1, next =>
    if mem.entry next = 0 then some 0
    else
      let nint := next % WORD
      if nint &&& 2147483648 ≠ 0 then
        ResidentArray.find_name_loop mem name fuel (nint &&& 2147483647)
      else
        let resident := mem.entry next
        if strcmp name (mem.resident resident).name = 0 then some resident
        else ResidentArray.find_name_loop mem name fuel (next + 4)

/-- Method `ResidentArray::find_name` on the array at address `array`. -/
def ResidentArray.find_name (mem : Memory) (fuel : Nat) (array : Nat) (name : List Nat) :
    Option Nat :=
  ResidentArray.find_name_loop mem name fuel array

/-- The loop of `ResidentArray::initialise`: the header addresses on which
`Resident::initialise` is invoked, in order of invocation; `none` when the fuel runs
out.  The array is read as it is when the walk starts. -/
def ResidentArray.initialise_loop (mem : Memory) (start_class min_version : Nat) :
    Nat → Nat → Option (List Nat)
  | 0, _ => none
  | fuel + 1, next =>
    if mem.entry next = 0 then some []
    else
      let nint := next % WORD
      if nint &&& 2147483648 ≠ 0 then
        ResidentArray.initialise_loop mem start_class min_version fuel (nint &&& 2147483647)
      else
        let resident := mem.entry next
        if (mem.resident resident).flags &&& start_class ≠ 0
            ∧ (mem.resident resident).version ≥ min_version then
          (ResidentArray.initialise_loop mem start_class min_version fuel (next + 4)).map
            (fun l => resident :: l)
        else ResidentArray.initialise_loop mem start_class min_version fuel (next + 4)

/-- Method `ResidentArray::initialise` on the array at address `array`. -/
def ResidentArray.initialise (mem : Memory) (fuel : Nat) (array : Nat)
    (start_class min_version : Nat) : Option (List Nat) :=
  ResidentArray.initialise_loop mem start_class min_version fuel array

/-! ## Packed function tables (`library.cpp`) -/

/-- Class `PackedFunctions`: the address of the table and its 16-bit cells (cell `i`
is the big-endian `uint16_t` at `addr + 2 * i`), which the union reads as
`displacements[]` or as `pointers[]`. -/
structure PackedFunctions where
  addr : Nat
  cells : Nat → Nat

/-- Member `displacements[i]`, an `int16_t`. -/
def PackedFunctions.displacements (t : PackedFunctions) (i : Nat) : Int :=
  int16_cast (t.cells i)

/-- Member `pointers[i]`, an `int32_t` made of the cells `2 * i` and `2 * i + 1`. -/
def PackedFunctions.pointers (t : PackedFunctions) (i : Nat) : Int :=
  int32_cast ((t.cells (2 * i) % 65536 : Nat) * 65536 + (t.cells (2 * i + 1) % 65536 : Nat))

/-- A call that `unpack` makes on the library. -/
inductive LibraryCall where
  | set_function_before
  | set_function (offset : Int) (function : Nat)
  | set_function_after
deriving DecidableEq, Repr

/-- The loop of `PackedFunctions::count16` at index `input` with `bytes` counted so
far (a `size_t`); `none` when the fuel runs out. -/
def PackedFunctions.count16_loop (t : PackedFunctions) : Nat → Nat → Nat → Option Nat
  | 0, _, _ => none
  | fuel + 1, input, bytes =>
    if t.displacements input ≠ -1 then
      PackedFunctions.count16_loop t fuel (input + 1) ((bytes + 6) % WORD)
    else some bytes

/-- Method `PackedFunctions::count16(offset)`. -/
def PackedFunctions.count16 (t : PackedFunctions) (fuel offset : Nat) : Option Nat :=
  t.count16_loop fuel offset 0

/-- The loop of `PackedFunctions::count32`. -/
def PackedFunctions.count32_loop (t : PackedFunctions) : Nat → Nat → Nat → Option Nat
  | 0, _, _ => none
  | fuel + 1, input, bytes =>
    if t.pointers input ≠ -1 then
      PackedFunctions.count32_loop t fuel (input + 1) ((bytes + 6) % WORD)
    else some bytes

/-- Method `PackedFunctions::count32(offset)`. -/
def PackedFunctions.count32 (t : PackedFunctions) (fuel offset : Nat) : Option Nat :=
  t.count32_loop fuel offset 0

/-- The loop of `PackedFunctions::unpack16` at index `input` with the running
`int16_t offset`: the value returned (`-offset` as a `size_t`) and the
`set_function` calls in order; `none` when the fuel runs out. -/
def PackedFunctions.unpack16_loop (t : PackedFunctions) (reference : Nat) :
    Nat → Nat → Int → Option (Nat × List LibraryCall)
  | 0, _, _ => none
  | fuel + 1, input, offset =>
    if t.displacements input ≠ -1 then
      (PackedFunctions.unpack16_loop t reference fuel (input + 1) (int16_cast (offset - 6))).map
        (fun r => (r.1, LibraryCall.set_function (int16_cast (offset - 6))
          (uint32_cast ((reference : Int) + t.displacements input)) :: r.2))
    else some (uint32_cast (-offset), [])

/-- Method `PackedFunctions::unpack16(library, reference, table_offset)`. -/
def PackedFunctions.unpack16 (t : PackedFunctions) (fuel reference table_offset : Nat) :
    Option (Nat × List LibraryCall) :=
  t.unpack16_loop reference fuel table_offset 0

/-- The loop of `PackedFunctions::unpack32`. -/
def PackedFunctions.unpack32_loop (t : PackedFunctions) :
    Nat → Nat → Int → Option (Nat × List LibraryCall)
  | 0, _, _ => none
  | fuel + 1, input, offset =>
    if t.pointers input ≠ -1 then
      (PackedFunctions.unpack32_loop t fuel (input + 1) (int16_cast (offset - 6))).map
        (fun r => (r.1, LibraryCall.set_function (int16_cast (offset - 6))
          (uint32_cast (t.pointers input)) :: r.2))
    else some (uint32_cast (-offset), [])

/-- Method `PackedFunctions::unpack32(library, table_offset)`. -/
def PackedFunctions.unpack32 (t : PackedFunctions) (fuel table_offset : Nat) :
    Option (Nat × List LibraryCall) :=
  t.unpack32_loop fuel table_offset 0

/-- Method `PackedFunctions::count()`. -/
def PackedFunctions.count (t : PackedFunctions) (fuel : Nat) : Option Nat :=
  if t.displacements 0 = -1 then t.count16 fuel 1 else t.count32 fuel 0

/-- Method `PackedFunctions::unpack(library)`: the value returned and the calls made
on the library, in order. -/
def PackedFunctions.unpack (t : PackedFunctions) (fuel : Nat) : Option (Nat × List LibraryCall) :=
  (if t.displacements 0 = -1 then t.unpack16 fuel t.addr 1 else t.unpack32 fuel 0).map
    (fun r => (r.1, LibraryCall.set_function_before :: r.2))

/-- Method `PackedFunctions::count(reference)`. -/
def PackedFunctions.count_with (t : PackedFunctions) (fuel reference : Nat) : Option Nat :=
  if reference ≠ 0 then t.count16 fuel 0 else t.count32 fuel 0

/-- Method `PackedFunctions::unpack(library, reference)`; both branches return before
the call of `set_function_after`. -/
def PackedFunctions.unpack_with (t : PackedFunctions) (fuel reference : Nat) :
    Option (Nat × List LibraryCall) :=
  (if reference ≠ 0 then t.unpack16 fuel reference 0 else t.unpack32 fuel 0).map
    (fun r => (r.1, LibraryCall.set_function_before :: r.2))

/-- A table in the 32-bit form whose entries are the absolute addresses in `l`
(each below `2^32`), followed by the sentinel. -/
def table32 (addr : Nat) (l : List Nat) : PackedFunctions :=
  ⟨addr, fun i => if i / 2 < l.length then
    (if i % 2 = 0 then l.getD (i / 2) 0 / 65536 % 65536 else l.getD (i / 2) 0 % 65536)
    else 65535⟩

/-- A table in the 16-bit form: the sentinel cell, then the displacements in `l`
(as 16-bit cells), then the sentinel. -/
def table16 (addr : Nat) (l : List Nat) : PackedFunctions :=
  ⟨addr, fun i => if i = 0 then 65535 else l.getD (i - 1) 65535⟩

/-- A table in the 16-bit form with 5462 entries (each the displacement `0`) between
the leading sentinel cell and the closing sentinel. -/
def table_5462 : PackedFunctions :=
  ⟨4096, fun i => if i = 0 then 65535 else if i ≤ 5462 then 0 else 65535⟩

/-! ## A memory used as example -/

/-- An example memory.  Headers named `a`: at 4096 (version 2, priority 0), at 4352
(version 1, priority 5), at 4608 (version 1, priority 9) and at 5120 (version 2,
priority 3); a header named `b` at 4864 (version 3, priority -5).  At 8192 starts a
region to scan: a header at 8192 that ends at 8200, a position inside it (8196) that
carries the magic word and a pointer to itself, a position (8200) with the magic
word and a pointer to 8192, and a header at 8204 that ends at 8208.  Arrays: at
16384 a link (bit 31 set) to the array at 20480 and the terminator; at 20480 the
header 4864 and the terminator; at 24576 the headers 4096, 4352, 4864 and the
terminator. -/
def rom : Memory :=
  { resident := fun p =>
      if p = 4096 then ⟨0x4afc, 4096, 4128, 1, 2, 0, [97]⟩
      else if p = 4352 then ⟨0x4afc, 4352, 4384, 1, 1, 5, [97]⟩
      else if p = 4608 then ⟨0x4afc, 4608, 4640, 1, 1, 9, [97]⟩
      else if p = 4864 then ⟨0x4afc, 4864, 4896, 2, 3, -5, [98]⟩
      else if p = 5120 then ⟨0x4afc, 5120, 5152, 1, 2, 3, [97]⟩
      else if p = 8192 then ⟨0x4afc, 8192, 8200, 1, 1, 0, [99]⟩
      else if p = 8196 then ⟨0x4afc, 8196, 8198, 1, 1, 0, [100]⟩
      else if p = 8200 then ⟨0x4afc, 8192, 8202, 1, 1, 0, [101]⟩
      else if p = 8202 then ⟨0, 8202, 8204, 1, 1, 0, [102]⟩
      else if p = 8204 then ⟨0x4afc, 8204, 8208, 1, 1, 4, [103]⟩
      else ⟨0, 0, 0, 0, 0, 0, []⟩,
    entry := fun p =>
      if p = 16384 then 2147483648 + 20480
      else if p = 20480 then 4864
      else if p = 24576 then 4096
      else if p = 24580 then 4352
      else if p = 24584 then 4864
      else 0 }

/-! ## Chains without adjacent chunks -/

/-- Chunk `a` ends strictly below the start of chunk `b`: the two are in ascending
order, do not overlap and are not adjacent. -/
def Chunk.apart (a b : Chunk) : Prop := a.addr + a.size < b.addr

instance (a b : Chunk) : Decidable (a.apart b) := by
  unfold Chunk.apart; infer_instance

/-- Byte `x` belongs to a chunk of the chain. -/
def chain_holds (l : List Chunk) (x : Nat) : Prop :=
  ∃ c ∈ l, c.addr ≤ x ∧ x < c.addr + c.size

/-! ## Linked lists in memory (`list.hpp`, `list.cpp`) -/

/-- Store of the pointer `v` in the 32-bit cell at address `a`. -/
def store (mem : Nat → Nat) (a v : Nat) : Nat → Nat :=
  fun i => if i = a then v else mem i

/-- Field `next` of the `MinNode` at `n` (the cell at `n`). -/
def MinNode.next (mem : Nat → Nat) (n : Nat) : Nat := mem n

/-- Field `prev` of the `MinNode` at `n` (the cell at `n + 4`). -/
def MinNode.prev (mem : Nat → Nat) (n : Nat) : Nat := mem (n + 4)

/-- Method `MinNode::remove`: `prev->next = next; next->prev = prev;`. -/
def MinNode.remove (mem : Nat → Nat) (this : Nat) : Nat → Nat :=
  let m1 := store mem (MinNode.prev mem this) (MinNode.next mem this)
  store m1 (MinNode.next m1 this + 4) (MinNode.prev m1 this)

/-- Method `MinNode::insert_after`: `prev = that; next = that->next;
next->prev = that->next = this;`. -/
def MinNode.insert_after (mem : Nat → Nat) (this that : Nat) : Nat → Nat :=
  let m1 := store mem (this + 4) that
  let m2 := store m1 this (MinNode.next m1 that)
  let m3 := store m2 that this
  store m3 (MinNode.next m3 this + 4) this

/-- Method `MinNode::insert_before`: `next = that; prev = that->prev;
prev->next = that->prev = this;`. -/
def MinNode.insert_before (mem : Nat → Nat) (this that : Nat) : Nat → Nat :=
  let m1 := store mem this that
  let m2 := store m1 (this + 4) (MinNode.prev m1 that)
  let m3 := store m2 (that + 4) this
  store m3 (MinNode.prev m3 this) this

/-- Method `MinList::head_node` of the list at `list`: the address of the field
`head`, read as a `MinNode`. -/
def MinList.head_node (list : Nat) : Nat := list

/-- Method `MinList::tail_node`: the address of the field `tail`, read as a `MinNode`
(its `prev` is the field `tail_prev`). -/
def MinList.tail_node (list : Nat) : Nat := list + 4

/-- Constructor `MinList::MinList()`: `head(tail_node()), tail(nullptr),
tail_prev(head_node())`. -/
def MinList.ctor (mem : Nat → Nat) (list : Nat) : Nat → Nat :=
  store (store (store mem list (MinList.tail_node list)) (list + 4) 0) (list + 8)
    (MinList.head_node list)

/-- Method `MinList::isempty`: `head == tail_node()`. -/
def MinList.isempty (mem : Nat → Nat) (list : Nat) : Bool :=
  decide (mem list = MinList.tail_node list)

/-- Method `MinList::unshift`: `that->next = head; that->prev = head_node();
head->prev = that; head = that;`. -/
def MinList.unshift (mem : Nat → Nat) (list that : Nat) : Nat → Nat :=
  let m1 := store mem that (mem list)
  let m2 := store m1 (that + 4) (MinList.head_node list)
  let m3 := store m2 (m2 list + 4) that
  store m3 list that

/-- Method `MinList::push`: `that->prev = tail_prev; that->next = tail_node();
tail_prev->next = that; tail_prev = that;`. -/
def MinList.push (mem : Nat → Nat) (list that : Nat) : Nat → Nat :=
  let m1 := store mem (that + 4) (mem (list + 8))
  let m2 := store m1 that (MinList.tail_node list)
  let m3 := store m2 (m2 (list + 8)) that
  store m3 (list + 8) that

/-- Method `MinList::shift`: the node returned (`0` for `nullptr`) and the memory. -/
def MinList.shift (mem : Nat → Nat) (list : Nat) : Nat × (Nat → Nat) :=
  if MinList.isempty mem list then (0, mem) else (mem list, MinNode.remove mem (mem list))

/-- Method `MinList::pop`: the node returned (`0` for `nullptr`) and the memory. -/
def MinList.pop (mem : Nat → Nat) (list : Nat) : Nat × (Nat → Nat) :=
  if MinList.isempty mem list then (0, mem)
  else (mem (list + 8), MinNode.remove mem (mem (list + 8)))

/-- Method `MinList::remove(node)`. -/
def MinList.remove (mem : Nat → Nat) (node : Nat) : Nat × (Nat → Nat) :=
  (node, MinNode.remove mem node)

/-- Method `MinList::insert_after(existing, inserted)`. -/
def MinList.insert_after (mem : Nat → Nat) (existing inserted : Nat) : Nat → Nat :=
  MinNode.insert_after mem inserted existing

/-- Method `MinList::insert_before(existing, inserted)`. -/
def MinList.insert_before (mem : Nat → Nat) (existing inserted : Nat) : Nat → Nat :=
  MinNode.insert_before mem inserted existing

/-- The forward iteration `for(i = begin(); i != end(); ++i)` over the list at
`list`: the nodes visited, in order; `none` when the fuel runs out. -/
def MinList.iterate (mem : Nat → Nat) (list : Nat) : Nat → Nat → Option (List Nat)
  | 0, _ => none
  | fuel + 1, i =>
    if i ≠ MinList.tail_node list then
      (MinList.iterate mem list fuel (MinNode.next mem i)).map (fun l => i :: l)
    else some []

/-- The nodes of the list at `list` from `begin()` on. -/
def MinList.nodes (mem : Nat → Nat) (list fuel : Nat) : Option (List Nat) :=
  MinList.iterate mem list fuel (mem list)

/-- The loop of `List::find_name(name, node)`: `while(++i != e) if(!strcmp(name,
i->name)) return *i; return nullptr;`, where `name_of n` is the string that the
field `name` of the node at `n` points to.  `none` when the fuel runs out. -/
def List.find_name_loop (mem : Nat → Nat) (name_of : Nat → List Nat) (list : Nat)
    (name : List Nat) : Nat → Nat → Option Nat
  | 0, _ => none
  | fuel + 1, i =>
    if MinNode.next mem i ≠ MinList.tail_node list then
      if strcmp name (name_of (MinNode.next mem i)) = 0 then some (MinNode.next mem i)
      else List.find_name_loop mem name_of list name fuel (MinNode.next mem i)
    else some 0

/-- Method `List::find_name(name, node)` on the list at `list`: the iteration starts
at `node`, or at the head marker when `node` is null. -/
def List.find_name_from (mem : Nat → Nat) (name_of : Nat → List Nat) (list fuel : Nat)
    (name : List Nat) (node : Nat) : Option Nat :=
  List.find_name_loop mem name_of list name fuel
    (if node ≠ 0 then node else MinList.head_node list)

/-- A call of one of the methods that change a `MinList`. -/
inductive ListOp where
  | push (that : Nat)
  | unshift (that : Nat)
  | shift
  | pop
  | remove (node : Nat)
  | insert_before (existing inserted : Nat)
  | insert_after (existing inserted : Nat)
deriving DecidableEq, Repr

/-- The memory after a call on the list at `list`. -/
def MinList.apply (mem : Nat → Nat) (list : Nat) : ListOp → Nat → Nat
  | .push that => MinList.push mem list that
  | .unshift that => MinList.unshift mem list that
  | .shift => (MinList.shift mem list).2
  | .pop => (MinList.pop mem list).2
  | .remove node => (MinList.remove mem node).2
  | .insert_before existing inserted => MinList.insert_before mem existing inserted
  | .insert_after existing inserted => MinList.insert_after mem existing inserted

/-- The memory after a sequence of calls. -/
def MinList.run (mem : Nat → Nat) (list : Nat) : List ListOp → Nat → Nat
  | [] => mem
  | op :: ops => MinList.run (MinList.apply mem list op) list ops

/-- The sequence of nodes after a call, the list being read as the sequence of its
nodes from head to tail. -/
def ListOp.on (nodes : List Nat) : ListOp → List Nat
  | .push that => nodes ++ [that]
  | .unshift that => that :: nodes
  | .shift => nodes.tail
  | .pop => nodes.dropLast
  | .remove node => nodes.erase node
  | .insert_before existing inserted =>
    nodes.takeWhile (fun n => n ≠ existing) ++ inserted :: nodes.dropWhile (fun n => n ≠ existing)
  | .insert_after existing inserted =>
    nodes.takeWhile (fun n => n ≠ existing) ++
      (nodes.dropWhile (fun n => n ≠ existing)).take 1 ++
      inserted :: (nodes.dropWhile (fun n => n ≠ existing)).drop 1

/-- The sequence of nodes after a sequence of calls. -/
def ListOp.run (nodes : List Nat) : List ListOp → List Nat
  | [] => nodes
  | op :: ops => ListOp.run (op.on nodes) ops

/-- A node record at `n` (its two link cells) lies clear of the three cells of the
list header at `list` and of the node records in `nodes`. -/
def node_clear (list : Nat) (nodes : List Nat) (n : Nat) : Prop :=
  (n + 8 ≤ list ∨ list + 12 ≤ n) ∧ ∀ m ∈ nodes, n + 8 ≤ m ∨ m + 8 ≤ n

instance (list : Nat) (nodes : List Nat) (n : Nat) : Decidable (node_clear list nodes n) := by
  unfold node_clear; infer_instance

/-- A call is applied as the source intends: a node that is added is not in the
list and its record lies clear of the list; a node that is removed, or next to
which a node is inserted, is in the list. -/
def ListOp.fits (list : Nat) (nodes : List Nat) : ListOp → Prop
  | .push that => node_clear list nodes that
  | .unshift that => node_clear list nodes that
  | .shift => True
  | .pop => True
  | .remove node => node ∈ nodes
  | .insert_before existing inserted => existing ∈ nodes ∧ node_clear list nodes inserted
  | .insert_after existing inserted => existing ∈ nodes ∧ node_clear list nodes inserted

/-- Every call of a sequence fits the list it is applied to. -/
def ListOp.all_fit (list : Nat) : List Nat → List ListOp → Prop
  | _, [] => True
  | nodes, op :: ops => op.fits list nodes ∧ ListOp.all_fit list (op.on nodes) ops

/-- The link of two neighbours: `u.next == v` and `v.prev == u`. -/
def linked (mem : Nat → Nat) (u v : Nat) : Prop :=
  MinNode.next mem u = v ∧ MinNode.prev mem v = u

/-- The list at `list` holds the nodes `nodes`, in this order: from the head marker
through the nodes to the tail marker every two neighbours are linked, the field
`tail` is null, and the node records lie clear of the header and of each other. -/
def MinList.Holds (mem : Nat → Nat) (list : Nat) (nodes : List Nat) : Prop :=
  List.Chain' (linked mem) (MinList.head_node list :: nodes ++ [MinList.tail_node list]) ∧
  mem (list + 4) = 0 ∧
  (∀ n ∈ nodes, n + 8 ≤ list ∨ list + 12 ≤ n) ∧
  nodes.Pairwise (fun a b => a + 8 ≤ b ∨ b + 8 ≤ a)

/-- Modelled from the spec: the loop of method `List::enqueue` on the list at `list`,
which `list.hpp` declares and no compiled source defines (the body in `list.cpp` sits
in a disabled block and reads the same): `for(Node *np : *this) if(np->priority <
node_->priority) return node_->insert_before(np); return this->push(node_);`, where
`node_of n` is the record of the node at `n`.  `none` when the fuel runs out. -/
def List.enqueue_loop (mem : Nat → Nat) (node_of : Nat → Node) (list node_ : Nat) :
    Nat → Nat → Option (Nat → Nat)
  | 0, _ => none
  | fuel + 1, np =>
    if np ≠ MinList.tail_node list then
      if (node_of np).priority < (node_of node_).priority then
        some (MinNode.insert_before mem node_ np)
      else List.enqueue_loop mem node_of list node_ fuel (MinNode.next mem np)
    else some (MinList.push mem list node_)

/-- Modelled from the spec: method `List::enqueue` on the links in memory, the
iteration starting at `begin()`. -/
def List.enqueue_links (mem : Nat → Nat) (node_of : Nat → Node) (list node_ fuel : Nat) :
    Option (Nat → Nat) :=
  List.enqueue_loop mem node_of list node_ fuel (mem list)

/-- A list built by a constructor call and three calls of `push`, the node records
at 2000, 3000 and 4000, the header at 1000. -/
def list_three : Nat → Nat :=
  MinList.run (MinList.ctor (fun _ => 0) 1000) 1000
    [ListOp.push 2000, ListOp.push 3000, ListOp.push 4000]

/-- The records of the nodes of `list_three`: priorities 5, 5 and 0, names `a`, `b`
and `a`; the record at 5000 has priority 5 and the name `b`. -/
def node_three (n : Nat) : Node :=
  if n = 2000 then ⟨0, 5, [97]⟩
  else if n = 3000 then ⟨0, 5, [98]⟩
  else if n = 4000 then ⟨0, 0, [97]⟩
  else ⟨0, 5, [98]⟩

/-- A sequence of calls that uses every method that changes a list. -/
def calls_eight : List ListOp :=
  [ListOp.push 2000, ListOp.push 3000, ListOp.unshift 4000, ListOp.insert_before 3000 5000,
    ListOp.insert_after 4000 6000, ListOp.remove 2000, ListOp.shift, ListOp.pop]


/-! ## Libraries and their jump tables (`library.cpp`) -/

/-- Constant `Library::LIBF_CHANGED`. -/
def LIBF_CHANGED : Nat := 2
/-- Constant `Library::LIBF_SUMUSED`. -/
def LIBF_SUMUSED : Nat := 4

/-- The big-endian `uint16_t` at byte offset `o`. -/
def read16 (bytes : Int → Nat) (o : Int) : Nat := bytes o * 256 + bytes (o + 1)

/-- The big-endian `uint32_t` at byte offset `o`. -/
def read32 (bytes : Int → Nat) (o : Int) : Nat :=
  ((bytes o * 256 + bytes (o + 1)) * 256 + bytes (o + 2)) * 256 + bytes (o + 3)

/-- Store of a `uint16_t` at byte offset `o`. -/
def write16 (bytes : Int → Nat) (o : Int) (v : Nat) : Int → Nat :=
  fun i => if i = o then v / 256 % 256 else if i = o + 1 then v % 256 else bytes i

/-- Store of a `uint32_t` at byte offset `o`. -/
def write32 (bytes : Int → Nat) (o : Int) (v : Nat) : Int → Nat :=
  fun i => if i = o then v / 16777216 % 256 else if i = o + 1 then v / 65536 % 256
    else if i = o + 2 then v / 256 % 256 else if i = o + 3 then v % 256 else bytes i

/-- Class `Library`: the fields `flags` (a `uint8_t`), `neg_size` (a `uint16_t`) and
`sum` (a `uint32_t`), and the memory around the library base: `bytes o` is the byte
at `this + o`, so the jump table is at the negative offsets.  The fields are kept
apart from `bytes`: a store at a non-negative offset does not reach them. -/
structure Library where
  flags : Nat
  neg_size : Nat
  sum : Nat
  bytes : Int → Nat

/-- Method `Library::Function::set_function` on the vector at byte offset `o`: the
opcode `0x4ef9`, the address, and the opcode `0x4afc` instead when the address is
null. -/
def Library.Function.set_function (bytes : Int → Nat) (o : Int) (fn : Nat) : Int → Nat :=
  let b1 := write16 bytes o 0x4ef9
  let b2 := write32 b1 (o + 2) fn
  if read32 b2 (o + 2) = 0 then write16 b2 o 0x4afc else b2

/-- Method `Library::set_function_before`. -/
def Library.set_function_before (l : Library) : Library :=
  { l with flags := l.flags ||| LIBF_CHANGED }

/-- Method `Library::set_function(offset, function)`: the old address of the vector
at `get_function(offset)` and the library with the vector rewritten. -/
def Library.set_function (l : Library) (offset : Int) (function : Nat) : Nat × Library :=
  (read32 l.bytes (offset + 2),
   { l with bytes := Library.Function.set_function l.bytes offset function })

/-- The summing loop of `Library::sum_library` with `k` cells left below the base
and the running `uint16_t newsum`. -/
def Library.sum_loop (l : Library) : Nat → Nat → Nat
  | 0, newsum => newsum
  | k + 1, newsum =>
    Library.sum_loop l k ((newsum + read16 l.bytes (-(2 * ((k : Int) + 1)))) % 65536)

/-- Method `Library::sum_library`: the library afterwards and whether
`execbase->Alert(0x81000003)` was called (`ExecBase::Alert` is not among the
sources; the library is given as it is when the call returns).  The first test
is `!flags & LIBF_SUMUSED`, the negation applying to `flags`. -/
def Library.sum_library (l : Library) : Library × Bool :=
  if (if l.flags = 0 then 1 else 0) &&& LIBF_SUMUSED ≠ 0 then (l, false)
  else
    let count := l.neg_size / 2
    let newsum := l.sum_loop count 0
    if l.flags &&& LIBF_CHANGED ≠ 0 then
      ({ l with flags := l.flags &&& (255 - LIBF_CHANGED), sum := newsum }, false)
    else if l.sum ≠ 0 ∧ l.sum ≠ newsum then ({ l with sum := newsum }, true)
    else ({ l with sum := newsum }, false)

/-- Method `Library::set_function_after`. -/
def Library.set_function_after (l : Library) : Library × Bool := l.sum_library

/-- One call made on a library. -/
def Library.call (l : Library) : LibraryCall → Library
  | .set_function_before => l.set_function_before
  | .set_function offset function => (l.set_function offset function).2
  | .set_function_after => l.set_function_after.1

/-- A sequence of calls made on a library, in order. -/
def Library.run (l : Library) (calls : List LibraryCall) : Library :=
  calls.foldl Library.call l

/-- Method `PackedFunctions::unpack(library)` with its effect on the library: the
value returned and the library afterwards. -/
def PackedFunctions.unpack_library (t : PackedFunctions) (fuel : Nat) (library : Library) :
    Option (Nat × Library) :=
  (t.unpack fuel).map (fun r => (r.1, library.run r.2))

/-- Method `PackedFunctions::unpack(library, reference)` with its effect on the
library. -/
def PackedFunctions.unpack_library_with (t : PackedFunctions) (fuel : Nat) (library : Library)
    (reference : Nat) : Option (Nat × Library) :=
  (t.unpack_with fuel reference).map (fun r => (r.1, library.run r.2))

/-- The 16-bit wrapping sum of the `neg_size / 2` 16-bit cells below the base. -/
def Library.checksum (l : Library) : Nat :=
  ((List.range (l.neg_size / 2)).map (fun (j : Nat) => read16 l.bytes (-(2 * ((j : Int) + 1))))).sum
    % 65536

/-- A library with a jump table region of 12 bytes, all zero, no flag set and no
checksum stored. -/
def library_12 : Library := ⟨0, 12, 0, fun _ => 0⟩

/-- The jump table of `after` holds `n` vectors, the vector of entry `k` (counted
from 0) at byte offset `-6 * (k + 1)` with the opcode `0x4ef9` and the address
`target k`, or the opcode `0x4afc` when `target k` is null; every byte outside the
`n` vectors is as in `before`. -/
def Library.vectors_written (before after : Library) (n : Nat) (target : Nat → Nat) : Prop :=
  (∀ k, k < n →
    read16 after.bytes (-(6 * ((k : Int) + 1))) = (if target k = 0 then 0x4afc else 0x4ef9) ∧
    read32 after.bytes (-(6 * ((k : Int) + 1)) + 2) = target k) ∧
  (∀ i : Int, (i < -(6 * (n : Int)) ∨ 0 ≤ i) → after.bytes i = before.bytes i)

/-- A library of 12 jump-table bytes whose last cell holds 5, which opted into
checksum protection (`LIBF_SUMUSED` alone is set) and has no checksum stored
(`sum = 0`). -/
def library_unsummed : Library := ⟨LIBF_SUMUSED, 12, 0, fun i => if i = -1 then 5 else 0⟩

/-- A library of 12 jump-table bytes whose last cell holds 5, which opted into
checksum protection and is marked as changed; the stored checksum is 7. -/
def library_changed : Library :=
  ⟨LIBF_SUMUSED ||| LIBF_CHANGED, 12, 7, fun i => if i = -1 then 5 else 0⟩
/-! ## Packed structures (`PackedStruct::unpack`, `library.cpp`) -/

/-- Class `PackedStruct`: the address of `table` and its bytes (`table i` is the
`uint8_t` at `addr + i`). -/
structure PackedStruct where
  addr : Nat
  table : Nat → Nat

/-- The byte that a read through `input` sees, `input` being an address at or above
the table. -/
def PackedStruct.byte (t : PackedStruct) (input : Nat) : Nat := t.table (input - t.addr)

/-- The state of the decode loop of `PackedStruct::unpack`: the cursors `input` and
`target` (addresses) and the bytes of the memory that `target` points into. -/
structure Unpack where
  input : Nat
  target : Nat
  mem : Nat → Nat

/-- Function `bzero(target, size)` on a memory of bytes. -/
def bzero (mem : Nat → Nat) (target size : Nat) : Nat → Nat :=
  fun a => if target ≤ a ∧ a < target + size then 0 else mem a

/-- The bytes of `l` stored from address `a` on. -/
def store_bytes (mem : Nat → Nat) (a : Nat) (l : List Nat) : Nat → Nat :=
  fun i => if a ≤ i ∧ i < a + l.length then l.getD (i - a) 0 else mem i

/-- The loop `while(count--) { *(T *)target = v; target += sizeof(T); }` of a repeat
instruction, `v` being given by its bytes in memory order `pattern`. -/
def repeat_loop (pattern : List Nat) : Nat → Nat → (Nat → Nat) → Nat × (Nat → Nat)
  | 0, target, mem => (target, mem)
  | count + 1, target, mem =>
    repeat_loop pattern count (target + pattern.length) (store_bytes mem target pattern)

/-- The loop `while(count--) *target++ = *input++;` of a copy instruction. -/
def PackedStruct.copy_loop (t : PackedStruct) : Nat → Unpack → Unpack
  | 0, s => s
  | count + 1, s =>
    PackedStruct.copy_loop t count
      ⟨s.input + 1, s.target + 1, store_bytes s.mem s.target [t.byte s.input]⟩

/-- The body of the decode loop of `PackedStruct::unpack` for the non-zero command
byte `code` read at `s.input` (the read does not move `input`). -/
def PackedStruct.step (t : PackedStruct) (code : Nat) (s : Unpack) : Unpack :=
  let count := 1 + (code &&& 0x0f)
  if code &&& 0xc0 = 0x40 then
    if code &&& 0x30 = 0x00 then
      let r := repeat_loop
        [t.byte s.input, t.byte (s.input + 1), t.byte (s.input + 2), t.byte (s.input + 3)]
        count s.target s.mem
      ⟨s.input + 4, r.1, r.2⟩
    else if code &&& 0x30 = 0x10 then
      let r := repeat_loop [t.byte s.input, t.byte (s.input + 1)] count s.target s.mem
      ⟨s.input + 2, r.1, r.2⟩
    else if code &&& 0x30 = 0x20 then
      let r := repeat_loop [t.byte s.input] count s.target s.mem
      ⟨s.input + 1, r.1, r.2⟩
    else s
  else
    let s1 : Unpack :=
      if code &&& 0xc0 = 0x80 then
        ⟨s.input + 2, s.target + t.byte (s.input + 1), s.mem⟩
      else if code &&& 0xc0 = 0xc0 then
        ⟨s.input + 4,
          s.target + (t.byte (s.input + 1) * 65536 + t.byte (s.input + 2) * 256 +
            t.byte (s.input + 3)), s.mem⟩
      else s
    let count1 :=
      if code &&& 0x30 = 0x00 then count * 2 * 2
      else if code &&& 0x30 = 0x10 then count * 2
      else count
    let s2 := t.copy_loop count1 s1
    ⟨(s2.input + 1) % WORD / 2 * 2, s2.target, s2.mem⟩

/-- The decode loop `while(char code = *input) { ... }`: the state in which the loop
is left, `none` when the fuel runs out. -/
def PackedStruct.unpack_loop (t : PackedStruct) : Nat → Unpack → Option Unpack
  | 0, _ => none
  | fuel + 1, s =>
    if t.byte s.input ≠ 0 then PackedStruct.unpack_loop t fuel (t.step (t.byte s.input) s)
    else some s

/-- Method `PackedStruct::unpack(target, size)` on the memory `mem`: the memory
afterwards, `none` when the fuel runs out. -/
def PackedStruct.unpack (t : PackedStruct) (fuel : Nat) (mem : Nat → Nat) (target size : Nat) :
    Option (Nat → Nat) :=
  (t.unpack_loop fuel ⟨t.addr, target, bzero mem target size⟩).map (fun s => s.mem)

/-- A table at 1000 with the instruction `0x60` (repeat a byte once) followed by
zero bytes. -/
def packed_repeat_byte : PackedStruct := ⟨1000, fun i => [0x60].getD i 0⟩

/-- A table at 1000 with the instruction `0x20` (copy one byte, no offset) followed
by zero bytes. -/
def packed_copy_byte : PackedStruct := ⟨1000, fun i => [0x20].getD i 0⟩

/-- A table at 1000 with the instruction `0xa1` (copy two bytes at the offset given
by the next byte), the offset 3, the bytes `0xaa`, `0xbb` and zero bytes. -/
def packed_copy_offset : PackedStruct := ⟨1000, fun i => [0xa1, 0x03, 0xaa, 0xbb].getD i 0⟩

/-- A table at 1000 with the ill-formed instruction `0x70` (a repeat with the unit
width field `0x30`) followed by zero bytes. -/
def packed_ill_formed : PackedStruct := ⟨1000, fun i => [0x70].getD i 0⟩

/-! ## Directory records, `operator new` and `Library::make_library` -/

/-- The size of a `Node` (`struct_size_assert(Node, Node, 14)` in `types.cpp`). -/
def sizeof_Node : Nat := 14

/-- The offset of `entries[n]` in a `MemEntry` (`memory.hpp`): the `Node` base, the
`uint16_t count`, and `n` entries of a 4-byte union and a `uint32_t size` each. -/
def MemEntry.offsetof_entries (n : Nat) : Nat := sizeof_Node + 2 + 8 * n

/-- Two requests of 16 bytes; the second asks for `MEMF_REVERSE`, the first does
not. -/
def request_reverse_second : MemEntryRequest :=
  ⟨2, fun i => if i = 1 then ⟨16, 1, MEMF_REVERSE⟩ else ⟨16, 1, 0⟩⟩

/-- Two requests of 16 bytes, neither of which asks for `MEMF_REVERSE`. -/
def request_forward_both : MemEntryRequest := ⟨2, fun _ => ⟨16, 1, 0⟩⟩

/-- A library of 12 jump-table bytes whose last cell holds 5, which did not opt into
checksum protection (no flag is set); the stored checksum is 7. -/
def library_optout : Library := ⟨0, 12, 7, fun i => if i = -1 then 5 else 0⟩

/-- The library `library_optout` marked as changed (`LIBF_CHANGED` alone is set). -/
def library_optout_changed : Library :=
  ⟨LIBF_CHANGED, 12, 7, fun i => if i = -1 then 5 else 0⟩

/-- A memory with one header, at 8192, that declares its own address as its end. -/
def rom_loop : Memory :=
  { resident := fun p =>
      if p = 8192 then ⟨0x4afc, 8192, 8192, 1, 1, 0, [97]⟩ else ⟨0, 0, 0, 0, 0, 0, []⟩,
    entry := fun _ => 0 }

/-- A memory with two headers: the one at 8192 declares 8256 as its end, the one at
8256 declares 8224, an address inside the body of the first. -/
def rom_back : Memory :=
  { resident := fun p =>
      if p = 8192 then ⟨0x4afc, 8192, 8256, 1, 1, 0, [97]⟩
      else if p = 8256 then ⟨0x4afc, 8256, 8224, 1, 1, 0, [98]⟩
      else ⟨0, 0, 0, 0, 0, 0, []⟩,
    entry := fun _ => 0 }

/-- A memory in which no position holds a header. -/
def rom_blank : Memory :=
  { resident := fun _ => ⟨0, 0, 0, 0, 0, 0, []⟩, entry := fun _ => 0 }

/-- Constant `Heap::MEMF_NONE`. -/
def MEMF_NONE : Nat := 0

/-- Function `allocate` of `new.cpp`, which the `operator new` overloads call.
`AllocMem` stands for `ExecBase::AllocMem`, which the sources call and do not
define: the address it returns for a byte count and a requirements word (`0` for
null).  The size stored in `alloc[0]` is not part of the state. -/
def new_allocate (AllocMem : Nat → Nat → Nat) (size attributes options : Nat) : Nat :=
  let alloc := AllocMem ((size + 8) % WORD) ((attributes + options * 65536) % WORD)
  if alloc ≠ 0 then alloc + 8 else 0

/-- What a call of `Library::make_library` did: the array `alloc` obtained from
`new` (`0` for null), `vector_size`, the pointer `library` (`0` when it was not
computed), the pointer returned, the calls that `unpack` made on the library, and
the bytes of the memory after `initstruct->unpack`. -/
structure MakeLibrary where
  alloc : Nat
  vector_size : Nat
  library : Nat
  ret : Nat
  calls : List LibraryCall
  mem : Nat → Nat

/-- The statement `if(initstruct) initstruct->unpack(target, size);`. -/
def PackedStruct.unpack_if (initstruct : Option PackedStruct) (fuel : Nat) (mem : Nat → Nat)
    (target size : Nat) : Option (Nat → Nat) :=
  match initstruct with
  | some i => i.unpack fuel mem target size
  | none => some mem

/-- The local `vector_size` of `Library::make_library`: `0`, or with a table
`functions->count()` rounded up by `(vector_size + 3) & ~3`. -/
def Library.vector_size (functions : Option PackedFunctions) (fuel : Nat) : Option Nat :=
  match functions with
  | some f => (f.count fuel).map (fun c => (c + 3) % WORD / 4 * 4)
  | none => some 0

/-- The statement `if(functions) functions->unpack(library);`: the calls made on the
library. -/
def PackedFunctions.unpack_if (functions : Option PackedFunctions) (fuel : Nat) :
    Option (List LibraryCall) :=
  match functions with
  | some f => (f.unpack fuel).map Prod.snd
  | none => some []

/-- Method `Library::make_library(functions, initstruct, init, data_size, seg_list)`;
a null `functions`, `initstruct` or `init` is `none`.  `init` is the pointer that
the init function returns (what that function does to the memory is not part of the
state).  `none` when the fuel of one of the loops runs out. -/
def Library.make_library (AllocMem : Nat → Nat → Nat) (functions : Option PackedFunctions)
    (initstruct : Option PackedStruct) (init : Option Nat) (data_size fuel : Nat)
    (mem : Nat → Nat) : Option MakeLibrary :=
  (Library.vector_size functions fuel).bind (fun vector_size =>
    let alloc := new_allocate AllocMem ((vector_size + data_size) % WORD) MEMF_PUBLIC MEMF_NONE
    if alloc = 0 then some ⟨0, vector_size, 0, 0, [], mem⟩
    else
      let library := alloc + vector_size
      (PackedFunctions.unpack_if functions fuel).bind (fun calls =>
        (PackedStruct.unpack_if initstruct fuel mem library data_size).map (fun mem' =>
          ⟨alloc, vector_size, library, init.getD library, calls, mem'⟩)))

/-- The table holds `n` entries before its sentinel, in the form that `count()` and
`unpack(library)` select by the first cell. -/
def PackedFunctions.entries (t : PackedFunctions) (n : Nat) : Prop :=
  (t.displacements 0 = -1 ∧ (∀ i, i < n → t.displacements (1 + i) ≠ -1) ∧
    t.displacements (1 + n) = -1) ∨
  (t.displacements 0 ≠ -1 ∧ (∀ i, i < n → t.pointers i ≠ -1) ∧ t.pointers n = -1)

instance (t : PackedFunctions) (n : Nat) : Decidable (t.entries n) := by
  unfold PackedFunctions.entries; infer_instance

/-- The six bytes of the vector that a `set_function` call writes lie inside
`[alloc, library)`; the calls that mark the library write no vector. -/
def LibraryCall.inside (alloc library : Nat) : LibraryCall → Prop
  | .set_function offset _ => (alloc : Int) ≤ (library : Int) + offset ∧ offset + 6 ≤ 0
  | _ => True

/-- An allocator that grants every request at address 4096. -/
def alloc_at_4096 : Nat → Nat → Nat := fun _ _ => 4096

/-- An allocator that grants a request of 12 bytes at address 4096 and no other
request. -/
def alloc_12_at_4096 : Nat → Nat → Nat := fun size _ => if size = 12 then 4096 else 0

/-! ## Granularity of a zone -/

/-- Every free chunk of the zone starts at a multiple of 8 and has a size that is a
positive multiple of 8. -/
def Heap.Granular (h : Heap) : Prop :=
  ∀ c ∈ h.first, c.addr % 8 = 0 ∧ c.size % 8 = 0 ∧ 0 < c.size

/-! ## Lemmas on rounding and on the allocation walks -/

theorem roundup8_lt (n : Nat) : roundup8 n < WORD := by
  unfold roundup8 WORD; omega

theorem roundup8_spec {n : Nat} (h : n + 7 < WORD) :
    n ≤ roundup8 n ∧ roundup8 n < n + 8 ∧ 8 ∣ roundup8 n := by
  unfold roundup8 at *
  rw [Nat.mod_eq_of_lt h]
  refine ⟨by omega, by omega, Nat.dvd_mul_left 8 _⟩

theorem allocate_chain_some {r : Nat} {l : List Chunk} {p : Nat} {l' : List Chunk}
    (h : allocate_chain r l = some (p, l')) :
    ∃ pre c post, l = pre ++ c :: post ∧ (∀ d ∈ pre, d.size < r) ∧ r ≤ c.size ∧ p = c.addr ∧
      l' = pre ++ (if c.size = r then post else ⟨c.addr + r, c.size - r⟩ :: post) := by
  induction l generalizing p l' with
  | nil => simp [allocate_chain] at h
  | cons c next ih =>
    simp only [allocate_chain] at h
    split_ifs at h with h1 h2
    · simp only [Option.some.injEq, Prod.mk.injEq] at h
      obtain ⟨rfl, rfl⟩ := h
      exact ⟨[], c, next, rfl, by simp, h1, rfl, by simp [h2]⟩
    · simp only [Option.some.injEq, Prod.mk.injEq] at h
      obtain ⟨rfl, rfl⟩ := h
      exact ⟨[], c, next, rfl, by simp, h1, rfl, by simp [h2]⟩
    · cases hn : allocate_chain r next with
      | none => simp [hn] at h
      | some pc =>
        obtain ⟨p', next'⟩ := pc
        simp only [hn, Option.some.injEq, Prod.mk.injEq] at h
        obtain ⟨rfl, rfl⟩ := h
        obtain ⟨pre, c', post, e1, e2, e3, e4, e5⟩ := ih hn
        refine ⟨c :: pre, c', post, by simp [e1], ?_, e3, e4, by simp [e5]⟩
        intro d hd
        rcases List.mem_cons.1 hd with rfl | hd
        · omega
        · exact e2 d hd

theorem allocate_chain_none {r : Nat} {l : List Chunk} :
    allocate_chain r l = none ↔ ∀ d ∈ l, d.size < r := by
  induction l with
  | nil => simp [allocate_chain]
  | cons c next ih =>
    simp only [allocate_chain]
    split_ifs with h1 h2
    · simp; omega
    · simp; omega
    · cases hn : allocate_chain r next with
      | none =>
        simp only [true_iff]
        intro d hd
        rcases List.mem_cons.1 hd with rfl | hd
        · omega
        · exact (ih.1 hn) d hd
      | some pc =>
        simp only [reduceCtorEq, false_iff]
        intro hall
        have := ih.2 (fun d hd => hall d (List.mem_cons_of_mem _ hd))
        simp [hn] at this

theorem allocate_reverse_chain_none {r : Nat} {l : List Chunk} :
    allocate_reverse_chain r l = none ↔ ∀ d ∈ l, d.size < r := by
  induction l with
  | nil => simp [allocate_reverse_chain]
  | cons c next ih =>
    simp only [allocate_reverse_chain]
    cases hn : allocate_reverse_chain r next with
    | none =>
      have hall := ih.1 hn
      simp only
      split_ifs with h1 h2
      · simp; omega
      · simp; omega
      · simp only [true_iff]
        intro d hd
        rcases List.mem_cons.1 hd with rfl | hd
        · omega
        · exact hall d hd
    | some pc =>
      simp only [reduceCtorEq, false_iff]
      intro hall
      have := ih.2 (fun d hd => hall d (List.mem_cons_of_mem _ hd))
      simp [hn] at this

theorem allocate_reverse_chain_some {r : Nat} {l : List Chunk} {p : Nat} {l' : List Chunk}
    (h : allocate_reverse_chain r l = some (p, l')) :
    ∃ pre c post, l = pre ++ c :: post ∧ (∀ d ∈ post, d.size < r) ∧ r ≤ c.size ∧
      p = c.addr + (c.size - r) ∧
      l' = pre ++ (if c.size = r then post else ⟨c.addr, c.size - r⟩ :: post) := by
  induction l generalizing p l' with
  | nil => simp [allocate_reverse_chain] at h
  | cons c next ih =>
    simp only [allocate_reverse_chain] at h
    cases hn : allocate_reverse_chain r next with
    | some pc =>
      obtain ⟨p', next'⟩ := pc
      simp only [hn, Option.some.injEq, Prod.mk.injEq] at h
      obtain ⟨rfl, rfl⟩ := h
      obtain ⟨pre, c', post, e1, e2, e3, e4, e5⟩ := ih hn
      exact ⟨c :: pre, c', post, by simp [e1], e2, e3, e4, by simp [e5]⟩
    | none =>
      have hall := allocate_reverse_chain_none.1 hn
      simp only [hn] at h
      split_ifs at h with h1 h2
      · simp only [Option.some.injEq, Prod.mk.injEq] at h
        obtain ⟨rfl, rfl⟩ := h
        exact ⟨[], c, next, rfl, hall, h1, by omega, by simp [h2]⟩
      · simp only [Option.some.injEq, Prod.mk.injEq] at h
        obtain ⟨rfl, rfl⟩ := h
        exact ⟨[], c, next, rfl, hall, h1, rfl, by simp [h2]⟩


/-! ## Carving a block out of a chain -/

theorem chain_bytes_append (l1 l2 : List Chunk) :
    chain_bytes (l1 ++ l2) = chain_bytes l1 + chain_bytes l2 := by
  induction l1 with
  | nil => simp [chain_bytes]
  | cons c l ih => simp [chain_bytes, ih]; omega

theorem Carved.within {p r : Nat} {l l' : List Chunk} (h : Carved p r l l') :
    ∀ x ∈ l', ∃ c ∈ l, c.addr ≤ x.addr ∧ x.addr + x.size ≤ c.addr + c.size := by
  obtain ⟨pre, c, post, rfl, h1, h2, h3⟩ := h
  intro x hx
  rcases h3 with ⟨_, rfl⟩ | ⟨d, rfl, e1, e0, e2, e3, e4⟩
  · refine ⟨x, ?_, le_refl _, le_refl _⟩
    rcases List.mem_append.1 hx with hx | hx
    · exact List.mem_append_left _ hx
    · exact List.mem_append_right _ (List.mem_cons_of_mem _ hx)
  · rcases List.mem_append.1 hx with hx | hx
    · exact ⟨x, List.mem_append_left _ hx, le_refl _, le_refl _⟩
    · rcases List.mem_cons.1 hx with rfl | hx
      · exact ⟨c, by simp, e2, e3⟩
      · exact ⟨x, List.mem_append_right _ (List.mem_cons_of_mem _ hx), le_refl _, le_refl _⟩

theorem Carved.sorted {p r : Nat} {l l' : List Chunk} (h : Carved p r l l')
    (hs : l.Pairwise Chunk.before) : l'.Pairwise Chunk.before := by
  obtain ⟨pre, c, post, rfl, h1, h2, h3⟩ := h
  rw [List.pairwise_append] at hs
  obtain ⟨hpre, hcp, hx⟩ := hs
  rw [List.pairwise_cons] at hcp
  obtain ⟨hc, hpost⟩ := hcp
  rcases h3 with ⟨_, rfl⟩ | ⟨d, rfl, e1, e0, e2, e3, e4⟩
  · rw [List.pairwise_append]
    exact ⟨hpre, hpost, fun a ha b hb => hx a ha b (List.mem_cons_of_mem _ hb)⟩
  · rw [List.pairwise_append, List.pairwise_cons]
    refine ⟨hpre, ⟨?_, hpost⟩, ?_⟩
    · intro b hb
      have := hc b hb
      unfold Chunk.before at *
      omega
    · intro a ha b hb
      rcases List.mem_cons.1 hb with rfl | hb
      · have := hx a ha c (by simp)
        unfold Chunk.before at *
        omega
      · exact hx a ha b (List.mem_cons_of_mem _ hb)

theorem Carved.bytes {p r : Nat} {l l' : List Chunk} (h : Carved p r l l') :
    chain_bytes l' + r = chain_bytes l := by
  obtain ⟨pre, c, post, rfl, h1, h2, h3⟩ := h
  rcases h3 with ⟨e, rfl⟩ | ⟨d, rfl, e1, e0, e2, e3, e4⟩
  · simp only [chain_bytes_append, chain_bytes]; omega
  · simp only [chain_bytes_append, chain_bytes]; omega

/-- the carved block lies inside a chunk of the old chain -/
theorem Carved.block {p r : Nat} {l l' : List Chunk} (h : Carved p r l l') :
    ∃ c ∈ l, c.addr ≤ p ∧ p + r ≤ c.addr + c.size := by
  obtain ⟨pre, c, post, rfl, h1, h2, -⟩ := h
  exact ⟨c, by simp, h1, h2⟩

theorem Carved.clear_mono {p r : Nat} {l l' : List Chunk} (h : Carved p r l l')
    {q s : Nat} (hq : span_clear q s l) : span_clear q s l' := by
  intro x hx
  obtain ⟨c, hc, h1, h2⟩ := h.within x hx
  have := hq c hc
  omega

theorem Carved.disjoint {p r : Nat} {l l' : List Chunk} (h : Carved p r l l')
    {q s : Nat} (hq : span_clear q s l) : q + s ≤ p ∨ p + r ≤ q := by
  obtain ⟨c, hc, h1, h2⟩ := h.block
  have := hq c hc
  omega

theorem Carved.clear_self {p r : Nat} {l l' : List Chunk} (h : Carved p r l l')
    (hs : l.Pairwise Chunk.before) : span_clear p r l' := by
  obtain ⟨pre, c, post, rfl, h1, h2, h3⟩ := h
  rw [List.pairwise_append] at hs
  obtain ⟨hpre, hcp, hx⟩ := hs
  rw [List.pairwise_cons] at hcp
  obtain ⟨hc, hpost⟩ := hcp
  have hA : ∀ a ∈ pre, p + r ≤ a.addr ∨ a.addr + a.size ≤ p := by
    intro a ha
    have := hx a ha c (by simp)
    unfold Chunk.before at this
    omega
  have hB : ∀ b ∈ post, p + r ≤ b.addr ∨ b.addr + b.size ≤ p := by
    intro b hb
    have := hc b hb
    unfold Chunk.before at this
    omega
  intro x hx'
  rcases h3 with ⟨_, rfl⟩ | ⟨d, rfl, e1, e0, e2, e3, e4⟩
  · rcases List.mem_append.1 hx' with hx' | hx'
    · exact hA x hx'
    · exact hB x hx'
  · rcases List.mem_append.1 hx' with hx' | hx'
    · exact hA x hx'
    · rcases List.mem_cons.1 hx' with rfl | hx'
      · exact e4
      · exact hB x hx'

theorem Carved.of_allocate_chain {r : Nat} {l : List Chunk} {p : Nat} {l' : List Chunk}
    (h : allocate_chain r l = some (p, l')) : Carved p r l l' := by
  obtain ⟨pre, c, post, rfl, -, h3, rfl, rfl⟩ := allocate_chain_some h
  refine ⟨pre, c, post, rfl, le_refl _, by omega, ?_⟩
  by_cases hc : c.size = r
  · left; simp [hc]
  · right
    exact ⟨⟨c.addr + r, c.size - r⟩, by simp [hc], by simp; omega, by simp; omega,
      by simp, by simp; omega, by simp⟩

theorem Carved.of_allocate_reverse_chain {r : Nat} {l : List Chunk} {p : Nat}
    {l' : List Chunk} (h : allocate_reverse_chain r l = some (p, l')) : Carved p r l l' := by
  obtain ⟨pre, c, post, rfl, -, h3, rfl, rfl⟩ := allocate_reverse_chain_some h
  refine ⟨pre, c, post, rfl, by omega, by omega, ?_⟩
  by_cases hc : c.size = r
  · left; simp [hc]
  · right
    exact ⟨⟨c.addr, c.size - r⟩, by simp [hc], by simp; omega, by simp; omega,
      by simp, by simp, by simp⟩


/-! ## Lemmas on `Heap::deallocate` -/

theorem deallocate_next_shape {m r : Nat} {pchunk : List Chunk} {size' : Nat}
    {mc_next : List Chunk} (h : deallocate_next m r pchunk = some (size', mc_next)) :
    (pchunk = [] ∧ size' = r ∧ mc_next = []) ∨
    (∃ n, pchunk = n :: mc_next ∧ n.addr = m + r ∧ size' = (r + n.size) % WORD) ∨
    (∃ n rest, pchunk = n :: rest ∧ m + r < n.addr ∧ size' = r ∧ mc_next = n :: rest) := by
  cases pchunk with
  | nil =>
    simp only [deallocate_next, Option.some.injEq, Prod.mk.injEq] at h
    exact Or.inl ⟨rfl, h.1.symm, h.2.symm⟩
  | cons n rest =>
    simp only [deallocate_next] at h
    split_ifs at h with h1 h2
    · simp only [Option.some.injEq, Prod.mk.injEq] at h
      exact Or.inr (Or.inl ⟨n, by rw [h.2], h1, h.1.symm⟩)
    · simp only [Option.some.injEq, Prod.mk.injEq] at h
      exact Or.inr (Or.inr ⟨n, rest, rfl, by omega, h.1.symm, h.2.symm⟩)

theorem deallocate_previous_shape {m size' : Nat} {mc_next : List Chunk}
    {prev : Option Chunk} {l' : List Chunk}
    (h : deallocate_previous m size' mc_next prev = some l') :
    (prev = none ∧ l' = ⟨m, size'⟩ :: mc_next) ∨
    (∃ pv, prev = some pv ∧ pv.addr + pv.size = m ∧
      l' = ⟨pv.addr, (pv.size + size') % WORD⟩ :: mc_next) ∨
    (∃ pv, prev = some pv ∧ pv.addr + pv.size < m ∧ l' = pv :: ⟨m, size'⟩ :: mc_next) := by
  cases prev with
  | none =>
    simp only [deallocate_previous, Option.some.injEq] at h
    exact Or.inl ⟨rfl, h.symm⟩
  | some pv =>
    simp only [deallocate_previous] at h
    split_ifs at h with h1 h2
    · simp only [Option.some.injEq] at h
      exact Or.inr (Or.inl ⟨pv, rfl, h1, h.symm⟩)
    · simp only [Option.some.injEq] at h
      exact Or.inr (Or.inr ⟨pv, rfl, by omega, h.symm⟩)

theorem deallocate_link_some {m r : Nat} {prev : Option Chunk} {pchunk l' : List Chunk}
    (h : deallocate_link m r prev pchunk = some l') :
    ∃ size' mc_next, deallocate_next m r pchunk = some (size', mc_next) ∧
      deallocate_previous m size' mc_next prev = some l' := by
  unfold deallocate_link at h
  cases hn : deallocate_next m r pchunk with
  | none => simp [hn] at h
  | some sm =>
    obtain ⟨size', mc_next⟩ := sm
    simp only [hn] at h
    exact ⟨size', mc_next, rfl, h⟩


theorem pairwise_before_tail {a : Chunk} {l : List Chunk}
    (h : (a :: l).Pairwise Chunk.before) : ∀ b ∈ l, a.addr + a.size ≤ b.addr ∧ a.addr < b.addr :=
  fun b hb => (List.pairwise_cons.1 h).1 b hb

/-! ### order -/

theorem deallocate_next_sorted {m r : Nat} {pchunk : List Chunk} {size' : Nat}
    {mc_next : List Chunk} (h : deallocate_next m r pchunk = some (size', mc_next))
    (hs : pchunk.Pairwise Chunk.before) (hm : ∀ b ∈ pchunk, m < b.addr) :
    (⟨m, size'⟩ :: mc_next : List Chunk).Pairwise Chunk.before := by
  rcases deallocate_next_shape h with ⟨rfl, rfl, rfl⟩ | ⟨n, rfl, h1, rfl⟩ |
    ⟨n, rest, rfl, h1, hsz, rfl⟩
  · simp
  · have hn := pairwise_before_tail hs
    refine List.pairwise_cons.2 ⟨?_, (List.pairwise_cons.1 hs).2⟩
    intro b hb
    have h2 := hn b hb
    have h3 := Nat.mod_le (r + n.size) WORD
    show m + (r + n.size) % WORD ≤ b.addr ∧ m < b.addr
    omega
  · have hn := pairwise_before_tail hs
    refine List.pairwise_cons.2 ⟨?_, hs⟩
    intro b hb
    subst hsz
    show m + size' ≤ b.addr ∧ m < b.addr
    rcases List.mem_cons.1 hb with rfl | hb
    · omega
    · have h2 := hn b hb
      omega

theorem deallocate_previous_sorted {m size' : Nat} {mc_next : List Chunk}
    {prev : Option Chunk} {l' : List Chunk}
    (h : deallocate_previous m size' mc_next prev = some l')
    (hs : (⟨m, size'⟩ :: mc_next : List Chunk).Pairwise Chunk.before) :
    l'.Pairwise Chunk.before := by
  have hx := pairwise_before_tail hs
  rcases deallocate_previous_shape h with ⟨rfl, rfl⟩ | ⟨pv, rfl, h1, rfl⟩ | ⟨pv, rfl, h1, rfl⟩
  · exact hs
  · refine List.pairwise_cons.2 ⟨?_, (List.pairwise_cons.1 hs).2⟩
    intro b hb
    have h2 := hx b hb
    have h3 := Nat.mod_le (pv.size + size') WORD
    show pv.addr + (pv.size + size') % WORD ≤ b.addr ∧ pv.addr < b.addr
    simp only at h2
    omega
  · refine List.pairwise_cons.2 ⟨?_, hs⟩
    intro b hb
    show pv.addr + pv.size ≤ b.addr ∧ pv.addr < b.addr
    rcases List.mem_cons.1 hb with rfl | hb
    · simp only; omega
    · have h2 := hx b hb
      simp only at h2
      omega

/-! ### lower bound on the addresses -/

theorem deallocate_link_lb {m r : Nat} {prev : Option Chunk} {pchunk l' : List Chunk}
    (h : deallocate_link m r prev pchunk = some l') {k : Nat}
    (hk : ∀ y ∈ prev.toList ++ pchunk, k ≤ y.addr) (hm : k ≤ m) : ∀ x ∈ l', k ≤ x.addr := by
  obtain ⟨size', mc_next, hn, hp⟩ := deallocate_link_some h
  have hsub : ∀ b ∈ mc_next, b ∈ pchunk := by
    rcases deallocate_next_shape hn with ⟨rfl, -, rfl⟩ | ⟨n, rfl, h1, -⟩ |
      ⟨n, rest, rfl, h1, -, rfl⟩
    · simp
    · intro b hb; exact List.mem_cons_of_mem _ hb
    · intro b hb; exact hb
  have hnext : ∀ b ∈ mc_next, k ≤ b.addr :=
    fun b hb => hk b (List.mem_append_right _ (hsub b hb))
  intro x hx
  rcases deallocate_previous_shape hp with ⟨rfl, rfl⟩ | ⟨pv, rfl, h1, rfl⟩ | ⟨pv, rfl, h1, rfl⟩
  · rcases List.mem_cons.1 hx with rfl | hx
    · exact hm
    · exact hnext x hx
  · have := hk pv (by simp)
    rcases List.mem_cons.1 hx with rfl | hx
    · exact this
    · exact hnext x hx
  · have := hk pv (by simp)
    rcases List.mem_cons.1 hx with rfl | hx
    · exact this
    · rcases List.mem_cons.1 hx with rfl | hx
      · exact hm
      · exact hnext x hx

theorem deallocate_chain_lb {m r : Nat} {prev : Option Chunk} {l l' : List Chunk}
    (h : deallocate_chain m r prev l = some l') {k : Nat}
    (hk : ∀ y ∈ prev.toList ++ l, k ≤ y.addr) (hm : k ≤ m) : ∀ x ∈ l', k ≤ x.addr := by
  induction l generalizing prev l' with
  | nil => exact deallocate_link_lb (by simpa [deallocate_chain] using h) hk hm
  | cons chunk next ih =>
    simp only [deallocate_chain] at h
    split_ifs at h with h1
    · exact deallocate_link_lb h hk hm
    · cases hc : deallocate_chain m r (some chunk) next with
      | none => simp [hc] at h
      | some chain =>
        simp only [hc, Option.some.injEq] at h
        subst h
        intro x hx
        rcases List.mem_append.1 hx with hx | hx
        · exact hk x (List.mem_append_left _ hx)
        · refine ih hc ?_ x hx
          intro y hy
          exact hk y (List.mem_append_right _ (by simpa using hy))

theorem deallocate_chain_sorted {m r : Nat} {prev : Option Chunk} {l l' : List Chunk}
    (h : deallocate_chain m r prev l = some l')
    (hs : (prev.toList ++ l).Pairwise Chunk.before) : l'.Pairwise Chunk.before := by
  induction l generalizing prev l' with
  | nil =>
    simp only [deallocate_chain] at h
    obtain ⟨size', mc_next, hn, hp⟩ := deallocate_link_some h
    exact deallocate_previous_sorted hp (deallocate_next_sorted hn (by simp) (by simp))
  | cons chunk next ih =>
    have hs2 : (chunk :: next).Pairwise Chunk.before := (List.pairwise_append.1 hs).2.1
    simp only [deallocate_chain] at h
    split_ifs at h with h1
    · obtain ⟨size', mc_next, hn, hp⟩ := deallocate_link_some h
      refine deallocate_previous_sorted hp (deallocate_next_sorted hn hs2 ?_)
      intro b hb
      rcases List.mem_cons.1 hb with rfl | hb
      · exact h1
      · have := pairwise_before_tail hs2 b hb
        omega
    · cases hc : deallocate_chain m r (some chunk) next with
      | none => simp [hc] at h
      | some chain =>
        simp only [hc, Option.some.injEq] at h
        subst h
        have hch := ih hc (by simpa using hs2)
        cases prev with
        | none => simpa using hch
        | some a =>
          simp only [Option.toList, List.singleton_append] at hs ⊢
          have ha := pairwise_before_tail hs
          refine List.pairwise_cons.2 ⟨?_, hch⟩
          intro x hx
          have hc1 := ha chunk (by simp)
          have e1 := deallocate_chain_lb hc (k := a.addr + a.size)
            (fun y hy => (ha y (by simpa using hy)).1) (by omega) x hx
          have e2 := deallocate_chain_lb hc (k := a.addr + 1)
            (fun y hy => (ha y (by simpa using hy)).2) (by omega) x hx
          exact ⟨e1, e2⟩


/-! ### upper bound on the chunk ends -/

theorem deallocate_link_ub {m r : Nat} {prev : Option Chunk} {pchunk l' : List Chunk}
    (h : deallocate_link m r prev pchunk = some l') (hi : Nat)
    (hk : ∀ y ∈ prev.toList ++ pchunk, y.addr + y.size ≤ hi) (hm : m + r ≤ hi) :
    ∀ x ∈ l', x.addr + x.size ≤ hi := by
  obtain ⟨size', mc_next, hn, hp⟩ := deallocate_link_some h
  have hnext : (∀ b ∈ mc_next, b.addr + b.size ≤ hi) ∧ m + size' ≤ hi := by
    rcases deallocate_next_shape hn with ⟨rfl, hsz, rfl⟩ | ⟨n, rfl, h1, hsz⟩ |
      ⟨n, rest, rfl, h1, hsz, rfl⟩
    · simp; omega
    · refine ⟨fun b hb => hk b (List.mem_append_right _ (List.mem_cons_of_mem _ hb)), ?_⟩
      have := hk n (by simp)
      have := Nat.mod_le (r + n.size) WORD
      omega
    · exact ⟨fun b hb => hk b (List.mem_append_right _ hb), by omega⟩
  obtain ⟨hnext, hsz⟩ := hnext
  intro x hx
  rcases deallocate_previous_shape hp with ⟨rfl, rfl⟩ | ⟨pv, rfl, h1, rfl⟩ | ⟨pv, rfl, h1, rfl⟩
  · rcases List.mem_cons.1 hx with rfl | hx
    · exact hsz
    · exact hnext x hx
  · rcases List.mem_cons.1 hx with rfl | hx
    · have := Nat.mod_le (pv.size + size') WORD
      show pv.addr + (pv.size + size') % WORD ≤ hi
      omega
    · exact hnext x hx
  · have := hk pv (by simp)
    rcases List.mem_cons.1 hx with rfl | hx
    · exact this
    · rcases List.mem_cons.1 hx with rfl | hx
      · exact hsz
      · exact hnext x hx

theorem deallocate_chain_ub {m r : Nat} {prev : Option Chunk} {l l' : List Chunk}
    (h : deallocate_chain m r prev l = some l') (hi : Nat)
    (hk : ∀ y ∈ prev.toList ++ l, y.addr + y.size ≤ hi) (hm : m + r ≤ hi) :
    ∀ x ∈ l', x.addr + x.size ≤ hi := by
  induction l generalizing prev l' with
  | nil => exact deallocate_link_ub (by simpa [deallocate_chain] using h) hi hk hm
  | cons chunk next ih =>
    simp only [deallocate_chain] at h
    split_ifs at h with h1
    · exact deallocate_link_ub h hi hk hm
    · cases hc : deallocate_chain m r (some chunk) next with
      | none => simp [hc] at h
      | some chain =>
        simp only [hc, Option.some.injEq] at h
        subst h
        intro x hx
        rcases List.mem_append.1 hx with hx | hx
        · exact hk x (List.mem_append_left _ hx)
        · refine ih hc ?_ x hx
          intro y hy
          exact hk y (List.mem_append_right _ (by simpa using hy))

/-! ### the bytes on the chain -/

/-- Below the top of the address space no merge wraps: the chain gains exactly the
released bytes. -/
theorem deallocate_link_bytes_exact {m r : Nat} {prev : Option Chunk} {pchunk l' : List Chunk}
    (h : deallocate_link m r prev pchunk = some l') (hi : Nat)
    (hk : ∀ y ∈ prev.toList ++ pchunk, y.addr + y.size ≤ hi) (hm : m + r ≤ hi)
    (hhi : hi < WORD) :
    chain_bytes l' = chain_bytes (prev.toList ++ pchunk) + r := by
  obtain ⟨size', mc_next, hn, hp⟩ := deallocate_link_some h
  have hnext : size' + chain_bytes mc_next = r + chain_bytes pchunk ∧ m + size' ≤ hi := by
    rcases deallocate_next_shape hn with ⟨rfl, hsz, rfl⟩ | ⟨n, rfl, h1, hsz⟩ |
      ⟨n, rest, rfl, h1, hsz, rfl⟩
    · rw [hsz]; exact ⟨rfl, hm⟩
    · subst hsz
      have := hk n (by simp)
      simp only [chain_bytes]
      unfold WORD at *
      omega
    · rw [hsz]; exact ⟨rfl, hm⟩
  rcases deallocate_previous_shape hp with ⟨rfl, rfl⟩ | ⟨pv, rfl, h1, rfl⟩ | ⟨pv, rfl, h1, rfl⟩
  · simp only [Option.toList, List.nil_append, chain_bytes]
    omega
  · simp only [Option.toList, List.singleton_append]
    simp only [chain_bytes]
    unfold WORD at *
    omega
  · simp only [Option.toList, List.singleton_append]
    simp only [chain_bytes]
    omega

theorem deallocate_chain_bytes_exact {m r : Nat} {prev : Option Chunk} {l l' : List Chunk}
    (h : deallocate_chain m r prev l = some l') (hi : Nat)
    (hk : ∀ y ∈ prev.toList ++ l, y.addr + y.size ≤ hi) (hm : m + r ≤ hi)
    (hhi : hi < WORD) :
    chain_bytes l' = chain_bytes (prev.toList ++ l) + r := by
  induction l generalizing prev l' with
  | nil => exact deallocate_link_bytes_exact (by simpa [deallocate_chain] using h) hi hk hm hhi
  | cons chunk next ih =>
    simp only [deallocate_chain] at h
    split_ifs at h with h1
    · exact deallocate_link_bytes_exact h hi hk hm hhi
    · cases hc : deallocate_chain m r (some chunk) next with
      | none => simp [hc] at h
      | some chain =>
        simp only [hc, Option.some.injEq] at h
        subst h
        have := ih hc (fun y hy => hk y (List.mem_append_right _ (by simpa using hy)))
        simp only [Option.toList, List.singleton_append] at this
        simp only [chain_bytes] at this
        simp only [chain_bytes_append, chain_bytes]
        omega

/-! ### spans that stay clear of the chain -/

theorem deallocate_link_clear {m r : Nat} {prev : Option Chunk} {pchunk l' : List Chunk}
    (h : deallocate_link m r prev pchunk = some l') {q s : Nat} (hs : 0 < s)
    (hq : span_clear q s (prev.toList ++ pchunk)) (hd : q + s ≤ m ∨ m + r ≤ q) :
    span_clear q s l' := by
  obtain ⟨size', mc_next, hn, hp⟩ := deallocate_link_some h
  have hnext : (∀ b ∈ mc_next, q + s ≤ b.addr ∨ b.addr + b.size ≤ q) ∧
      (q + s ≤ m ∨ m + size' ≤ q) := by
    rcases deallocate_next_shape hn with ⟨rfl, hsz, rfl⟩ | ⟨n, rfl, h1, hsz⟩ |
      ⟨n, rest, rfl, h1, hsz, rfl⟩
    · simp; omega
    · refine ⟨fun b hb => hq b (List.mem_append_right _ (List.mem_cons_of_mem _ hb)), ?_⟩
      have := hq n (by simp)
      have := Nat.mod_le (r + n.size) WORD
      omega
    · exact ⟨fun b hb => hq b (List.mem_append_right _ hb), by omega⟩
  obtain ⟨hnext, hsz⟩ := hnext
  intro x hx
  rcases deallocate_previous_shape hp with ⟨rfl, rfl⟩ | ⟨pv, rfl, h1, rfl⟩ | ⟨pv, rfl, h1, rfl⟩
  · rcases List.mem_cons.1 hx with rfl | hx
    · exact hsz
    · exact hnext x hx
  · rcases List.mem_cons.1 hx with rfl | hx
    · have := Nat.mod_le (pv.size + size') WORD
      have := hq pv (by simp)
      show q + s ≤ pv.addr ∨ pv.addr + (pv.size + size') % WORD ≤ q
      omega
    · exact hnext x hx
  · have := hq pv (by simp)
    rcases List.mem_cons.1 hx with rfl | hx
    · exact this
    · rcases List.mem_cons.1 hx with rfl | hx
      · exact hsz
      · exact hnext x hx

theorem deallocate_chain_clear {m r : Nat} {prev : Option Chunk} {l l' : List Chunk}
    (h : deallocate_chain m r prev l = some l') {q s : Nat} (hs : 0 < s)
    (hq : span_clear q s (prev.toList ++ l)) (hd : q + s ≤ m ∨ m + r ≤ q) :
    span_clear q s l' := by
  induction l generalizing prev l' with
  | nil => exact deallocate_link_clear (by simpa [deallocate_chain] using h) hs hq hd
  | cons chunk next ih =>
    simp only [deallocate_chain] at h
    split_ifs at h with h1
    · exact deallocate_link_clear h hs hq hd
    · cases hc : deallocate_chain m r (some chunk) next with
      | none => simp [hc] at h
      | some chain =>
        simp only [hc, Option.some.injEq] at h
        subst h
        intro x hx
        rcases List.mem_append.1 hx with hx | hx
        · exact hq x (List.mem_append_left _ hx)
        · refine ih hc ?_ x hx
          intro y hy
          exact hq y (List.mem_append_right _ (by simpa using hy))

/-! ### no early return on a clear span -/

theorem deallocate_link_isSome {m r : Nat} {prev : Option Chunk} {pchunk : List Chunk}
    (hr : 0 < r) (hq : span_clear m r (prev.toList ++ pchunk))
    (hp : ∀ pv ∈ prev, pv.addr ≤ m) (hn : ∀ b ∈ pchunk, m < b.addr) :
    ∃ l', deallocate_link m r prev pchunk = some l' := by
  have h1 : ∃ sm, deallocate_next m r pchunk = some sm := by
    cases pchunk with
    | nil => exact ⟨_, rfl⟩
    | cons n rest =>
      have := hq n (by simp)
      have := hn n (by simp)
      simp only [deallocate_next]
      split_ifs with h1 h2
      · exact ⟨_, rfl⟩
      · omega
      · exact ⟨_, rfl⟩
  obtain ⟨⟨size', mc_next⟩, h1⟩ := h1
  simp only [deallocate_link, h1]
  cases prev with
  | none => exact ⟨_, rfl⟩
  | some pv =>
    have := hq pv (by simp)
    have := hp pv rfl
    simp only [deallocate_previous]
    split_ifs with h2 h3
    · exact ⟨_, rfl⟩
    · omega
    · exact ⟨_, rfl⟩

theorem deallocate_chain_isSome {m r : Nat} {prev : Option Chunk} {l : List Chunk}
    (hr : 0 < r) (hs : (prev.toList ++ l).Pairwise Chunk.before)
    (hq : span_clear m r (prev.toList ++ l)) (hp : ∀ pv ∈ prev, pv.addr ≤ m) :
    ∃ l', deallocate_chain m r prev l = some l' := by
  induction l generalizing prev with
  | nil => exact deallocate_link_isSome hr hq hp (by simp)
  | cons chunk next ih =>
    have hs2 : (chunk :: next).Pairwise Chunk.before := (List.pairwise_append.1 hs).2.1
    simp only [deallocate_chain]
    split_ifs with h1
    · refine deallocate_link_isSome hr hq hp ?_
      intro b hb
      rcases List.mem_cons.1 hb with rfl | hb
      · exact h1
      · have := pairwise_before_tail hs2 b hb
        omega
    · obtain ⟨chain, hc⟩ := @ih (some chunk) (by simpa using hs2)
        (fun y hy => hq y (List.mem_append_right _ (by simpa using hy)))
        (by intro pv hpv; cases hpv; omega)
      exact ⟨prev.toList ++ chain, by simp [hc]⟩


/-! ## Lemmas on the zone operations -/

theorem chain_bytes_le {l : List Chunk} (hs : l.Pairwise Chunk.before) (lo hi : Nat)
    (hb : ∀ c ∈ l, lo ≤ c.addr ∧ c.addr + c.size ≤ hi) (hlo : lo ≤ hi) :
    lo + chain_bytes l ≤ hi := by
  induction l generalizing lo with
  | nil => simpa [chain_bytes] using hlo
  | cons c l ih =>
    have hc := hb c (by simp)
    have ht := pairwise_before_tail hs
    have := ih (List.pairwise_cons.1 hs).2 (c.addr + c.size)
      (fun d hd => ⟨(ht d hd).1, (hb d (List.mem_cons_of_mem _ hd)).2⟩) hc.2
    simp only [chain_bytes]
    omega

theorem count_free_loop_eq (l : List Chunk) (count : Nat) :
    count_free_loop count l = if l = [] then count else (count + chain_bytes l) % WORD := by
  induction l generalizing count with
  | nil => simp [count_free_loop]
  | cons c l ih =>
    simp only [count_free_loop, ih, chain_bytes]
    by_cases hl : l = []
    · subst hl
      simp [chain_bytes]
    · simp only [hl, if_false, reduceCtorEq]
      unfold WORD
      omega

theorem Heap.count_free_eq (h : Heap) : h.count_free = chain_bytes h.first % WORD := by
  unfold Heap.count_free
  rw [count_free_loop_eq]
  split_ifs with hl
  · simp [hl, chain_bytes]
  · simp

theorem Heap.WF.free_le {h : Heap} (hwf : h.WF) : h.free + 8 ≤ WORD := by
  have := chain_bytes_le hwf.sorted 0 (WORD - 8)
    (fun c hc => ⟨Nat.zero_le _, by have := (hwf.bounded c hc).2; omega⟩) (Nat.zero_le _)
  rw [hwf.cache]
  unfold WORD at *
  omega

theorem Heap.allocate_ne_zero {h : Heap} {n : Nat} (hp : (h.allocate n).1 ≠ 0) :
    n ≠ 0 ∧ n ≤ h.free ∧ ∃ chain,
      allocate_chain (roundup8 n) h.first = some ((h.allocate n).1, chain) ∧
      (h.allocate n).2 =
        { h with first := chain, free := (h.free + WORD - roundup8 n) % WORD } := by
  unfold Heap.allocate at hp ⊢
  split_ifs at hp ⊢ with h1
  · simp at hp
  · refine ⟨by omega, by omega, ?_⟩
    cases hc : allocate_chain (roundup8 n) h.first with
    | none => simp [hc] at hp
    | some pc => exact ⟨pc.2, by simp⟩

theorem Heap.allocate_reverse_ne_zero {h : Heap} {n : Nat}
    (hp : (h.allocate_reverse n).1 ≠ 0) :
    n ≠ 0 ∧ n ≤ h.free ∧ ∃ chain,
      allocate_reverse_chain (roundup8 n) h.first = some ((h.allocate_reverse n).1, chain) ∧
      (h.allocate_reverse n).2 =
        { h with first := chain, free := (h.free + WORD - roundup8 n) % WORD } := by
  unfold Heap.allocate_reverse at hp ⊢
  split_ifs at hp ⊢ with h1
  · simp at hp
  · refine ⟨by omega, by omega, ?_⟩
    cases hc : allocate_reverse_chain (roundup8 n) h.first with
    | none => simp [hc] at hp
    | some pc => exact ⟨pc.2, by simp⟩

theorem Heap.deallocate_eq {h : Heap} {memory size : Nat} (hm : memory ≠ 0) (hs : size ≠ 0) :
    h.deallocate memory size =
      { h with
        first := (deallocate_chain memory (roundup8 size) none h.first).getD h.first,
        free := (h.free + roundup8 size) % WORD } := by
  unfold Heap.deallocate
  have : ¬ (memory = 0 ∨ size = 0) := by omega
  simp only [this, if_false]
  cases deallocate_chain memory (roundup8 size) none h.first <;> rfl

/-- A failed `Heap::allocate` leaves the zone as it was (the chain holds no chunk at
the null address). -/
theorem Heap.allocate_eq_zero {h : Heap} (hnn : ∀ c ∈ h.first, c.addr ≠ 0) {n : Nat}
    (hp : (h.allocate n).1 = 0) : (h.allocate n).2 = h := by
  unfold Heap.allocate at hp ⊢
  split_ifs at hp ⊢ with h1
  · rfl
  · cases hc : allocate_chain (roundup8 n) h.first with
    | none => rfl
    | some pc =>
      obtain ⟨p, chain⟩ := pc
      simp only [hc] at hp
      obtain ⟨pre, c', post, e, -, -, e2, -⟩ := allocate_chain_some hc
      have := hnn c' (by rw [e]; simp)
      omega

theorem Heap.allocate_reverse_eq_zero {h : Heap} (hnn : ∀ c ∈ h.first, c.addr ≠ 0) {n : Nat}
    (hp : (h.allocate_reverse n).1 = 0) : (h.allocate_reverse n).2 = h := by
  unfold Heap.allocate_reverse at hp ⊢
  split_ifs at hp ⊢ with h1
  · rfl
  · cases hc : allocate_reverse_chain (roundup8 n) h.first with
    | none => rfl
    | some pc =>
      obtain ⟨p, chain⟩ := pc
      simp only [hc] at hp
      obtain ⟨pre, c', post, e, -, -, e2, -⟩ := allocate_reverse_chain_some hc
      have := hnn c' (by rw [e]; simp)
      omega

theorem Heap.allocate_at_eq_zero {h : Heap} {memory n : Nat}
    (hp : (h.allocate_at memory n).1 = 0) : (h.allocate_at memory n).2 = h := by
  unfold Heap.allocate_at at hp ⊢
  split_ifs at hp ⊢ with h1
  · rfl
  · cases hc : allocate_at_chain memory (roundup8 n) h.first with
    | none => rfl
    | some chain =>
      simp only [hc] at hp
      omega

theorem allocate_at_chain_none {memory r : Nat} {l : List Chunk}
    (h : ∀ c ∈ l, ¬ (c.addr ≤ memory ∧ memory + r ≤ c.addr + c.size)) :
    allocate_at_chain memory r l = none := by
  induction l with
  | nil => rfl
  | cons c l ih =>
    simp only [allocate_at_chain]
    rw [if_neg (h c (by simp)), ih (fun d hd => h d (List.mem_cons_of_mem _ hd))]

theorem Carved.cons {p r : Nat} {l l' : List Chunk} (x : Chunk) (h : Carved p r l l') :
    Carved p r (x :: l) (x :: l') := by
  obtain ⟨pre, c, post, e1, h1, h2, h3⟩ := h
  refine ⟨x :: pre, c, post, by rw [e1]; rfl, h1, h2, ?_⟩
  rcases h3 with ⟨e, e2⟩ | ⟨d, e2, e3⟩
  · exact Or.inl ⟨e, by rw [e2]; rfl⟩
  · exact Or.inr ⟨d, by rw [e2]; rfl, e3⟩

/-- When the span starts at the start of a chunk or ends at its end (or both),
`Heap::allocate_at` carves exactly the span out of the chain. -/
theorem allocate_at_chain_edge {m r : Nat} {l : List Chunk} (hs : l.Pairwise Chunk.before)
    (hr : 0 < r) {c : Chunk} (hc : c ∈ l) (h1 : c.addr ≤ m) (h2 : m + r ≤ c.addr + c.size)
    (hedge : c.addr = m ∨ m + r = c.addr + c.size) :
    ∃ l', allocate_at_chain m r l = some l' ∧ Carved m r l l' := by
  induction l with
  | nil => simp at hc
  | cons x xs ih =>
    have ht := pairwise_before_tail hs
    simp only [allocate_at_chain]
    by_cases hx : x.addr ≤ m ∧ m + r ≤ x.addr + x.size
    · have hcx : c = x := by
        rcases List.mem_cons.1 hc with e | e
        · exact e
        · have := ht c e
          omega
      subst hcx
      rw [if_pos hx]
      by_cases hend : m + r < c.addr + c.size
      · have hstart : ¬ c.addr < m := by omega
        rw [if_pos hend, if_neg hstart]
        refine ⟨_, rfl, [], c, xs, rfl, h1, h2, Or.inr ⟨⟨m + r, c.size - r⟩, rfl, ?_⟩⟩
        simp only
        omega
      · by_cases hstart : c.addr < m
        · rw [if_neg hend, if_pos hstart]
          refine ⟨_, rfl, [], c, xs, rfl, h1, h2, Or.inr ⟨⟨c.addr, c.size - r⟩, rfl, ?_⟩⟩
          simp only
          omega
        · rw [if_neg hend, if_neg hstart]
          exact ⟨_, rfl, [], c, xs, rfl, h1, h2, Or.inl ⟨by omega, rfl⟩⟩
    · rw [if_neg hx]
      have hcxs : c ∈ xs := by
        rcases List.mem_cons.1 hc with e | e
        · subst e; exact absurd ⟨h1, h2⟩ hx
        · exact e
      obtain ⟨l', e1, e2⟩ := ih (List.pairwise_cons.1 hs).2 hcxs
      exact ⟨x :: l', by rw [e1], e2.cons x⟩


/-! ## Zones that stay inside their range -/

theorem Heap.ctor_zoned {size_ attributes_ : Nat} {priority_ : Int} {base_ : Nat}
    (hb : base_ ≠ 0) (ht : base_ + size_ + 8 ≤ WORD) :
    (Heap.ctor size_ attributes_ priority_ base_).Zoned := by
  refine ⟨⟨by simp [Heap.ctor], ?_, by simp [Heap.ctor, chain_bytes]⟩, ?_, ?_, ?_⟩
  · intro c hc
    simp only [Heap.ctor, List.mem_singleton] at hc
    subst hc
    exact ⟨hb, ht⟩
  · intro c hc
    simp only [Heap.ctor, List.mem_singleton] at hc
    subst hc
    simp [Heap.ctor]
  · simp only [Heap.ctor]; omega
  · simpa [Heap.ctor] using ht

/-- What a successful carve does to a zone. -/
theorem Heap.Zoned.carve {h : Heap} (hz : h.Zoned) {p n : Nat} {chain : List Chunk}
    (hn : n ≠ 0) (hle : n ≤ h.free) (hc : Carved p (roundup8 n) h.first chain) :
    ({ h with first := chain, free := (h.free + WORD - roundup8 n) % WORD } : Heap).Zoned ∧
    (h.free + WORD - roundup8 n) % WORD + roundup8 n = h.free ∧
    Heap.Holds { h with first := chain, free := (h.free + WORD - roundup8 n) % WORD } (p, n) := by
  obtain ⟨hwf, hin, hlo, hhi⟩ := hz
  have hfree := hwf.free_le
  have hr := roundup8_spec (n := n) (by unfold WORD at *; omega)
  have hbytes := hc.bytes
  have hcache := hwf.cache
  have hfree' : (h.free + WORD - roundup8 n) % WORD + roundup8 n = h.free := by
    unfold WORD at *; omega
  have hin' : ∀ x ∈ chain, h.lower ≤ x.addr ∧ x.addr + x.size ≤ h.upper := by
    intro x hx
    obtain ⟨c, hcm, h1, h2⟩ := hc.within x hx
    have := hin c hcm
    omega
  obtain ⟨c, hcm, hc1, hc2⟩ := hc.block
  have hcin := hin c hcm
  refine ⟨⟨⟨hc.sorted hwf.sorted, ?_, ?_⟩, hin', hlo, hhi⟩, hfree', ?_⟩
  · intro x hx
    have := hin' x hx
    constructor <;> omega
  · show (h.free + WORD - roundup8 n) % WORD = chain_bytes chain
    omega
  · exact ⟨hn, hr.1, by simp only; omega, by simp only; omega, hc.clear_self hwf.sorted⟩

theorem Heap.Zoned.after_allocate {h : Heap} (hz : h.Zoned) {n : Nat}
    (hp : (h.allocate n).1 ≠ 0) :
    (h.allocate n).2.Zoned ∧ (h.allocate n).2.free + roundup8 n = h.free ∧
    (h.allocate n).2.lower = h.lower ∧ (h.allocate n).2.upper = h.upper ∧
    (h.allocate n).2.attributes = h.attributes ∧
    (h.allocate n).2.Holds ((h.allocate n).1, n) ∧
    Carved (h.allocate n).1 (roundup8 n) h.first (h.allocate n).2.first := by
  obtain ⟨hn, hle, chain, hc, he⟩ := Heap.allocate_ne_zero hp
  have hcv := Carved.of_allocate_chain hc
  obtain ⟨h1, h2, h3⟩ := hz.carve hn hle hcv
  rw [he]
  exact ⟨h1, h2, rfl, rfl, rfl, h3, hcv⟩

theorem Heap.Zoned.after_allocate_reverse {h : Heap} (hz : h.Zoned) {n : Nat}
    (hp : (h.allocate_reverse n).1 ≠ 0) :
    (h.allocate_reverse n).2.Zoned ∧ (h.allocate_reverse n).2.free + roundup8 n = h.free ∧
    (h.allocate_reverse n).2.lower = h.lower ∧ (h.allocate_reverse n).2.upper = h.upper ∧
    (h.allocate_reverse n).2.attributes = h.attributes ∧
    (h.allocate_reverse n).2.Holds ((h.allocate_reverse n).1, n) ∧
    Carved (h.allocate_reverse n).1 (roundup8 n) h.first (h.allocate_reverse n).2.first := by
  obtain ⟨hn, hle, chain, hc, he⟩ := Heap.allocate_reverse_ne_zero hp
  have hcv := Carved.of_allocate_reverse_chain hc
  obtain ⟨h1, h2, h3⟩ := hz.carve hn hle hcv
  rw [he]
  exact ⟨h1, h2, rfl, rfl, rfl, h3, hcv⟩

/-- A block that was clear of the chain before a carve is clear of it afterwards and
does not intersect the carved block. -/
theorem Heap.Holds.after_carve {h h' : Heap} {b : Nat × Nat} (hb : h.Holds b) {p n : Nat}
    (hc : Carved p (roundup8 n) h.first h'.first) (hl : h'.lower = h.lower)
    (hu : h'.upper = h.upper) : h'.Holds b ∧ blocks_disjoint (p, n) b := by
  obtain ⟨h1, h2, h3, h4, h5⟩ := hb
  refine ⟨⟨h1, h2, by omega, by omega, hc.clear_mono h5⟩, ?_⟩
  have := hc.disjoint h5
  unfold blocks_disjoint
  simp only
  omega

/-- Releasing a block the zone holds. -/
theorem Heap.Zoned.after_deallocate {h : Heap} (hz : h.Zoned) {b : Nat × Nat} (hb : h.Holds b) :
    (h.deallocate b.1 b.2).Zoned ∧ (h.deallocate b.1 b.2).free = h.free + roundup8 b.2 ∧
    (h.deallocate b.1 b.2).lower = h.lower ∧ (h.deallocate b.1 b.2).upper = h.upper ∧
    (h.deallocate b.1 b.2).attributes = h.attributes ∧
    ∀ b', h.Holds b' → blocks_disjoint b b' → (h.deallocate b.1 b.2).Holds b' := by
  obtain ⟨hwf, hin, hlo, hhi⟩ := hz
  obtain ⟨h1, h2, h3, h4, h5⟩ := hb
  have hr : 0 < roundup8 b.2 := by omega
  have hm : b.1 ≠ 0 := by omega
  rw [Heap.deallocate_eq hm h1]
  obtain ⟨l', hl'⟩ := @deallocate_chain_isSome b.1 _ none _ hr
    (by simpa using hwf.sorted) (by simpa using h5) (by simp)
  simp only [hl', Option.getD_some]
  have hs' := deallocate_chain_sorted hl' (by simpa using hwf.sorted)
  have hlb := deallocate_chain_lb hl' (k := h.lower)
    (by simpa using fun y hy => (hin y hy).1) h3
  have hub := deallocate_chain_ub hl' h.upper
    (by simpa using fun y hy => (hin y hy).2) h4
  have hbytes := deallocate_chain_bytes_exact hl' h.upper
    (by simpa using fun y hy => (hin y hy).2) h4 (by unfold WORD at *; omega)
  simp only [Option.toList, List.nil_append] at hbytes
  have hle := chain_bytes_le hs' h.lower h.upper
    (fun c hc => ⟨hlb c hc, hub c hc⟩) (by omega)
  have hcache := hwf.cache
  have hfree' : (h.free + roundup8 b.2) % WORD = h.free + roundup8 b.2 := by
    unfold WORD at *
    omega
  refine ⟨⟨⟨hs', ?_, ?_⟩, fun c hc => ⟨hlb c hc, hub c hc⟩, hlo, hhi⟩, hfree', trivial,
    trivial, trivial, ?_⟩
  · intro c hc
    have := hlb c hc
    have := hub c hc
    constructor <;> omega
  · show (h.free + roundup8 b.2) % WORD = chain_bytes l'
    omega
  · intro b' hb' hd
    obtain ⟨g1, g2, g3, g4, g5⟩ := hb'
    refine ⟨g1, g2, g3, g4, ?_⟩
    refine deallocate_chain_clear hl' (by omega) (by simpa using g5) ?_
    unfold blocks_disjoint at hd
    omega

/-! ## Sequences of calls -/

/-- Method `Heap::allocate` either leaves the zone as it was or carves the block out of
the chain and lowers the cached total. -/
theorem Heap.allocate_cases (h : Heap) (n : Nat) :
    (h.allocate n).2 = h ∨
    ∃ p chain, Carved p (roundup8 n) h.first chain ∧
      (h.allocate n).2 =
        { h with first := chain, free := (h.free + WORD - roundup8 n) % WORD } := by
  unfold Heap.allocate
  split_ifs with h1
  · exact Or.inl rfl
  · cases hc : allocate_chain (roundup8 n) h.first with
    | none => exact Or.inl rfl
    | some pc => exact Or.inr ⟨pc.1, pc.2, Carved.of_allocate_chain hc, rfl⟩

theorem Heap.allocate_reverse_cases (h : Heap) (n : Nat) :
    (h.allocate_reverse n).2 = h ∨
    ∃ p chain, Carved p (roundup8 n) h.first chain ∧
      (h.allocate_reverse n).2 =
        { h with first := chain, free := (h.free + WORD - roundup8 n) % WORD } := by
  unfold Heap.allocate_reverse
  split_ifs with h1
  · exact Or.inl rfl
  · cases hc : allocate_reverse_chain (roundup8 n) h.first with
    | none => exact Or.inl rfl
    | some pc => exact Or.inr ⟨pc.1, pc.2, Carved.of_allocate_reverse_chain hc, rfl⟩

theorem blocks_disjoint_symm {a b : Nat × Nat} (h : blocks_disjoint a b) :
    blocks_disjoint b a := by
  unfold blocks_disjoint at *; omega

theorem pairwise_disjoint_erase {l : List (Nat × Nat)} (hl : l.Pairwise blocks_disjoint)
    {b : Nat × Nat} (hb : b ∈ l) : ∀ b' ∈ l.erase b, blocks_disjoint b b' := by
  induction l with
  | nil => simp at hb
  | cons x xs ih =>
    have hx := (List.pairwise_cons.1 hl).1
    intro b' hb'
    by_cases hxb : x = b
    · subst hxb
      rw [List.erase_cons_head] at hb'
      exact hx b' hb'
    · rw [List.erase_cons_tail (by simpa using hxb)] at hb'
      have hbxs : b ∈ xs := by
        rcases List.mem_cons.1 hb with e | e
        · exact absurd e.symm hxb
        · exact e
      rcases List.mem_cons.1 hb' with rfl | hb'
      · exact blocks_disjoint_symm (hx b hbxs)
      · exact ih (List.pairwise_cons.1 hl).2 hbxs b' hb'

theorem Session.Sound.grant {s : Session} (hs : s.Sound) {r : Nat × Heap} {n : Nat}
    (h0 : r.1 = 0 → r.2 = s.heap)
    (h1 : r.1 ≠ 0 → r.2.Zoned ∧ r.2.lower = s.heap.lower ∧ r.2.upper = s.heap.upper ∧
      r.2.Holds (r.1, n) ∧ Carved r.1 (roundup8 n) s.heap.first r.2.first) :
    Session.Sound ⟨r.2, if r.1 ≠ 0 then (r.1, n) :: s.live else s.live⟩ := by
  obtain ⟨hz, hh, hp⟩ := hs
  by_cases hr : r.1 = 0
  · simp only [hr, ne_eq, not_true_eq_false, if_false]
    rw [h0 hr]
    exact ⟨hz, hh, hp⟩
  · simp only [ne_eq, hr, not_false_eq_true, if_true]
    obtain ⟨g1, g2, g3, g4, g5⟩ := h1 hr
    refine ⟨g1, ?_, ?_⟩
    · intro b hb
      rcases List.mem_cons.1 hb with rfl | hb
      · exact g4
      · exact ((hh b hb).after_carve g5 g2 g3).1
    · exact List.pairwise_cons.2
        ⟨fun b hb => ((hh b hb).after_carve g5 g2 g3).2, hp⟩

theorem Session.Sound.after_step {s s' : Session} (hs : s.Sound) {c : Call}
    (h : s.step c = some s') : s'.Sound := by
  have hnn : ∀ c ∈ s.heap.first, c.addr ≠ 0 := fun c hc => (hs.1.1.bounded c hc).1
  cases c with
  | allocate n =>
    simp only [Session.step, Option.some.injEq] at h
    subst h
    refine hs.grant (Heap.allocate_eq_zero hnn) ?_
    intro hp
    obtain ⟨g1, -, g3, g4, -, g6, g7⟩ := hs.1.after_allocate hp
    exact ⟨g1, g3, g4, g6, g7⟩
  | allocate_reverse n =>
    simp only [Session.step, Option.some.injEq] at h
    subst h
    refine hs.grant (Heap.allocate_reverse_eq_zero hnn) ?_
    intro hp
    obtain ⟨g1, -, g3, g4, -, g6, g7⟩ := hs.1.after_allocate_reverse hp
    exact ⟨g1, g3, g4, g6, g7⟩
  | deallocate m n =>
    simp only [Session.step] at h
    split_ifs at h with hm
    simp only [Option.some.injEq] at h
    subst h
    obtain ⟨hz, hh, hp⟩ := hs
    obtain ⟨g1, -, -, -, -, g6⟩ := hz.after_deallocate (hh (m, n) hm)
    refine ⟨g1, ?_, hp.sublist (List.erase_sublist _ _)⟩
    intro b hb
    exact g6 b (hh b (List.mem_of_mem_erase hb)) (pairwise_disjoint_erase hp hm b hb)

theorem Session.Sound.after_session {s s' : Session} (hs : s.Sound) {calls : List Call}
    (h : s.run calls = some s') : s'.Sound := by
  induction calls generalizing s with
  | nil =>
    simp only [Session.run, Option.some.injEq] at h
    subst h
    exact hs
  | cons c cs ih =>
    simp only [Session.run] at h
    cases hc : s.step c with
    | none => simp [hc] at h
    | some s1 =>
      simp only [hc] at h
      exact ih (hs.after_step hc) h

theorem Heap.deallocate_range (h : Heap) (m n : Nat) :
    (h.deallocate m n).lower = h.lower ∧ (h.deallocate m n).upper = h.upper := by
  unfold Heap.deallocate
  split_ifs
  · exact ⟨rfl, rfl⟩
  · cases deallocate_chain m (roundup8 n) none h.first <;> exact ⟨rfl, rfl⟩

theorem Session.step_range {s s' : Session} {c : Call} (h : s.step c = some s') :
    s'.heap.lower = s.heap.lower ∧ s'.heap.upper = s.heap.upper := by
  cases c with
  | allocate n =>
    simp only [Session.step, Option.some.injEq] at h
    subst h
    rcases Heap.allocate_cases s.heap n with e | ⟨p, chain, -, e⟩ <;> rw [e] <;>
      exact ⟨rfl, rfl⟩
  | allocate_reverse n =>
    simp only [Session.step, Option.some.injEq] at h
    subst h
    rcases Heap.allocate_reverse_cases s.heap n with e | ⟨p, chain, -, e⟩ <;> rw [e] <;>
      exact ⟨rfl, rfl⟩
  | deallocate m n =>
    simp only [Session.step] at h
    split_ifs at h with hm
    simp only [Option.some.injEq] at h
    subst h
    exact Heap.deallocate_range s.heap m n

theorem Session.run_range {s s' : Session} {calls : List Call} (h : s.run calls = some s') :
    s'.heap.lower = s.heap.lower ∧ s'.heap.upper = s.heap.upper := by
  induction calls generalizing s with
  | nil =>
    simp only [Session.run, Option.some.injEq] at h
    subst h
    exact ⟨rfl, rfl⟩
  | cons c cs ih =>
    simp only [Session.run] at h
    cases hc : s.step c with
    | none => simp [hc] at h
    | some s1 =>
      simp only [hc] at h
      have h1 := Session.step_range hc
      have h2 := ih h
      exact ⟨h2.1.trans h1.1, h2.2.trans h1.2⟩


/-! ## The zone list -/

/-- The zone that serves a `HeapList::allocate`: a call that returns null leaves all
zones as they were; a call that returns an address has carved it, by `allocate` or
`allocate_reverse`, out of one zone of the list and left the others alone. -/
theorem HeapList.allocate_shape (size attributes options : Nat) (zones : List Heap)
    (hnn : ∀ z ∈ zones, ∀ c ∈ z.first, c.addr ≠ 0) :
    ((HeapList.allocate size attributes options zones).1 = 0 ∧
      (HeapList.allocate size attributes options zones).2 = zones) ∨
    ((HeapList.allocate size attributes options zones).1 ≠ 0 ∧
      ∃ A z B res, zones = A ++ z :: B ∧
        (res = z.allocate size ∨ res = z.allocate_reverse size) ∧
        res.1 = (HeapList.allocate size attributes options zones).1 ∧
        (HeapList.allocate size attributes options zones).2 = A ++ res.2 :: B) := by
  induction zones with
  | nil => exact Or.inl ⟨rfl, rfl⟩
  | cons heap rest ih =>
    have ih' := ih (fun z hz => hnn z (List.mem_cons_of_mem _ hz))
    have hh := hnn heap (by simp)
    simp only [HeapList.allocate]
    split_ifs with h1 h2 h3 h4
    · exact Or.inr ⟨h3, [], heap, rest, heap.allocate_reverse size, rfl, Or.inr rfl, rfl, rfl⟩
    · simp only [ne_eq, not_not] at h3
      rw [Heap.allocate_reverse_eq_zero hh h3]
      rcases ih' with ⟨e1, e2⟩ | ⟨e1, A, z, B, res, e2, e3, e4, e5⟩
      · exact Or.inl ⟨e1, by rw [e2]⟩
      · exact Or.inr ⟨e1, heap :: A, z, B, res, by rw [e2]; rfl, e3, e4, by rw [e5]; rfl⟩
    · exact Or.inr ⟨h4, [], heap, rest, heap.allocate size, rfl, Or.inl rfl, rfl, rfl⟩
    · simp only [ne_eq, not_not] at h4
      rw [Heap.allocate_eq_zero hh h4]
      rcases ih' with ⟨e1, e2⟩ | ⟨e1, A, z, B, res, e2, e3, e4, e5⟩
      · exact Or.inl ⟨e1, by rw [e2]⟩
      · exact Or.inr ⟨e1, heap :: A, z, B, res, by rw [e2]; rfl, e3, e4, by rw [e5]; rfl⟩
    · rcases ih' with ⟨e1, e2⟩ | ⟨e1, A, z, B, res, e2, e3, e4, e5⟩
      · exact Or.inl ⟨e1, by rw [e2]⟩
      · exact Or.inr ⟨e1, heap :: A, z, B, res, by rw [e2]; rfl, e3, e4, by rw [e5]; rfl⟩

theorem Heap.contains_iff (z : Heap) (p : Nat) :
    z.contains p = true ↔ z.lower ≤ p ∧ p < z.upper := by
  simp [Heap.contains]

theorem Heap.Holds.contains {z : Heap} {b : Nat × Nat} (h : z.Holds b) :
    z.contains b.1 = true := by
  obtain ⟨h1, h2, h3, h4, -⟩ := h
  rw [Heap.contains_iff]
  omega

theorem not_contains_of_disjoint {w z : Heap} {p : Nat}
    (hd : ranges_disjoint w z ∨ ranges_disjoint z w) (hz : z.contains p = true) :
    w.contains p = false := by
  rw [Heap.contains_iff] at hz
  cases hc : w.contains p with
  | false => rfl
  | true =>
    rw [Heap.contains_iff] at hc
    unfold ranges_disjoint at hd
    omega

theorem held_bytes_congr {z z' : Heap} (hl : z'.lower = z.lower) (hu : z'.upper = z.upper)
    (l : List (Nat × Nat)) : held_bytes z' l = held_bytes z l := by
  induction l with
  | nil => rfl
  | cons b l ih => simp only [held_bytes, ih, Heap.contains, hl, hu]

/-- Replacing one zone by a zone with the same range keeps the ranges disjoint. -/
theorem pairwise_ranges_replace {A B : List Heap} {z z' : Heap}
    (h : (A ++ z :: B).Pairwise ranges_disjoint) (hl : z'.lower = z.lower)
    (hu : z'.upper = z.upper) : (A ++ z' :: B).Pairwise ranges_disjoint := by
  rw [List.pairwise_append, List.pairwise_cons] at h ⊢
  obtain ⟨h1, ⟨h2, h3⟩, h4⟩ := h
  refine ⟨h1, ⟨?_, h3⟩, ?_⟩
  · intro b hb
    have := h2 b hb
    unfold ranges_disjoint at *
    omega
  · intro a ha b hb
    rcases List.mem_cons.1 hb with rfl | hb
    · have := h4 a ha z (by simp)
      unfold ranges_disjoint at *
      omega
    · exact h4 a ha b (List.mem_cons_of_mem _ hb)

/-- In a list of zones with disjoint ranges, the zones around `z` are disjoint from it. -/
theorem disjoint_of_pairwise {A B : List Heap} {z : Heap}
    (h : (A ++ z :: B).Pairwise ranges_disjoint) :
    ∀ w, w ∈ A ∨ w ∈ B → ranges_disjoint w z ∨ ranges_disjoint z w := by
  rw [List.pairwise_append, List.pairwise_cons] at h
  obtain ⟨-, ⟨h2, -⟩, h4⟩ := h
  rintro w (hw | hw)
  · exact Or.inl (h4 w hw z (by simp))
  · exact Or.inr (h2 w hw)

/-- The budget after one zone of the list changed. -/
theorem budget_replace {A B : List Heap} {z z' : Heap} {live live' : List (Nat × Nat)}
    (hA : ∀ w, w ∈ A ∨ w ∈ B → held_bytes w live' = held_bytes w live)
    (hz : z'.free + held_bytes z' live' = z.free + held_bytes z live) :
    HeapList.budget (A ++ z' :: B) live' = HeapList.budget (A ++ z :: B) live := by
  unfold HeapList.budget
  simp only [List.map_append, List.map_cons]
  congr 1
  · exact List.map_congr_left (fun w hw => by rw [hA w (Or.inl hw)])
  · congr 1
    exact List.map_congr_left (fun w hw => by rw [hA w (Or.inr hw)])


/-- A successful `HeapList::allocate` keeps the invariant, with the new block added,
and the budget of every zone; a failed one changes nothing. -/
theorem HeapList.Sound.after_list_allocate {zones : List Heap} {live : List (Nat × Nat)}
    (hs : HeapList.Sound zones live) (size attributes options : Nat) :
    ((HeapList.allocate size attributes options zones).1 = 0 →
      (HeapList.allocate size attributes options zones).2 = zones) ∧
    ((HeapList.allocate size attributes options zones).1 ≠ 0 →
      HeapList.Sound (HeapList.allocate size attributes options zones).2
        (((HeapList.allocate size attributes options zones).1, size) :: live) ∧
      HeapList.budget (HeapList.allocate size attributes options zones).2
        (((HeapList.allocate size attributes options zones).1, size) :: live) =
        HeapList.budget zones live) := by
  obtain ⟨hz, hd, hh, hp⟩ := hs
  rcases HeapList.allocate_shape size attributes options zones
    (fun z hzm c hc => ((hz z hzm).1.bounded c hc).1) with
    ⟨e1, e2⟩ | ⟨e1, A, z, B, res, e2, e3, e4, e5⟩
  · exact ⟨fun _ => e2, fun h => absurd e1 h⟩
  · refine ⟨fun h => absurd h e1, fun _ => ?_⟩
    rw [e5, ← e4]
    subst e2
    have hzz := hz z (by simp)
    have hres : res.1 ≠ 0 := by rw [e4]; exact e1
    have key : res.2.Zoned ∧ res.2.free + roundup8 size = z.free ∧
        res.2.lower = z.lower ∧ res.2.upper = z.upper ∧
        res.2.Holds (res.1, size) ∧ Carved res.1 (roundup8 size) z.first res.2.first := by
      rcases e3 with rfl | rfl
      · obtain ⟨g1, g2, g3, g4, -, g6, g7⟩ := hzz.after_allocate hres
        exact ⟨g1, g2, g3, g4, g6, g7⟩
      · obtain ⟨g1, g2, g3, g4, -, g6, g7⟩ := hzz.after_allocate_reverse hres
        exact ⟨g1, g2, g3, g4, g6, g7⟩
    obtain ⟨g1, g2, g3, g4, g6, g7⟩ := key
    have hdis := disjoint_of_pairwise hd
    have hcon : res.2.contains res.1 = true := g6.contains
    have hconz : z.contains res.1 = true := by
      rw [Heap.contains_iff] at hcon ⊢; omega
    -- an old block is held by a zone of the new list and is disjoint from the new block
    have hold : ∀ b ∈ live, (∃ w ∈ A ++ res.2 :: B, w.Holds b) ∧
        blocks_disjoint (res.1, size) b := by
      intro b hb
      obtain ⟨w, hw, hwb⟩ := hh b hb
      have hcases : w = z ∨ (w ∈ A ∨ w ∈ B) := by
        rcases List.mem_append.1 hw with h | h
        · exact Or.inr (Or.inl h)
        · rcases List.mem_cons.1 h with h | h
          · exact Or.inl h
          · exact Or.inr (Or.inr h)
      rcases hcases with rfl | hAB
      · have := hwb.after_carve g7 g3 g4
        exact ⟨⟨res.2, by simp, this.1⟩, this.2⟩
      · refine ⟨⟨w, ?_, hwb⟩, ?_⟩
        · rcases hAB with h | h
          · exact List.mem_append_left _ h
          · exact List.mem_append_right _ (List.mem_cons_of_mem _ h)
        · have hr := hdis w hAB
          obtain ⟨-, -, b3, b4, -⟩ := hwb
          obtain ⟨-, -, c3, c4, -⟩ := g6
          unfold ranges_disjoint at hr
          unfold blocks_disjoint
          simp only at c3 c4 ⊢
          omega
    refine ⟨⟨?_, pairwise_ranges_replace hd g3 g4, ?_, ?_⟩, ?_⟩
    · intro w hw
      rcases List.mem_append.1 hw with h | h
      · exact hz w (List.mem_append_left _ h)
      · rcases List.mem_cons.1 h with h | h
        · rw [h]; exact g1
        · exact hz w (List.mem_append_right _ (List.mem_cons_of_mem _ h))
    · intro b hb
      rcases List.mem_cons.1 hb with rfl | hb
      · exact ⟨res.2, by simp, g6⟩
      · exact (hold b hb).1
    · exact List.pairwise_cons.2 ⟨fun b hb => (hold b hb).2, hp⟩
    · refine budget_replace ?_ ?_
      · intro w hw
        have := not_contains_of_disjoint (hdis w hw) hconz
        simp [held_bytes, this]
      · simp only [held_bytes, hcon, if_true, held_bytes_congr g3 g4]
        omega


/-! ## The directory of a multiple allocation and the zone-list queries -/

/-- The entries written by the loop of `HeapList::allocate_multiple` when no request
from index `i` on has size zero: if the loop ends with `failed = 0`, then `failed`
was zero on entry, and entry `k` holds a non-null address and the size of request
`i + k`. -/
theorem allocate_multiple_loop_entries (request : MemEntryRequest) (n : Nat) :
    ∀ (i failed : Nat) (zones : List Heap),
      (∀ j, i ≤ j → j < i + n → (request.entries j).size ≠ 0) →
      (allocate_multiple_loop request n i failed zones).2.2 = 0 →
      failed = 0 ∧
      (allocate_multiple_loop request n i failed zones).2.1.length = n ∧
      ∀ k (hk : k < (allocate_multiple_loop request n i failed zones).2.1.length),
        ((allocate_multiple_loop request n i failed zones).2.1.get ⟨k, hk⟩).1 ≠ 0 ∧
        ((allocate_multiple_loop request n i failed zones).2.1.get ⟨k, hk⟩).2 =
          (request.entries (i + k)).size := by
  induction n with
  | zero =>
    intro i failed zones _ h
    refine ⟨h, rfl, ?_⟩
    intro k hk
    simp [allocate_multiple_loop] at hk
  | succ n ih =>
    intro i failed zones hsz h
    simp only [allocate_multiple_loop] at h ⊢
    obtain ⟨g1, g2, g3⟩ := ih (i + 1) _ _ (fun j h1 h2 => hsz j (by omega) (by omega)) h
    have hi := hsz i (Nat.le_refl _) (by omega)
    have hr : (HeapList.allocate (request.entries i).size (request.entries i).attributes
        (request.entries 1).options zones).1 ≠ 0 := by
      intro h0
      rw [if_pos h0] at g1
      exact hi g1
    rw [if_neg hr] at g1
    refine ⟨g1, by simp [g2], ?_⟩
    intro k hk
    cases k with
    | zero => exact ⟨hr, by simp⟩
    | succ k =>
      have := g3 k (by simpa using hk)
      simpa [Nat.add_assoc, Nat.add_comm 1 k] using this

/-- A successful `HeapList::allocate_multiple` on a request none of whose sizes is
zero: the directory has the count of the request and entry `i` holds a non-null
address and the size of request `i`. -/
theorem HeapList.allocate_multiple_entries (request : MemEntryRequest) (zones : List Heap)
    (hcount : request.count < 65536)
    (hsz : ∀ j, j < request.count → (request.entries j).size ≠ 0)
    (hme : (HeapList.allocate_multiple request zones).1.mementry ≠ 0) :
    (HeapList.allocate_multiple request zones).2.1.count = request.count ∧
    (HeapList.allocate_multiple request zones).2.1.entries.length = request.count ∧
    ∀ k (hk : k < (HeapList.allocate_multiple request zones).2.1.entries.length),
      ((HeapList.allocate_multiple request zones).2.1.entries.get ⟨k, hk⟩).1 ≠ 0 ∧
      ((HeapList.allocate_multiple request zones).2.1.entries.get ⟨k, hk⟩).2 =
        (request.entries k).size := by
  unfold HeapList.allocate_multiple at hme ⊢
  dsimp only at hme ⊢
  by_cases ha : (HeapList.allocate_mementry request.count zones).1 = 0
  · rw [if_pos ha] at hme
    exact absurd rfl hme
  · rw [if_neg ha] at hme ⊢
    by_cases hf : (allocate_multiple_loop request request.count 0 0
        (HeapList.allocate_mementry request.count zones).2).2.2 = 0
    · rw [if_pos hf]
      obtain ⟨-, g2, g3⟩ := allocate_multiple_loop_entries request request.count 0 0 _
        (fun j _ h2 => hsz j (by omega)) hf
      refine ⟨Nat.mod_eq_of_lt hcount, g2, ?_⟩
      intro k hk
      have := g3 k hk
      simpa using this
    · rw [if_neg hf] at hme
      exact absurd rfl hme

/-- The running maximum of `available_largest` is the maximum of its start value and
the chunk sizes. -/
theorem available_largest_eq (size : Nat) (l : List Chunk) :
    available_largest size l = max size ((l.map Chunk.size).foldr max 0) := by
  induction l generalizing size with
  | nil => simp [available_largest]
  | cons c l ih =>
    simp only [available_largest, ih, List.map_cons, List.foldr_cons]
    split_ifs <;> omega

/-- The maximum over an appended list. -/
theorem foldr_max_append (a b : List Nat) :
    (a ++ b).foldr max 0 = max (a.foldr max 0) (b.foldr max 0) := by
  induction a with
  | nil => simp
  | cons x a ih => simp only [List.cons_append, List.foldr_cons, ih]; omega

/-- The loop of `HeapList::available` without `MEMF_TOTAL` and `MEMF_LARGEST` adds the
cached totals of the providing zones as a `size_t`. -/
theorem available_loop_free (attributes options : Nat) (h8 : options &&& MEMF_TOTAL = 0)
    (h2 : options &&& MEMF_LARGEST = 0) (zones : List Heap) :
    ∀ size, available_loop attributes options (size % WORD) zones =
      (size + free_total attributes zones) % WORD := by
  induction zones with
  | nil => intro size; simp [available_loop, free_total]
  | cons heap rest ih =>
    intro size
    simp only [available_loop, free_total, List.filter_cons]
    by_cases h1 : heap.provides attributes = true
    · simp only [h1, if_true, h8, h2, ne_eq, not_true_eq_false, if_false, List.map_cons,
        List.sum_cons]
      rw [Nat.mod_add_mod, ih]
      simp only [free_total, Nat.add_assoc]
    · simp only [h1, if_false]
      exact ih size

/-- The loop of `HeapList::available` with `MEMF_LARGEST` (and without `MEMF_TOTAL`)
keeps the maximum of its start value and the chunk sizes of the providing zones. -/
theorem available_loop_largest (attributes options : Nat) (h8 : options &&& MEMF_TOTAL = 0)
    (h2 : options &&& MEMF_LARGEST ≠ 0) (zones : List Heap) :
    ∀ size, available_loop attributes options size zones =
      max size (largest_chunk attributes zones) := by
  induction zones with
  | nil => intro size; simp [available_loop, largest_chunk]
  | cons heap rest ih =>
    intro size
    simp only [available_loop, largest_chunk, List.filter_cons]
    by_cases h1 : heap.provides attributes = true
    · simp only [h1, if_true, h8, h2, ne_eq, not_true_eq_false, not_false_eq_true, if_false,
        List.flatMap_cons, foldr_max_append]
      rw [ih, available_largest_eq]
      simp only [largest_chunk]
      omega
    · simp only [h1, if_false]
      exact ih size

/-- Pairwise disjoint ranges below `M` have lengths that sum to at most `M`. -/
theorem ranges_sum_le (M : Nat) (zones : List Heap)
    (hb : ∀ z ∈ zones, z.upper ≤ M) (hd : zones.Pairwise ranges_disjoint) :
    ∃ S : Finset Nat, S ⊆ Finset.range M ∧
      (∀ x ∈ S, ∃ z ∈ zones, z.lower ≤ x ∧ x < z.upper) ∧
      S.card = (zones.map (fun z => z.upper - z.lower)).sum := by
  induction zones with
  | nil => exact ⟨∅, by simp, by simp, by simp⟩
  | cons z rest ih =>
    obtain ⟨S, h1, h2, h3⟩ := ih (fun y hy => hb y (List.mem_cons_of_mem _ hy))
      (List.pairwise_cons.1 hd).2
    have hdis : Disjoint (Finset.Ico z.lower z.upper) S := by
      rw [Finset.disjoint_left]
      intro x hx hxS
      obtain ⟨y, hy, hy1, hy2⟩ := h2 x hxS
      have := (List.pairwise_cons.1 hd).1 y hy
      simp only [Finset.mem_Ico] at hx
      unfold ranges_disjoint at this
      omega
    refine ⟨Finset.Ico z.lower z.upper ∪ S, ?_, ?_, ?_⟩
    · intro x hx
      rcases Finset.mem_union.1 hx with hx | hx
      · simp only [Finset.mem_Ico] at hx
        have := hb z (by simp)
        simp only [Finset.mem_range]
        omega
      · exact h1 hx
    · intro x hx
      rcases Finset.mem_union.1 hx with hx | hx
      · simp only [Finset.mem_Ico] at hx
        exact ⟨z, by simp, hx.1, hx.2⟩
      · obtain ⟨y, hy, hy1⟩ := h2 x hx
        exact ⟨y, List.mem_cons_of_mem _ hy, hy1⟩
    · rw [Finset.card_union_of_disjoint hdis, h3]
      simp

/-- In a list of well-formed zones with pairwise disjoint ranges the cached totals
of the zones that provide `attributes` sum to a 32-bit value. -/
theorem free_total_lt (attributes : Nat) (zones : List Heap)
    (hz : ∀ z ∈ zones, z.Zoned) (hd : zones.Pairwise ranges_disjoint) :
    free_total attributes zones < WORD := by
  obtain ⟨S, h1, -, h3⟩ := ranges_sum_le (WORD - 8)
    (zones.filter (fun z => z.provides attributes))
    (fun z hz' => by
      have := (hz z (List.mem_filter.1 hz').1).2.2.2
      omega)
    (hd.sublist (List.filter_sublist _))
  have h4 : free_total attributes zones ≤
      ((zones.filter (fun z => z.provides attributes)).map
        (fun z => z.upper - z.lower)).sum := by
    unfold free_total
    apply List.sum_le_sum
    intro z hz'
    obtain ⟨hwf, hin, -, -⟩ := hz z (List.mem_filter.1 hz').1
    by_cases hl : z.lower ≤ z.upper
    · have := chain_bytes_le hwf.sorted z.lower z.upper hin hl
      rw [hwf.cache]
      omega
    · cases hf : z.first with
      | nil => rw [hwf.cache, hf]; simp [chain_bytes]
      | cons c l =>
        have := hin c (by rw [hf]; simp)
        omega
  have h5 := Finset.card_le_card h1
  rw [Finset.card_range] at h5
  unfold WORD at *
  omega

/-! ## Lemmas on the packed function tables -/

/-- Two steps of the 16-bit offset. -/
theorem int16_cast_sub (x : Int) : int16_cast (int16_cast x - 6) = int16_cast (x - 6) := by
  unfold int16_cast; omega

/-- The counting loop over `n` entries followed by the sentinel. -/
theorem PackedFunctions.count16_loop_eq (t : PackedFunctions) (n : Nat) :
    ∀ (fuel input bytes : Nat), n < fuel →
      (∀ i, i < n → t.displacements (input + i) ≠ -1) → t.displacements (input + n) = -1 →
      t.count16_loop fuel input (bytes % WORD) = some ((bytes + 6 * n) % WORD) := by
  induction n with
  | zero =>
    intro fuel input bytes hf _ hs
    obtain ⟨f, rfl⟩ : ∃ f, fuel = f + 1 := ⟨fuel - 1, by omega⟩
    simp only [PackedFunctions.count16_loop]
    rw [if_neg (by simpa using hs)]
    simp
  | succ n ih =>
    intro fuel input bytes hf he hs
    obtain ⟨f, rfl⟩ : ∃ f, fuel = f + 1 := ⟨fuel - 1, by omega⟩
    simp only [PackedFunctions.count16_loop]
    rw [if_pos (by simpa using he 0 (by omega)), Nat.mod_add_mod]
    rw [ih f (input + 1) (bytes + 6) (by omega)
      (fun i hi => by have := he (i + 1) (by omega); rwa [show input + 1 + i = input + (i + 1) by omega])
      (by rwa [show input + 1 + n = input + (n + 1) by omega])]
    rw [show bytes + 6 + 6 * n = bytes + 6 * (n + 1) by omega]

/-- The counting loop of the 32-bit form over `n` entries followed by the sentinel. -/
theorem PackedFunctions.count32_loop_eq (t : PackedFunctions) (n : Nat) :
    ∀ (fuel input bytes : Nat), n < fuel →
      (∀ i, i < n → t.pointers (input + i) ≠ -1) → t.pointers (input + n) = -1 →
      t.count32_loop fuel input (bytes % WORD) = some ((bytes + 6 * n) % WORD) := by
  induction n with
  | zero =>
    intro fuel input bytes hf _ hs
    obtain ⟨f, rfl⟩ : ∃ f, fuel = f + 1 := ⟨fuel - 1, by omega⟩
    simp only [PackedFunctions.count32_loop]
    rw [if_neg (by simpa using hs)]
    simp
  | succ n ih =>
    intro fuel input bytes hf he hs
    obtain ⟨f, rfl⟩ : ∃ f, fuel = f + 1 := ⟨fuel - 1, by omega⟩
    simp only [PackedFunctions.count32_loop]
    rw [if_pos (by simpa using he 0 (by omega)), Nat.mod_add_mod]
    rw [ih f (input + 1) (bytes + 6) (by omega)
      (fun i hi => by have := he (i + 1) (by omega); rwa [show input + 1 + i = input + (i + 1) by omega])
      (by rwa [show input + 1 + n = input + (n + 1) by omega])]
    rw [show bytes + 6 + 6 * n = bytes + 6 * (n + 1) by omega]

/-- The value returned by the unpacking loop over `n` entries followed by the
sentinel: the negated 16-bit offset as a `size_t`. -/
theorem PackedFunctions.unpack16_loop_fst (t : PackedFunctions) (reference : Nat) (n : Nat) :
    ∀ (fuel input : Nat) (x : Int), n < fuel →
      (∀ i, i < n → t.displacements (input + i) ≠ -1) → t.displacements (input + n) = -1 →
      (t.unpack16_loop reference fuel input (int16_cast x)).map Prod.fst =
        some (uint32_cast (-(int16_cast (x - 6 * n)))) := by
  induction n with
  | zero =>
    intro fuel input x hf _ hs
    obtain ⟨f, rfl⟩ : ∃ f, fuel = f + 1 := ⟨fuel - 1, by omega⟩
    simp only [PackedFunctions.unpack16_loop]
    rw [if_neg (by simpa using hs)]
    simp
  | succ n ih =>
    intro fuel input x hf he hs
    obtain ⟨f, rfl⟩ : ∃ f, fuel = f + 1 := ⟨fuel - 1, by omega⟩
    simp only [PackedFunctions.unpack16_loop]
    rw [if_pos (by simpa using he 0 (by omega)), int16_cast_sub]
    have := ih f (input + 1) (x - 6) (by omega)
      (fun i hi => by have := he (i + 1) (by omega); rwa [show input + 1 + i = input + (i + 1) by omega])
      (by rwa [show input + 1 + n = input + (n + 1) by omega])
    rw [Option.map_map]
    rw [show (Prod.fst ∘ fun r : Nat × List LibraryCall =>
        (r.1, LibraryCall.set_function (int16_cast (x - 6))
          (uint32_cast ((reference : Int) + t.displacements input)) :: r.2)) = Prod.fst from rfl]
    rw [this, show x - 6 - 6 * (n : Int) = x - 6 * ((n + 1 : Nat) : Int) by push_cast; omega]

/-- The value returned by the unpacking loop of the 32-bit form. -/
theorem PackedFunctions.unpack32_loop_fst (t : PackedFunctions) (n : Nat) :
    ∀ (fuel input : Nat) (x : Int), n < fuel →
      (∀ i, i < n → t.pointers (input + i) ≠ -1) → t.pointers (input + n) = -1 →
      (t.unpack32_loop fuel input (int16_cast x)).map Prod.fst =
        some (uint32_cast (-(int16_cast (x - 6 * n)))) := by
  induction n with
  | zero =>
    intro fuel input x hf _ hs
    obtain ⟨f, rfl⟩ : ∃ f, fuel = f + 1 := ⟨fuel - 1, by omega⟩
    simp only [PackedFunctions.unpack32_loop]
    rw [if_neg (by simpa using hs)]
    simp
  | succ n ih =>
    intro fuel input x hf he hs
    obtain ⟨f, rfl⟩ : ∃ f, fuel = f + 1 := ⟨fuel - 1, by omega⟩
    simp only [PackedFunctions.unpack32_loop]
    rw [if_pos (by simpa using he 0 (by omega)), int16_cast_sub]
    have := ih f (input + 1) (x - 6) (by omega)
      (fun i hi => by have := he (i + 1) (by omega); rwa [show input + 1 + i = input + (i + 1) by omega])
      (by rwa [show input + 1 + n = input + (n + 1) by omega])
    rw [Option.map_map]
    rw [show (Prod.fst ∘ fun r : Nat × List LibraryCall =>
        (r.1, LibraryCall.set_function (int16_cast (x - 6))
          (uint32_cast (t.pointers input)) :: r.2)) = Prod.fst from rfl]
    rw [this, show x - 6 - 6 * (n : Int) = x - 6 * ((n + 1 : Nat) : Int) by push_cast; omega]

/-- Up to 5461 entries the negated 16-bit offset is six times the number of entries. -/
theorem unpack_value_small (n : Nat) (hn : n ≤ 5461) :
    uint32_cast (-(int16_cast (0 - 6 * (n : Int)))) = 6 * n := by
  have h1 : int16_cast (0 - 6 * (n : Int)) = -(6 * (n : Int)) := by
    unfold int16_cast; omega
  rw [h1, neg_neg]
  unfold uint32_cast
  omega

/-! ## Lemmas on the builder list -/

/-- Two strings without a zero byte that `strcmp` finds equal are equal. -/
theorem strcmp_eq_zero : ∀ (a b : List Nat), 0 ∉ a → 0 ∉ b → strcmp a b = 0 → a = b
  | [], [], _, _, _ => rfl
  | [], b :: _, _, hb, h => by
    simp only [strcmp] at h
    have : b ≠ 0 := fun e => hb (by simp [e])
    omega
  | a :: _, [], ha, _, h => by
    simp only [strcmp] at h
    have : a ≠ 0 := fun e => ha (by simp [e])
    omega
  | a :: s1, b :: s2, ha, hb, h => by
    have ha0 : a ≠ 0 := fun e => ha (by simp [e])
    simp only [strcmp] at h
    by_cases hab : a = b
    · rw [if_pos hab, if_neg ha0] at h
      rw [hab, strcmp_eq_zero s1 s2 (fun e => ha (List.mem_cons_of_mem _ e))
        (fun e => hb (List.mem_cons_of_mem _ e)) h]
    · rw [if_neg hab] at h
      omega

/-- A string compares equal to itself. -/
theorem strcmp_self : ∀ (a : List Nat), strcmp a a = 0
  | [] => rfl
  | a :: s => by
    simp only [strcmp, if_true]
    split_ifs
    · rfl
    · exact strcmp_self s

/-- A failed `find_name`: no node of the list has the name. -/
theorem List.find_name_none {α : Type} (node : α → Node) (name : List Nat) :
    ∀ (l : List α), List.find_name node name l = none →
      ∀ x ∈ l, strcmp name (node x).name ≠ 0
  | [], _ => by simp
  | i :: rest, h => by
    simp only [List.find_name] at h
    split_ifs at h with h1
    intro x hx
    rcases List.mem_cons.1 hx with rfl | hx
    · exact h1
    · exact List.find_name_none node name rest (by simpa using h) x hx

/-- A successful `find_name`: the node at the position returned has the name. -/
theorem List.find_name_some {α : Type} (node : α → Node) (name : List Nat) :
    ∀ (l : List α) (k : Nat), List.find_name node name l = some k →
      ∃ x, l.get? k = some x ∧ strcmp name (node x).name = 0
  | [], _, h => by simp [List.find_name] at h
  | i :: rest, k, h => by
    simp only [List.find_name] at h
    split_ifs at h with h1
    · simp only [Option.some.injEq] at h
      subst h
      exact ⟨i, rfl, h1⟩
    · simp only [Option.map_eq_some'] at h
      obtain ⟨j, hj, rfl⟩ := h
      obtain ⟨x, hx, hs⟩ := List.find_name_some node name rest j hj
      exact ⟨x, by simpa using hx, hs⟩

/-- Method `enqueue` adds the node and keeps the others. -/
theorem List.enqueue_perm {α : Type} (node : α → Node) (node_ : α) :
    ∀ (l : List α), (List.enqueue node node_ l).Perm (node_ :: l)
  | [] => List.Perm.refl _
  | np :: rest => by
    simp only [List.enqueue]
    split_ifs
    · exact List.Perm.refl _
    · exact ((List.enqueue_perm node node_ rest).cons np).trans (List.Perm.swap _ _ _)

/-- Replacing the header address of the node at position `k` keeps the names. -/
theorem set_resident_names (resident : Nat) :
    ∀ (l : List BuilderNode) (k : Nat) (rn : BuilderNode), l.get? k = some rn →
      (l.set k { rn with resident := resident }).map (fun i => i.name) =
        l.map (fun i => i.name)
  | [], _, _, h => by simp at h
  | i :: rest, 0, rn, h => by
    simp only [List.get?_cons_zero, Option.some.injEq] at h
    subst h
    rfl
  | i :: rest, k + 1, rn, h => by
    simp only [List.get?_cons_succ] at h
    simp only [List.set_cons_succ, List.map_cons]
    rw [set_resident_names resident rest k rn h]

/-- One `add` keeps the invariant of the builder list: `count` is one more than the
number of nodes, no two nodes have the same name, and the names of the nodes are
the names added. -/
theorem BuilderList.add_names (mem : Memory) (bl : BuilderList) (r : Nat)
    (names : List (List Nat)) (h0 : 0 ∉ (mem.resident r).name) (hn : ∀ x ∈ names, 0 ∉ x)
    (hc : bl.count = (bl.nodes.length : Int) + 1)
    (hd : (bl.nodes.map (fun i => i.name)).Nodup)
    (hm : ∀ x, x ∈ bl.nodes.map (fun i => i.name) ↔ x ∈ names) :
    (bl.add mem r).count = ((bl.add mem r).nodes.length : Int) + 1 ∧
    ((bl.add mem r).nodes.map (fun i => i.name)).Nodup ∧
    ∀ x, x ∈ (bl.add mem r).nodes.map (fun i => i.name) ↔
      x ∈ (mem.resident r).name :: names := by
  unfold BuilderList.add
  cases hf : List.find_name BuilderNode.toNode (mem.resident r).name bl.nodes with
  | some k =>
    obtain ⟨rn, hk, hs⟩ := List.find_name_some _ _ _ _ hf
    have hrn : rn ∈ bl.nodes := List.get?_mem hk
    have hname : (mem.resident r).name = rn.name :=
      strcmp_eq_zero _ _ h0
        (hn _ ((hm _).1 (List.mem_map.2 ⟨rn, hrn, rfl⟩))) hs
    have hin : ∀ x, x ∈ bl.nodes.map (fun i => i.name) ↔ x ∈ (mem.resident r).name :: names := by
      intro x
      rw [List.mem_cons, hm]
      constructor
      · exact Or.inr
      · rintro (rfl | h)
        · rw [hname]; exact (hm _).1 (List.mem_map.2 ⟨rn, hrn, rfl⟩)
        · exact h
    simp only [hk]
    split_ifs
    · refine ⟨?_, ?_, ?_⟩
      · simp only [List.length_set]; exact hc
      · simp only [set_resident_names r bl.nodes k rn hk]; exact hd
      · simp only [set_resident_names r bl.nodes k rn hk]; exact hin
    · exact ⟨hc, hd, hin⟩
  | none =>
    have hno := List.find_name_none _ _ _ hf
    have hp := List.enqueue_perm BuilderNode.toNode
      (BuilderNode.ctor (mem.resident r).priority (mem.resident r).name r) bl.nodes
    have hpm := hp.map (fun i : BuilderNode => i.name)
    have hnotin : (mem.resident r).name ∉ bl.nodes.map (fun i => i.name) := by
      intro hmem
      obtain ⟨x, hx, hxn⟩ := List.mem_map.1 hmem
      apply hno x hx
      have : (BuilderNode.toNode x).name = (mem.resident r).name := hxn
      rw [this]
      exact strcmp_self _
    simp only []
    refine ⟨?_, ?_, ?_⟩
    · rw [hp.length_eq, hc]
      simp
    · rw [hpm.nodup_iff]
      simp only [List.map_cons, List.nodup_cons]
      exact ⟨hnotin, hd⟩
    · intro x
      rw [hpm.mem_iff]
      simp only [List.map_cons, List.mem_cons, hm]
      rfl

/-- The invariant of the builder list after a sequence of `add` calls. -/
theorem BuilderList.foldl_add_names (mem : Memory) :
    ∀ (rs : List Nat) (bl : BuilderList) (names : List (List Nat)),
      (∀ r ∈ rs, 0 ∉ (mem.resident r).name) → (∀ x ∈ names, 0 ∉ x) →
      bl.count = (bl.nodes.length : Int) + 1 →
      (bl.nodes.map (fun i => i.name)).Nodup →
      (∀ x, x ∈ bl.nodes.map (fun i => i.name) ↔ x ∈ names) →
      (rs.foldl (BuilderList.add mem) bl).count =
        ((rs.foldl (BuilderList.add mem) bl).nodes.length : Int) + 1 ∧
      ((rs.foldl (BuilderList.add mem) bl).nodes.map (fun i => i.name)).Nodup ∧
      ∀ x, x ∈ (rs.foldl (BuilderList.add mem) bl).nodes.map (fun i => i.name) ↔
        x ∈ rs.map (fun r => (mem.resident r).name) ∨ x ∈ names
  | [], bl, names, _, _, hc, hd, hm => ⟨hc, hd, fun x => by simp [hm]⟩
  | r :: rs, bl, names, h0, hn, hc, hd, hm => by
    obtain ⟨g1, g2, g3⟩ := BuilderList.add_names mem bl r names (h0 r (by simp)) hn hc hd hm
    obtain ⟨k1, k2, k3⟩ := BuilderList.foldl_add_names mem rs (bl.add mem r)
      ((mem.resident r).name :: names) (fun x hx => h0 x (List.mem_cons_of_mem _ hx))
      (fun x hx => by
        rcases List.mem_cons.1 hx with rfl | hx
        · exact h0 r (by simp)
        · exact hn x hx) g1 g2 g3
    refine ⟨k1, k2, ?_⟩
    intro x
    rw [List.foldl_cons, k3]
    simp only [List.map_cons, List.mem_cons]
    tauto

/-! ## Lemmas on the scan and on the array walkers -/

/-- The facts of one run of the loop of `BuilderList::search`, by induction on the
number of iterations. -/
theorem BuilderList.search_loop_scan (mem : Memory) (end_ : Nat) (fuel : Nat) :
    ∀ (p : Nat) (bl : BuilderList),
      (∀ x ∈ (BuilderList.search_loop mem end_ fuel p bl).examined, x < end_) ∧
      (∀ q, (BuilderList.search_loop mem end_ fuel p bl).stopped = some q → end_ ≤ q) ∧
      ((BuilderList.search_loop mem end_ fuel p bl).stopped = none →
        (BuilderList.search_loop mem end_ fuel p bl).examined.length = fuel) ∧
      (0 < fuel → ((BuilderList.search_loop mem end_ fuel p bl).examined ++
        (BuilderList.search_loop mem end_ fuel p bl).stopped.toList).head? = some p) ∧
      List.Chain' (fun x y => y = if mem.is_romtag x then (mem.resident x).end_
          else (x + 2) % WORD)
        ((BuilderList.search_loop mem end_ fuel p bl).examined ++
          (BuilderList.search_loop mem end_ fuel p bl).stopped.toList) ∧
      (BuilderList.search_loop mem end_ fuel p bl).list =
        ((BuilderList.search_loop mem end_ fuel p bl).examined.filter mem.is_romtag).foldl
          (BuilderList.add mem) bl := by
  induction fuel with
  | zero =>
    intro p bl
    simp [BuilderList.search_loop]
  | succ fuel ih =>
    intro p bl
    simp only [BuilderList.search_loop]
    by_cases hp : p < end_
    · rw [if_pos hp]
      by_cases hm : mem.is_romtag p = true
      · rw [if_pos hm]
        obtain ⟨h1, h2, h3, h4, h5, h6⟩ := ih (mem.resident p).end_ (bl.add mem p)
        refine ⟨?_, h2, ?_, ?_, ?_, ?_⟩
        · intro x hx
          rcases List.mem_cons.1 hx with rfl | hx
          · exact hp
          · exact h1 x hx
        · intro hn
          simp only [List.length_cons]
          rw [h3 hn]
        · intro _
          rfl
        · simp only [List.cons_append]
          rw [List.chain'_cons']
          refine ⟨?_, h5⟩
          intro y hy
          cases fuel with
          | zero => simp [BuilderList.search_loop] at hy
          | succ f =>
            rw [h4 (Nat.succ_pos f)] at hy
            simp only [Option.mem_def, Option.some.injEq] at hy
            rw [← hy, if_pos hm]
        · simp only [List.filter_cons, hm, if_true, List.foldl_cons]
          exact h6
      · rw [if_neg hm]
        obtain ⟨h1, h2, h3, h4, h5, h6⟩ := ih ((p + 2) % WORD) bl
        refine ⟨?_, h2, ?_, ?_, ?_, ?_⟩
        · intro x hx
          rcases List.mem_cons.1 hx with rfl | hx
          · exact hp
          · exact h1 x hx
        · intro hn
          simp only [List.length_cons]
          rw [h3 hn]
        · intro _
          rfl
        · simp only [List.cons_append]
          rw [List.chain'_cons']
          refine ⟨?_, h5⟩
          intro y hy
          cases fuel with
          | zero => simp [BuilderList.search_loop] at hy
          | succ f =>
            rw [h4 (Nat.succ_pos f)] at hy
            simp only [Option.mem_def, Option.some.injEq] at hy
            rw [← hy, if_neg hm]
        · simp only [List.filter_cons, hm, List.foldl_cons]
          exact h6
    · rw [if_neg hp]
      simp
      omega

/-- A cursor below `2^31` has bit 31 clear. -/
theorem cursor_low (next : Nat) (h : next < 2147483648) :
    (next % WORD) &&& 2147483648 = 0 := by
  have h1 : next % WORD = next := Nat.mod_eq_of_lt (by unfold WORD; omega)
  rw [h1]
  have h2 : (2147483648 : Nat) = 2 ^ 31 := by norm_num
  rw [h2]
  apply Nat.eq_of_testBit_eq
  intro i
  rw [Nat.testBit_and, Nat.testBit_two_pow, Nat.zero_testBit]
  by_cases hi : 31 = i
  · subst hi
    rw [Nat.testBit_lt_two_pow (by omega)]
    rfl
  · simp [hi]

/-- The walk of `ResidentArray::initialise` over an array below `2^31` whose slots
hold the non-null entries `es` and then the terminator. -/
theorem ResidentArray.initialise_loop_eq (mem : Memory) (start_class min_version : Nat)
    (es : List Nat) :
    ∀ (fuel next : Nat), es.length < fuel → next + 4 * es.length < 2147483648 →
      (∀ i (h : i < es.length), mem.entry (next + 4 * i) = es.get ⟨i, h⟩) →
      (∀ e ∈ es, e ≠ 0) → mem.entry (next + 4 * es.length) = 0 →
      ResidentArray.initialise_loop mem start_class min_version fuel next =
        some (es.filter (fun e => decide ((mem.resident e).flags &&& start_class ≠ 0 ∧
          (mem.resident e).version ≥ min_version))) := by
  induction es with
  | nil =>
    intro fuel next hf _ _ _ ht
    obtain ⟨f, rfl⟩ : ∃ f, fuel = f + 1 := ⟨fuel - 1, by simp at hf; omega⟩
    simp only [ResidentArray.initialise_loop]
    rw [if_pos (by simpa using ht)]
    rfl
  | cons e es ih =>
    intro fuel next hf hlow he hnz ht
    simp only [List.length_cons] at hf hlow ht
    obtain ⟨f, rfl⟩ : ∃ f, fuel = f + 1 := ⟨fuel - 1, by omega⟩
    have h0 : mem.entry next = e := by
      have := he 0 (by simp)
      simpa using this
    have hrest := ih f (next + 4) (by omega) (by omega)
      (fun i h => by
        have := he (i + 1) (by simp; omega)
        rw [show next + 4 * (i + 1) = next + 4 + 4 * i by omega] at this
        simpa using this)
      (fun x hx => hnz x (List.mem_cons_of_mem _ hx))
      (by rw [show next + 4 + 4 * es.length = next + 4 * (es.length + 1) by omega]; exact ht)
    simp only [ResidentArray.initialise_loop]
    rw [if_neg (by rw [h0]; exact hnz e (by simp))]
    rw [if_neg (by rw [cursor_low next (by omega)]; simp)]
    rw [h0, hrest]
    by_cases hc : (mem.resident e).flags &&& start_class ≠ 0 ∧
        (mem.resident e).version ≥ min_version
    · rw [if_pos hc]
      simp [List.filter_cons, hc]
    · rw [if_neg hc]
      simp [List.filter_cons, hc]

/-- The walk of `ResidentArray::find_name` with a cursor below `2^31`: a non-null
slot is read as the address of a header, whatever its bit 31. -/
theorem ResidentArray.find_name_loop_low (mem : Memory) (name : List Nat) (fuel next : Nat)
    (hlow : next < 2147483648) (hnz : mem.entry next ≠ 0) :
    ResidentArray.find_name_loop mem name (fuel + 1) next =
      if strcmp name (mem.resident (mem.entry next)).name = 0 then some (mem.entry next)
      else ResidentArray.find_name_loop mem name fuel (next + 4) := by
  simp only [ResidentArray.find_name_loop]
  rw [if_neg hnz, if_neg (by rw [cursor_low next hlow]; simp)]

/-- A chain of cursor positions in which every step moves forward is strictly
increasing, and no position of it lies strictly between a position and its
successor position. -/
theorem chain_forward (nxt : Nat → Nat) :
    ∀ (l : List Nat), List.Chain' (fun x y => y = nxt x) l → (∀ x ∈ l, x < nxt x) →
      l.Pairwise (fun x y => x < y) ∧
      ∀ p ∈ l, ∀ q ∈ l, ¬ (p < q ∧ q < nxt p)
  | [], _, _ => by simp
  | [x], _, _ => by
    refine ⟨by simp, ?_⟩
    intro p hp q hq
    simp only [List.mem_singleton] at hp hq
    subst hp hq
    omega
  | x :: y :: l, hc, hf => by
    rw [List.chain'_cons] at hc
    obtain ⟨hxy, hc'⟩ := hc
    obtain ⟨h1, h2⟩ := chain_forward nxt (y :: l) hc'
      (fun z hz => hf z (List.mem_cons_of_mem _ hz))
    have hx := hf x (by simp)
    have hy : ∀ z ∈ y :: l, nxt x ≤ z := by
      intro z hz
      rcases List.mem_cons.1 hz with rfl | hz
      · omega
      · have := (List.pairwise_cons.1 h1).1 z hz
        omega
    refine ⟨List.pairwise_cons.2 ⟨?_, h1⟩, ?_⟩
    · intro z hz
      have := hy z hz
      omega
    · intro p hp q hq
      rcases List.mem_cons.1 hp with hpx | hp'
      · rcases List.mem_cons.1 hq with hqx | hq'
        · omega
        · have := hy q hq'
          rw [hpx]
          omega
      · rcases List.mem_cons.1 hq with hqx | hq'
        · have := hy p hp'
          omega
        · exact h2 p hp' q hq'

/-! ## Releases that meet the free chain, and the shape of a clean release -/

/-- At its overlap checks `deallocate_link` returns without a result when the span
meets the chunk before or the chunk after the insertion point. -/
theorem deallocate_link_none {m r : Nat} {prev : Option Chunk} {pchunk : List Chunk}
    (hov : (∃ pv ∈ prev, m < pv.addr + pv.size) ∨ (∃ n rest, pchunk = n :: rest ∧ n.addr < m + r)) :
    deallocate_link m r prev pchunk = none := by
  unfold deallocate_link
  rcases hov with ⟨pv, hpv, h1⟩ | ⟨n, rest, rfl, h1⟩
  · cases hn : deallocate_next m r pchunk with
    | none => rfl
    | some sn =>
      obtain ⟨size', mc_next⟩ := sn
      simp only [Option.mem_def] at hpv
      subst hpv
      simp only [deallocate_previous]
      rw [if_neg (by omega), if_pos (by omega)]
  · simp only [deallocate_next]
    rw [if_neg (by omega), if_pos h1]

/-- A span that meets a chunk of a sorted chain makes the scan of `Heap::deallocate`
end at one of the two overlap checks. -/
theorem deallocate_chain_none {m r : Nat} {prev : Option Chunk} {l : List Chunk}
    (hs : (prev.toList ++ l).Pairwise Chunk.before) (hp : ∀ pv ∈ prev, pv.addr ≤ m)
    (hov : ∃ c ∈ prev.toList ++ l, c.addr < m + r ∧ m < c.addr + c.size) :
    deallocate_chain m r prev l = none := by
  induction l generalizing prev with
  | nil =>
    simp only [deallocate_chain]
    apply deallocate_link_none
    obtain ⟨c, hc, h1, h2⟩ := hov
    simp only [List.append_nil, Option.mem_toList] at hc
    exact Or.inl ⟨c, hc, h2⟩
  | cons chunk next ih =>
    simp only [deallocate_chain]
    obtain ⟨c, hc, h1, h2⟩ := hov
    by_cases hgt : chunk.addr > m
    · rw [if_pos hgt]
      apply deallocate_link_none
      rcases List.mem_append.1 hc with hc | hc
      · exact Or.inl ⟨c, by simpa using hc, h2⟩
      · right
        refine ⟨chunk, next, rfl, ?_⟩
        rcases List.mem_cons.1 hc with rfl | hc
        · exact h1
        · have := pairwise_before_tail (List.pairwise_append.1 hs).2.1 c hc
          omega
    · rw [if_neg hgt]
      have hs2 : (chunk :: next).Pairwise Chunk.before := (List.pairwise_append.1 hs).2.1
      have : deallocate_chain m r (some chunk) next = none := by
        apply ih (by simpa using hs2) (by intro pv hpv; simp only [Option.mem_def, Option.some.injEq] at hpv; subst hpv; omega)
        rcases List.mem_append.1 hc with hc | hc
        · have := ((List.pairwise_append.1 hs).2.2 c hc chunk (by simp)).1
          omega
        · exact ⟨c, by simpa using hc, h1, h2⟩
      rw [this]

/-- The shape of a release that passes both overlap checks: the chain splits at the
insertion point into the chunks at or below `m` and the chunks above `m`, and the
new chain is made by the two blocks of `deallocate_link` from the last chunk of the
first part and the second part. -/
theorem deallocate_chain_split {m r : Nat} {prev : Option Chunk} {l l' : List Chunk}
    (h : deallocate_chain m r prev l = some l')
    (hs : (prev.toList ++ l).Pairwise Chunk.before) (hp : ∀ pv ∈ prev, pv.addr ≤ m) :
    ∃ A B size' Bn tail, prev.toList ++ l = A ++ B ∧ (∀ a ∈ A, a.addr ≤ m) ∧
      (∀ b ∈ B, m < b.addr) ∧ deallocate_next m r B = some (size', Bn) ∧
      deallocate_previous m size' Bn A.getLast? = some tail ∧ l' = A.dropLast ++ tail := by
  induction l generalizing prev l' with
  | nil =>
    simp only [deallocate_chain] at h
    obtain ⟨size', mc_next, hn, hpv⟩ := deallocate_link_some h
    refine ⟨prev.toList, [], size', mc_next, l', by simp, ?_, by simp, hn, ?_, ?_⟩
    · intro a ha
      exact hp a (by simpa using ha)
    · cases prev <;> simpa using hpv
    · cases prev <;> simp
  | cons chunk next ih =>
    have hs2 : (chunk :: next).Pairwise Chunk.before := (List.pairwise_append.1 hs).2.1
    simp only [deallocate_chain] at h
    split_ifs at h with h1
    · obtain ⟨size', mc_next, hn, hpv⟩ := deallocate_link_some h
      refine ⟨prev.toList, chunk :: next, size', mc_next, l', rfl, ?_, ?_, hn, ?_, ?_⟩
      · intro a ha
        exact hp a (by simpa using ha)
      · intro b hb
        rcases List.mem_cons.1 hb with rfl | hb
        · exact h1
        · have := pairwise_before_tail hs2 b hb
          omega
      · cases prev <;> simpa using hpv
      · cases prev <;> simp
    · cases hc : deallocate_chain m r (some chunk) next with
      | none => simp [hc] at h
      | some chain =>
        simp only [hc, Option.some.injEq] at h
        subst h
        obtain ⟨A, B, size', Bn, tail, e, hA, hB, hn, hpv, hl⟩ :=
          ih hc (by simpa using hs2) (by
            intro pv hpv
            simp only [Option.mem_def, Option.some.injEq] at hpv
            subst hpv
            omega)
        have hA0 : A ≠ [] := by
          rintro rfl
          simp only [Option.toList, List.singleton_append, List.nil_append] at e
          have := hB chunk (by rw [← e]; simp)
          omega
        refine ⟨prev.toList ++ A, B, size', Bn, tail, ?_, ?_, hB, hn, ?_, ?_⟩
        · simp only [Option.toList, List.singleton_append] at e
          rw [List.append_assoc, ← e]
        · intro a ha
          rcases List.mem_append.1 ha with ha | ha
          · exact hp a (by simpa using ha)
          · exact hA a ha
        · rw [List.getLast?_append_of_ne_nil _ hA0]
          exact hpv
        · rw [hl, List.dropLast_append_of_ne_nil _ hA0, List.append_assoc]


/-- Membership of a byte in an appended chain. -/
theorem chain_holds_append (a b : List Chunk) (x : Nat) :
    chain_holds (a ++ b) x ↔ chain_holds a x ∨ chain_holds b x := by
  unfold chain_holds
  constructor
  · rintro ⟨c, hc, h⟩
    rcases List.mem_append.1 hc with hc | hc
    · exact Or.inl ⟨c, hc, h⟩
    · exact Or.inr ⟨c, hc, h⟩
  · rintro (⟨c, hc, h⟩ | ⟨c, hc, h⟩)
    · exact ⟨c, List.mem_append_left _ hc, h⟩
    · exact ⟨c, List.mem_append_right _ hc, h⟩

/-- Membership of a byte in a chain with a first chunk. -/
theorem chain_holds_cons (c : Chunk) (l : List Chunk) (x : Nat) :
    chain_holds (c :: l) x ↔ (c.addr ≤ x ∧ x < c.addr + c.size) ∨ chain_holds l x := by
  unfold chain_holds
  simp

/-- The empty chain holds no byte. -/
theorem chain_holds_nil (x : Nat) : ¬ chain_holds [] x := by
  unfold chain_holds
  simp

/-- The `if(mc_next)` block on a span clear of the chunks above it. -/
theorem deallocate_next_clean {m r : Nat} {B : List Chunk} {size' : Nat} {Bn : List Chunk}
    (h : deallocate_next m r B = some (size', Bn)) (hB : B.Pairwise Chunk.apart)
    (hBm : ∀ b ∈ B, m + r ≤ b.addr) (hi : Nat) (hk : ∀ c ∈ B, c.addr + c.size ≤ hi)
    (hm : m + r ≤ hi) (hhi : hi < WORD) :
    (∀ b ∈ Bn, m + size' < b.addr) ∧ Bn.Pairwise Chunk.apart ∧ m + size' ≤ hi ∧
    (∀ c ∈ Bn, c.addr + c.size ≤ hi) ∧
    (∀ x, ((m ≤ x ∧ x < m + size') ∨ chain_holds Bn x) ↔
      ((m ≤ x ∧ x < m + r) ∨ chain_holds B x)) ∧
    ((∃ c ∈ B, c.addr = m + r) → Bn.length + 1 = B.length) ∧
    ((¬ ∃ c ∈ B, c.addr = m + r) → Bn.length = B.length) := by
  rcases deallocate_next_shape h with ⟨rfl, rfl, rfl⟩ | ⟨n, rfl, h1, rfl⟩ |
    ⟨n, rest, rfl, h1, rfl, rfl⟩
  · simp [hm]
  · have hn := (List.pairwise_cons.1 hB).1
    have hnk := hk n (by simp)
    have e : (r + n.size) % WORD = r + n.size := Nat.mod_eq_of_lt (by omega)
    rw [e]
    refine ⟨?_, (List.pairwise_cons.1 hB).2, by omega,
      fun c hc => hk c (List.mem_cons_of_mem _ hc), ?_, fun _ => rfl, ?_⟩
    · intro b hb
      have := hn b hb
      unfold Chunk.apart at this
      omega
    · intro x
      rw [chain_holds_cons]
      constructor
      · rintro (hx | hx)
        · by_cases hxr : x < m + r
          · exact Or.inl ⟨hx.1, hxr⟩
          · exact Or.inr (Or.inl ⟨by omega, by omega⟩)
        · exact Or.inr (Or.inr hx)
      · rintro (hx | hx | hx)
        · exact Or.inl ⟨hx.1, by omega⟩
        · exact Or.inl ⟨by omega, by omega⟩
        · exact Or.inr hx
    · intro hno
      exact absurd ⟨n, by simp, h1⟩ hno
  · refine ⟨?_, hB, hm, hk, fun x => Iff.rfl, ?_, fun _ => rfl⟩
    · intro b hb
      rcases List.mem_cons.1 hb with rfl | hb
      · exact h1
      · have := (List.pairwise_cons.1 hB).1 b hb
        unfold Chunk.apart at this
        omega
    · rintro ⟨c, hc, hc1⟩
      rcases List.mem_cons.1 hc with rfl | hc
      · omega
      · have := (List.pairwise_cons.1 hB).1 c hc
        unfold Chunk.apart at this
        omega

/-- The `if(previous)` block and the final link on a span clear of the chunks at or
below it. -/
theorem deallocate_previous_clean {m size' : Nat} {A Bn tail : List Chunk}
    (h : deallocate_previous m size' Bn A.getLast? = some tail) (hA : A.Pairwise Chunk.apart)
    (hAm : ∀ a ∈ A, a.addr + a.size ≤ m) (hBn : ∀ b ∈ Bn, m + size' < b.addr)
    (hBp : Bn.Pairwise Chunk.apart) (hm : m + size' < WORD) :
    (A.dropLast ++ tail).Pairwise Chunk.apart ∧
    (∀ x, chain_holds (A.dropLast ++ tail) x ↔
      (chain_holds A x ∨ (m ≤ x ∧ x < m + size') ∨ chain_holds Bn x)) ∧
    ((∃ c ∈ A, c.addr + c.size = m) → (A.dropLast ++ tail).length = A.length + Bn.length) ∧
    ((¬ ∃ c ∈ A, c.addr + c.size = m) →
      (A.dropLast ++ tail).length = A.length + Bn.length + 1) := by
  rcases deallocate_previous_shape h with ⟨hnone, rfl⟩ | ⟨pv, hsome, h1, rfl⟩ |
    ⟨pv, hsome, h1, rfl⟩
  · have hA0 : A = [] := List.getLast?_eq_none_iff.1 hnone
    subst hA0
    refine ⟨?_, ?_, by simp, by simp⟩
    · simp only [List.dropLast_nil, List.nil_append]
      exact List.pairwise_cons.2 ⟨hBn, hBp⟩
    · intro x
      simp only [List.dropLast_nil, List.nil_append, chain_holds_cons]
      have := chain_holds_nil x
      tauto
  · obtain ⟨A0, rfl⟩ := List.getLast?_eq_some_iff.1 hsome
    have hA' := List.pairwise_append.1 hA
    have e : (pv.size + size') % WORD = pv.size + size' := Nat.mod_eq_of_lt (by omega)
    rw [e]
    simp only [List.dropLast_concat]
    refine ⟨?_, ?_, ?_, ?_⟩
    · refine List.pairwise_append.2 ⟨hA'.1, List.pairwise_cons.2 ⟨?_, hBp⟩, ?_⟩
      · intro b hb
        have := hBn b hb
        show pv.addr + (pv.size + size') < b.addr
        omega
      · intro a ha b hb
        rcases List.mem_cons.1 hb with rfl | hb
        · exact hA'.2.2 a ha pv (by simp)
        · have h2 := hAm a (List.mem_append_left _ ha)
          have h3 := hBn b hb
          show a.addr + a.size < b.addr
          omega
    · intro x
      simp only [chain_holds_append, chain_holds_cons]
      have := chain_holds_nil x
      constructor
      · rintro (hx | hx | hx)
        · exact Or.inl (Or.inl hx)
        · by_cases hxm : x < m
          · exact Or.inl (Or.inr (Or.inl ⟨hx.1, by omega⟩))
          · exact Or.inr (Or.inl ⟨by omega, by omega⟩)
        · exact Or.inr (Or.inr hx)
      · rintro ((hx | hx | hx) | hx | hx)
        · exact Or.inl hx
        · exact Or.inr (Or.inl ⟨hx.1, by omega⟩)
        · exact absurd hx this
        · exact Or.inr (Or.inl ⟨by omega, by omega⟩)
        · exact Or.inr (Or.inr hx)
    · intro _
      simp
      omega
    · intro hno
      exact absurd ⟨pv, by simp, h1⟩ hno
  · obtain ⟨A0, rfl⟩ := List.getLast?_eq_some_iff.1 hsome
    have hA' := List.pairwise_append.1 hA
    simp only [List.dropLast_concat]
    refine ⟨?_, ?_, ?_, ?_⟩
    · refine List.pairwise_append.2 ⟨hA'.1, List.pairwise_cons.2 ⟨?_, List.pairwise_cons.2 ⟨hBn, hBp⟩⟩, ?_⟩
      · intro b hb
        rcases List.mem_cons.1 hb with hbe | hb
        · rw [hbe]
          exact h1
        · have := hBn b hb
          show pv.addr + pv.size < b.addr
          omega
      · intro a ha b hb
        rcases List.mem_cons.1 hb with hbe | hb
        · rw [hbe]
          exact hA'.2.2 a ha pv (by simp)
        · have h2 := hAm a (List.mem_append_left _ ha)
          rcases List.mem_cons.1 hb with rfl | hb
          · show a.addr + a.size < m
            have h3 := hA'.2.2 a ha pv (by simp)
            unfold Chunk.apart at h3
            omega
          · have h3 := hBn b hb
            show a.addr + a.size < b.addr
            omega
    · intro x
      simp only [chain_holds_append, chain_holds_cons]
      have := chain_holds_nil x
      tauto
    · rintro ⟨c, hc, hc1⟩
      exfalso
      rcases List.mem_append.1 hc with hc | hc
      · have h3 := hA'.2.2 c hc pv (by simp)
        unfold Chunk.apart at h3
        omega
      · simp only [List.mem_singleton] at hc
        subst hc
        omega
    · intro _
      simp
      omega


/-- A release of a span clear of a chain without adjacent chunks: the scan passes
both overlap checks, the new chain is again in ascending order without overlaps or
adjacent chunks, it holds the bytes of the old chain and those of the span, and
its length changes by the number of neighbours the span is adjacent to. -/
theorem deallocate_chain_clean {m r : Nat} {l : List Chunk} (hr : 0 < r)
    (hs : l.Pairwise Chunk.apart) (hq : span_clear m r l) (hi : Nat)
    (hk : ∀ c ∈ l, c.addr + c.size ≤ hi) (hm : m + r ≤ hi) (hhi : hi < WORD) :
    ∃ l', deallocate_chain m r none l = some l' ∧ l'.Pairwise Chunk.apart ∧
      (∀ x, chain_holds l' x ↔ (chain_holds l x ∨ (m ≤ x ∧ x < m + r))) ∧
      ((¬ (∃ c ∈ l, c.addr + c.size = m) ∧ ¬ (∃ c ∈ l, c.addr = m + r)) →
        l'.length = l.length + 1) ∧
      ((((∃ c ∈ l, c.addr + c.size = m) ∧ ¬ (∃ c ∈ l, c.addr = m + r)) ∨
        (¬ (∃ c ∈ l, c.addr + c.size = m) ∧ (∃ c ∈ l, c.addr = m + r))) →
        l'.length = l.length) ∧
      (((∃ c ∈ l, c.addr + c.size = m) ∧ (∃ c ∈ l, c.addr = m + r)) →
        l'.length + 1 = l.length) := by
  have hsb : l.Pairwise Chunk.before :=
    hs.imp (fun {a b} (hab : a.addr + a.size < b.addr) => ⟨by omega, by omega⟩)
  obtain ⟨l', hl'⟩ := @deallocate_chain_isSome m r none l hr (by simpa using hsb)
    (by simpa using hq) (by simp)
  obtain ⟨A, B, size', Bn, tail, e, hA, hB, hn, hp, hl⟩ :=
    deallocate_chain_split hl' (by simpa using hsb) (by simp)
  simp only [Option.toList, List.nil_append] at e
  subst e
  have hsp := List.pairwise_append.1 hs
  have hAm : ∀ a ∈ A, a.addr + a.size ≤ m := by
    intro a ha
    have := hq a (List.mem_append_left _ ha)
    have := hA a ha
    omega
  have hBm : ∀ b ∈ B, m + r ≤ b.addr := by
    intro b hb
    have := hq b (List.mem_append_right _ hb)
    have := hB b hb
    omega
  obtain ⟨n1, n2, n3, n4, n5, n6, n7⟩ := deallocate_next_clean hn hsp.2.1 hBm hi
    (fun c hc => hk c (List.mem_append_right _ hc)) hm hhi
  obtain ⟨p1, p2, p3, p4⟩ := deallocate_previous_clean hp hsp.1 hAm n1 n2 (by omega)
  have eA : (∃ c ∈ A ++ B, c.addr + c.size = m) ↔ (∃ c ∈ A, c.addr + c.size = m) := by
    constructor
    · rintro ⟨c, hc, h1⟩
      rcases List.mem_append.1 hc with hc | hc
      · exact ⟨c, hc, h1⟩
      · have := hB c hc
        omega
    · rintro ⟨c, hc, h1⟩
      exact ⟨c, List.mem_append_left _ hc, h1⟩
  have eB : (∃ c ∈ A ++ B, c.addr = m + r) ↔ (∃ c ∈ B, c.addr = m + r) := by
    constructor
    · rintro ⟨c, hc, h1⟩
      rcases List.mem_append.1 hc with hc | hc
      · have := hA c hc
        omega
      · exact ⟨c, hc, h1⟩
    · rintro ⟨c, hc, h1⟩
      exact ⟨c, List.mem_append_right _ hc, h1⟩
  rw [eA, eB]
  refine ⟨l', hl', by rw [hl]; exact p1, ?_, ?_, ?_, ?_⟩
  · intro x
    have h5 := n5 x
    have h6 := p2 x
    rw [hl, h6, chain_holds_append]
    clear hl' hn hp hhi hk hm hl p1 p2 p3 p4 n1 n2 n3 n4 n5 n6 n7 eA eB hAm hBm hA hB hsp hsb hs hq h6
    tauto
  · rintro ⟨h1, h2⟩
    have e1 := p4 h1
    have e2 := n7 h2
    rw [hl, e1, List.length_append, e2]
  · rintro (⟨h1, h2⟩ | ⟨h1, h2⟩)
    · have e1 := p3 h1
      have e2 := n7 h2
      rw [hl, e1, List.length_append, e2]
    · have e1 := p4 h1
      have e2 := n6 h2
      rw [hl, e1, List.length_append]
      omega
  · rintro ⟨h1, h2⟩
    have e1 := p3 h1
    have e2 := n6 h2
    rw [hl, e1, List.length_append]
    omega

/-! ## Lemmas on the jump table of a library -/

/-- The first byte of a 16-bit store. -/
theorem write16_at0 (b : Int → Nat) (o : Int) (v : Nat) : write16 b o v o = v / 256 % 256 := by
  simp [write16]

/-- The second byte of a 16-bit store. -/
theorem write16_at1 (b : Int → Nat) (o : Int) (v : Nat) : write16 b o v (o + 1) = v % 256 := by
  simp [write16]

/-- A 16-bit store leaves the other bytes. -/
theorem write16_other (b : Int → Nat) (o : Int) (v : Nat) (i : Int) (h : i < o ∨ o + 2 ≤ i) :
    write16 b o v i = b i := by
  unfold write16
  rw [if_neg (by omega), if_neg (by omega)]

/-- The first byte of a 32-bit store. -/
theorem write32_at0 (b : Int → Nat) (o : Int) (v : Nat) :
    write32 b o v o = v / 16777216 % 256 := by
  simp [write32]

/-- The second byte of a 32-bit store. -/
theorem write32_at1 (b : Int → Nat) (o : Int) (v : Nat) :
    write32 b o v (o + 1) = v / 65536 % 256 := by
  simp [write32]

/-- The third byte of a 32-bit store. -/
theorem write32_at2 (b : Int → Nat) (o : Int) (v : Nat) :
    write32 b o v (o + 2) = v / 256 % 256 := by
  simp [write32]

/-- The fourth byte of a 32-bit store. -/
theorem write32_at3 (b : Int → Nat) (o : Int) (v : Nat) : write32 b o v (o + 3) = v % 256 := by
  simp [write32]

/-- A 32-bit store leaves the other bytes. -/
theorem write32_other (b : Int → Nat) (o : Int) (v : Nat) (i : Int) (h : i < o ∨ o + 4 ≤ i) :
    write32 b o v i = b i := by
  unfold write32
  rw [if_neg (by omega), if_neg (by omega), if_neg (by omega), if_neg (by omega)]

/-- Reading back a 32-bit store. -/
theorem read32_write32 (b : Int → Nat) (o : Int) (v : Nat) :
    read32 (write32 b o v) o = v % 4294967296 := by
  unfold read32
  rw [write32_at0, write32_at1, write32_at2, write32_at3]
  omega

/-- One vector written by `Library::Function::set_function`: the opcode, the address,
and the bytes outside the six bytes of the vector. -/
theorem Library.Function.set_function_spec (bytes : Int → Nat) (o : Int) (fn : Nat) :
    read16 (Library.Function.set_function bytes o fn) o =
      (if fn % 4294967296 = 0 then 0x4afc else 0x4ef9) ∧
    read32 (Library.Function.set_function bytes o fn) (o + 2) = fn % 4294967296 ∧
    ∀ i, (i < o ∨ o + 6 ≤ i) → Library.Function.set_function bytes o fn i = bytes i := by
  have h32 := read32_write32 (write16 bytes o 0x4ef9) (o + 2) fn
  refine ⟨?_, ?_, ?_⟩
  · simp only [Library.Function.set_function]
    rw [h32]
    by_cases hz : fn % 4294967296 = 0
    · rw [if_pos hz, if_pos hz]
      unfold read16
      rw [write16_at0, write16_at1]
    · rw [if_neg hz, if_neg hz]
      unfold read16
      rw [write32_other _ _ _ _ (Or.inl (by omega)), write32_other _ _ _ _ (Or.inl (by omega)),
        write16_at0, write16_at1]
  · simp only [Library.Function.set_function]
    rw [h32]
    by_cases hz : fn % 4294967296 = 0
    · rw [if_pos hz]
      unfold read32
      rw [write16_other _ _ _ _ (Or.inr (by omega)), write16_other _ _ _ _ (Or.inr (by omega)),
        write16_other _ _ _ _ (Or.inr (by omega)), write16_other _ _ _ _ (Or.inr (by omega))]
      exact h32
    · rw [if_neg hz, h32]
  · intro i hi
    simp only [Library.Function.set_function]
    rw [h32]
    split_ifs
    · rw [write16_other _ _ _ _ (by omega), write32_other _ _ _ _ (by omega),
        write16_other _ _ _ _ (by omega)]
    · rw [write32_other _ _ _ _ (by omega), write16_other _ _ _ _ (by omega)]


/-- The calls made by the unpacking loop over `n` entries followed by the sentinel. -/
theorem PackedFunctions.unpack16_loop_snd (t : PackedFunctions) (reference : Nat) (n : Nat) :
    ∀ (fuel input : Nat) (x : Int), n < fuel →
      (∀ i, i < n → t.displacements (input + i) ≠ -1) → t.displacements (input + n) = -1 →
      (t.unpack16_loop reference fuel input (int16_cast x)).map Prod.snd =
        some ((List.range n).map (fun (j : Nat) => LibraryCall.set_function
          (int16_cast (x - 6 * ((j : Int) + 1)))
          (uint32_cast ((reference : Int) + t.displacements (input + j))))) := by
  induction n with
  | zero =>
    intro fuel input x hf _ hs
    obtain ⟨f, rfl⟩ : ∃ f, fuel = f + 1 := ⟨fuel - 1, by omega⟩
    simp only [PackedFunctions.unpack16_loop]
    rw [if_neg (by simpa using hs)]
    simp
  | succ n ih =>
    intro fuel input x hf he hs
    obtain ⟨f, rfl⟩ : ∃ f, fuel = f + 1 := ⟨fuel - 1, by omega⟩
    simp only [PackedFunctions.unpack16_loop]
    rw [if_pos (by simpa using he 0 (by omega)), int16_cast_sub]
    have := ih f (input + 1) (x - 6) (by omega)
      (fun i hi => by have := he (i + 1) (by omega); rwa [show input + 1 + i = input + (i + 1) by omega])
      (by rwa [show input + 1 + n = input + (n + 1) by omega])
    rw [Option.map_map]
    cases hr : t.unpack16_loop reference f (input + 1) (int16_cast (x - 6)) with
    | none => rw [hr] at this; simp at this
    | some r =>
      rw [hr] at this
      simp only [Option.map_some', Option.some.injEq] at this
      simp only [Option.map_some', Function.comp_apply, Option.some.injEq]
      rw [this, List.range_succ_eq_map, List.map_cons, List.map_map, List.cons.injEq]
      refine ⟨by simp, ?_⟩
      apply List.map_congr_left
      intro j _
      simp only [Function.comp_apply]
      rw [show input + 1 + j = input + (j + 1) by omega,
        show x - 6 - 6 * ((j : Int) + 1) = x - 6 * (((j + 1 : Nat) : Int) + 1) by push_cast; omega]

/-- The calls made by the unpacking loop of the 32-bit form. -/
theorem PackedFunctions.unpack32_loop_snd (t : PackedFunctions) (n : Nat) :
    ∀ (fuel input : Nat) (x : Int), n < fuel →
      (∀ i, i < n → t.pointers (input + i) ≠ -1) → t.pointers (input + n) = -1 →
      (t.unpack32_loop fuel input (int16_cast x)).map Prod.snd =
        some ((List.range n).map (fun (j : Nat) => LibraryCall.set_function
          (int16_cast (x - 6 * ((j : Int) + 1))) (uint32_cast (t.pointers (input + j))))) := by
  induction n with
  | zero =>
    intro fuel input x hf _ hs
    obtain ⟨f, rfl⟩ : ∃ f, fuel = f + 1 := ⟨fuel - 1, by omega⟩
    simp only [PackedFunctions.unpack32_loop]
    rw [if_neg (by simpa using hs)]
    simp
  | succ n ih =>
    intro fuel input x hf he hs
    obtain ⟨f, rfl⟩ : ∃ f, fuel = f + 1 := ⟨fuel - 1, by omega⟩
    simp only [PackedFunctions.unpack32_loop]
    rw [if_pos (by simpa using he 0 (by omega)), int16_cast_sub]
    have := ih f (input + 1) (x - 6) (by omega)
      (fun i hi => by have := he (i + 1) (by omega); rwa [show input + 1 + i = input + (i + 1) by omega])
      (by rwa [show input + 1 + n = input + (n + 1) by omega])
    rw [Option.map_map]
    cases hr : t.unpack32_loop f (input + 1) (int16_cast (x - 6)) with
    | none => rw [hr] at this; simp at this
    | some r =>
      rw [hr] at this
      simp only [Option.map_some', Option.some.injEq] at this
      simp only [Option.map_some', Function.comp_apply, Option.some.injEq]
      rw [this, List.range_succ_eq_map, List.map_cons, List.map_map, List.cons.injEq]
      refine ⟨by simp, ?_⟩
      apply List.map_congr_left
      intro j _
      simp only [Function.comp_apply]
      rw [show input + 1 + j = input + (j + 1) by omega,
        show x - 6 - 6 * ((j : Int) + 1) = x - 6 * (((j + 1 : Nat) : Int) + 1) by push_cast; omega]


/-- Two readings of a 16-bit cell agree when the two bytes agree. -/
theorem read16_congr {b b' : Int → Nat} {o : Int} (h0 : b' o = b o) (h1 : b' (o + 1) = b (o + 1)) :
    read16 b' o = read16 b o := by
  unfold read16
  rw [h0, h1]

/-- Two readings of a 32-bit cell agree when the four bytes agree. -/
theorem read32_congr {b b' : Int → Nat} {o : Int} (h0 : b' o = b o) (h1 : b' (o + 1) = b (o + 1))
    (h2 : b' (o + 2) = b (o + 2)) (h3 : b' (o + 3) = b (o + 3)) :
    read32 b' o = read32 b o := by
  unfold read32
  rw [h0, h1, h2, h3]

/-- The library after `set_function` calls on the vectors at `-6`, `-12`, ...,
`-6 * n` with the targets `target 0`, ..., `target (n - 1)`. -/
theorem Library.run_set_functions (target : Nat → Nat) (n : Nat) (l : Library) :
    (l.run ((List.range n).map (fun (j : Nat) =>
      LibraryCall.set_function (-(6 * ((j : Int) + 1))) (target j)))).flags = l.flags ∧
    (l.run ((List.range n).map (fun (j : Nat) =>
      LibraryCall.set_function (-(6 * ((j : Int) + 1))) (target j)))).neg_size = l.neg_size ∧
    (l.run ((List.range n).map (fun (j : Nat) =>
      LibraryCall.set_function (-(6 * ((j : Int) + 1))) (target j)))).sum = l.sum ∧
    (∀ k, k < n →
      read16 (l.run ((List.range n).map (fun (j : Nat) =>
        LibraryCall.set_function (-(6 * ((j : Int) + 1))) (target j)))).bytes
          (-(6 * ((k : Int) + 1))) =
        (if target k % 4294967296 = 0 then 0x4afc else 0x4ef9) ∧
      read32 (l.run ((List.range n).map (fun (j : Nat) =>
        LibraryCall.set_function (-(6 * ((j : Int) + 1))) (target j)))).bytes
          (-(6 * ((k : Int) + 1)) + 2) = target k % 4294967296) ∧
    (∀ i : Int, (i < -(6 * (n : Int)) ∨ 0 ≤ i) →
      (l.run ((List.range n).map (fun (j : Nat) =>
        LibraryCall.set_function (-(6 * ((j : Int) + 1))) (target j)))).bytes i = l.bytes i) := by
  induction n with
  | zero => simp [Library.run]
  | succ n ih =>
    obtain ⟨h1, h2, h3, h4, h5⟩ := ih
    rw [List.range_succ, List.map_append, Library.run, List.foldl_append]
    simp only [List.map_cons, List.map_nil, List.foldl_cons, List.foldl_nil]
    rw [← Library.run]
    generalize l.run ((List.range n).map (fun (j : Nat) =>
      LibraryCall.set_function (-(6 * ((j : Int) + 1))) (target j))) = l' at h1 h2 h3 h4 h5
    obtain ⟨s1, s2, s3⟩ := Library.Function.set_function_spec l'.bytes
      (-(6 * ((n : Int) + 1))) (target n)
    simp only [Library.call, Library.set_function]
    refine ⟨h1, h2, h3, ?_, ?_⟩
    · intro k hk
      by_cases hkn : k = n
      · subst hkn
        exact ⟨s1, s2⟩
      · have hk' : k < n := by omega
        obtain ⟨g1, g2⟩ := h4 k hk'
        constructor
        · rw [← g1]
          exact read16_congr (s3 _ (by omega)) (s3 _ (by omega))
        · rw [← g2]
          exact read32_congr (s3 _ (by omega)) (s3 _ (by omega)) (s3 _ (by omega))
            (s3 _ (by omega))
    · intro i hi
      rw [s3 i (by push_cast at hi; omega)]
      exact h5 i (by push_cast at hi; omega)

/-- A 32-bit conversion is its own remainder. -/
theorem uint32_cast_mod (x : Int) : uint32_cast x % 4294967296 = uint32_cast x := by
  unfold uint32_cast
  omega

/-- An option is determined by its two projections. -/
theorem option_pair_eq {α β : Type} {x : Option (α × β)} {a : α} {b : β}
    (h1 : x.map Prod.fst = some a) (h2 : x.map Prod.snd = some b) : x = some (a, b) := by
  cases x with
  | none => simp at h1
  | some r =>
    simp only [Option.map_some', Option.some.injEq] at h1 h2
    rw [← h1, ← h2]

/-- The offsets of the first 5461 vectors fit the `int16_t` offset. -/
theorem unpack_calls_small (n : Nat) (hn : n ≤ 5461) (target : Nat → Nat) :
    (List.range n).map (fun (j : Nat) => LibraryCall.set_function
      (int16_cast (0 - 6 * ((j : Int) + 1))) (target j)) =
    (List.range n).map (fun (j : Nat) => LibraryCall.set_function
      (-(6 * ((j : Int) + 1))) (target j)) := by
  apply List.map_congr_left
  intro j hj
  have hj' : j < n := List.mem_range.1 hj
  have : int16_cast (0 - 6 * ((j : Int) + 1)) = -(6 * ((j : Int) + 1)) := by
    unfold int16_cast
    omega
  rw [this]

/-- The library after a run that starts with `set_function_before` and goes on with
the `set_function` calls of up to 5461 entries. -/
theorem Library.run_unpack (library : Library) (n : Nat) (target : Nat → Int) :
    Library.vectors_written library
      (library.run (LibraryCall.set_function_before :: (List.range n).map (fun (j : Nat) =>
        LibraryCall.set_function (-(6 * ((j : Int) + 1))) (uint32_cast (target j))))) n
      (fun k => uint32_cast (target k)) ∧
    (library.run (LibraryCall.set_function_before :: (List.range n).map (fun (j : Nat) =>
        LibraryCall.set_function (-(6 * ((j : Int) + 1))) (uint32_cast (target j))))).flags =
      library.flags ||| LIBF_CHANGED ∧
    (library.run (LibraryCall.set_function_before :: (List.range n).map (fun (j : Nat) =>
        LibraryCall.set_function (-(6 * ((j : Int) + 1))) (uint32_cast (target j))))).sum =
      library.sum := by
  obtain ⟨h1, _, h3, h4, h5⟩ := Library.run_set_functions
    (fun (j : Nat) => uint32_cast (target j)) n library.set_function_before
  have e : library.run (LibraryCall.set_function_before :: (List.range n).map (fun (j : Nat) =>
        LibraryCall.set_function (-(6 * ((j : Int) + 1))) (uint32_cast (target j)))) =
      library.set_function_before.run ((List.range n).map (fun (j : Nat) =>
        LibraryCall.set_function (-(6 * ((j : Int) + 1))) (uint32_cast (target j)))) := rfl
  rw [e]
  refine ⟨⟨?_, ?_⟩, h1, h3⟩
  · intro k hk
    obtain ⟨g1, g2⟩ := h4 k hk
    simp only [uint32_cast_mod] at g1 g2
    exact ⟨g1, g2⟩
  · intro i hi
    exact h5 i hi

/-- The unpacking loop of the 16-bit form over `n ≤ 5461` entries. -/
theorem PackedFunctions.unpack16_loop_small (t : PackedFunctions) (reference n fuel input : Nat)
    (hn : n ≤ 5461) (hf : n < fuel)
    (he : ∀ i, i < n → t.displacements (input + i) ≠ -1) (hs : t.displacements (input + n) = -1) :
    t.unpack16_loop reference fuel input 0 =
      some (6 * n, (List.range n).map (fun (j : Nat) => LibraryCall.set_function
        (-(6 * ((j : Int) + 1))) (uint32_cast ((reference : Int) + t.displacements (input + j))))) := by
  have h1 := t.unpack16_loop_fst reference n fuel input 0 hf he hs
  have h2 := t.unpack16_loop_snd reference n fuel input 0 hf he hs
  rw [show int16_cast 0 = 0 from rfl] at h1 h2
  rw [unpack_value_small n hn] at h1
  rw [unpack_calls_small n hn] at h2
  exact option_pair_eq h1 h2

/-- The unpacking loop of the 32-bit form over `n ≤ 5461` entries. -/
theorem PackedFunctions.unpack32_loop_small (t : PackedFunctions) (n fuel input : Nat)
    (hn : n ≤ 5461) (hf : n < fuel)
    (he : ∀ i, i < n → t.pointers (input + i) ≠ -1) (hs : t.pointers (input + n) = -1) :
    t.unpack32_loop fuel input 0 =
      some (6 * n, (List.range n).map (fun (j : Nat) => LibraryCall.set_function
        (-(6 * ((j : Int) + 1))) (uint32_cast (t.pointers (input + j))))) := by
  have h1 := t.unpack32_loop_fst n fuel input 0 hf he hs
  have h2 := t.unpack32_loop_snd n fuel input 0 hf he hs
  rw [show int16_cast 0 = 0 from rfl] at h1 h2
  rw [unpack_value_small n hn] at h1
  rw [unpack_calls_small n hn] at h2
  exact option_pair_eq h1 h2

/-- The summing loop adds the cells below the base modulo `2^16`. -/
theorem Library.sum_loop_eq (l : Library) (k : Nat) :
    ∀ acc, l.sum_loop k (acc % 65536) =
      (acc + ((List.range k).map
        (fun (j : Nat) => read16 l.bytes (-(2 * ((j : Int) + 1))))).sum) % 65536 := by
  induction k with
  | zero => intro acc; simp [Library.sum_loop]
  | succ k ih =>
    intro acc
    simp only [Library.sum_loop]
    rw [Nat.mod_add_mod, ih, List.range_succ, List.map_append, List.sum_append]
    simp only [List.map_cons, List.map_nil, List.sum_cons, List.sum_nil, Nat.add_zero]
    congr 1
    omega

/-- The first test of `sum_library` never holds. -/
theorem not_flags_and_sumused (flags : Nat) :
    (if flags = 0 then 1 else 0) &&& LIBF_SUMUSED = 0 := by
  split_ifs <;> decide

/-- Method `sum_library` in terms of the checksum of the jump table. -/
theorem Library.sum_library_eq (l : Library) :
    l.sum_library =
      if l.flags &&& LIBF_CHANGED ≠ 0 then
        ({ l with flags := l.flags &&& (255 - LIBF_CHANGED), sum := l.checksum }, false)
      else if l.sum ≠ 0 ∧ l.sum ≠ l.checksum then ({ l with sum := l.checksum }, true)
      else ({ l with sum := l.checksum }, false) := by
  have h := l.sum_loop_eq (l.neg_size / 2) 0
  simp only [Nat.zero_mod, Nat.zero_add] at h
  unfold Library.sum_library
  rw [if_neg (by rw [not_flags_and_sumused]; simp)]
  simp only [h, Library.checksum]

set_option maxRecDepth 100000 in
/-- Clearing `LIBF_CHANGED` in a `uint8_t` touches no other flag. -/
theorem clear_changed_bits : ∀ f, f < 256 →
    (f &&& (255 - LIBF_CHANGED)) &&& LIBF_CHANGED = 0 ∧
    (f &&& (255 - LIBF_CHANGED)) ||| LIBF_CHANGED = f ||| LIBF_CHANGED ∧
    (f &&& (255 - LIBF_CHANGED)) &&& LIBF_SUMUSED = f &&& LIBF_SUMUSED := by
  decide

/-- A sequence of calls that starts with the call `c`. -/
theorem Library.run_cons (l : Library) (c : LibraryCall) (cs : List LibraryCall) :
    l.run (c :: cs) = (l.call c).run cs := rfl

/-- A sequence of calls that ends with the call `c`. -/
theorem Library.run_concat (l : Library) (cs : List LibraryCall) (c : LibraryCall) :
    l.run (cs ++ [c]) = (l.run cs).call c := by
  simp only [Library.run, List.foldl_append, List.foldl_cons, List.foldl_nil]

/-- The call `set_function_before`. -/
theorem Library.call_before (l : Library) :
    l.call LibraryCall.set_function_before = l.set_function_before := rfl

/-! ## Linked lists in memory: the links after each method -/

/-- A cell reads the value stored in it. -/
theorem store_same (mem : Nat → Nat) (a v : Nat) : store mem a v a = v := by
  simp [store]

/-- A store leaves the other cells as they are. -/
theorem store_other (mem : Nat → Nat) (a v i : Nat) (h : i ≠ a) : store mem a v i = mem i := by
  simp [store, h]

/-- A chain of links stays one when no `next` cell of a node that has a successor
and no `prev` cell of a node that has a predecessor changes. -/
theorem linked_chain_frame (mem mem' : Nat → Nat) : ∀ (l : List Nat),
    List.Chain' (linked mem) l →
    (∀ u ∈ l.dropLast, mem' u = mem u) →
    (∀ v ∈ l.tail, mem' (v + 4) = mem (v + 4)) → List.Chain' (linked mem') l
  | [], _, _, _ => List.chain'_nil
  | [_], _, _, _ => List.chain'_singleton _
  | a :: b :: l, hc, hn, hp => by
    rw [List.chain'_cons] at hc ⊢
    refine ⟨?_, linked_chain_frame mem mem' (b :: l) hc.2 ?_ ?_⟩
    · have h1 := hn a (by simp)
      have h2 := hp b (by simp)
      unfold linked MinNode.next MinNode.prev at hc ⊢
      rw [h1, h2]
      exact hc.1
    · intro u hu
      exact hn u (by rw [List.dropLast_cons₂]; exact List.mem_cons_of_mem _ hu)
    · intro v hv
      exact hp v (by simp only [List.tail_cons] at hv ⊢; exact List.mem_cons_of_mem _ hv)

/-- The header cells and the node records of a list whose records lie clear of the
header and of each other: two of them are equal, eight bytes apart, or the two
markers. -/
theorem clear_cells (L : Nat) (nodes : List Nat)
    (hL : ∀ n ∈ nodes, n + 8 ≤ L ∨ L + 12 ≤ n)
    (hpw : nodes.Pairwise (fun a b => a + 8 ≤ b ∨ b + 8 ≤ a))
    (a b : Nat) (ha : a ∈ L :: nodes ++ [L + 4]) (hb : b ∈ L :: nodes ++ [L + 4]) :
    a = b ∨ (a + 8 ≤ b ∨ b + 8 ≤ a) ∨ (a = L ∧ b = L + 4) ∨ (a = L + 4 ∧ b = L) := by
  have hsym : ∀ x ∈ nodes, ∀ y ∈ nodes, x = y ∨ (x + 8 ≤ y ∨ y + 8 ≤ x) := by
    intro x hx y hy
    by_cases hxy : x = y
    · exact Or.inl hxy
    · exact Or.inr (List.Pairwise.forall (fun _ _ h => h.symm) hpw hx hy hxy)
  simp only [List.cons_append, List.mem_cons, List.mem_append, List.not_mem_nil, or_false] at ha hb
  rcases ha with ha | ha | ha <;> rcases hb with hb | hb | hb
  · omega
  · have := hL b hb; omega
  · omega
  · have := hL a ha; omega
  · have := hsym a ha b hb; omega
  · have := hL a ha; omega
  · omega
  · have := hL b hb; omega
  · omega

/-- The `next` cell of the head marker or of a node is not the `prev` cell of a node
or of the tail marker. -/
theorem clear_link_cells (L : Nat) (nodes : List Nat)
    (hL : ∀ n ∈ nodes, n + 8 ≤ L ∨ L + 12 ≤ n)
    (hpw : nodes.Pairwise (fun a b => a + 8 ≤ b ∨ b + 8 ≤ a))
    (a b : Nat) (ha : a ∈ L :: nodes) (hb : b ∈ nodes ++ [L + 4]) : a ≠ b + 4 := by
  have h := clear_cells L nodes hL hpw a b
    (by simp only [List.cons_append, List.mem_cons, List.mem_append] at ha ⊢; tauto)
    (by simp only [List.cons_append, List.mem_cons, List.mem_append] at hb ⊢; tauto)
  have ka : a ≠ L + 4 := by
    rcases List.mem_cons.1 ha with e | e
    · omega
    · have := hL a e; omega
  omega

/-- The markers and the nodes of such a list are pairwise different. -/
theorem clear_nodup (L : Nat) (nodes : List Nat)
    (hL : ∀ n ∈ nodes, n + 8 ≤ L ∨ L + 12 ≤ n)
    (hpw : nodes.Pairwise (fun a b => a + 8 ≤ b ∨ b + 8 ≤ a)) :
    (L :: nodes ++ [L + 4]).Nodup := by
  rw [List.cons_append, List.nodup_cons, List.nodup_append]
  refine ⟨?_, hpw.imp (fun h => by omega), List.nodup_singleton _, ?_⟩
  · intro h
    rcases List.mem_append.1 h with h | h
    · have := hL L h; omega
    · simp at h
  · intro a ha hb
    have := hL a ha
    simp at hb
    omega

/-- In a list without repetition the last element differs from the others. -/
theorem nodup_dropLast_ne (l : List Nat) (p : Nat) (hn : l.Nodup) (hp : l.getLast? = some p) :
    ∀ u ∈ l.dropLast, u ≠ p := by
  obtain ⟨X0, eX⟩ := List.getLast?_eq_some_iff.1 hp
  rw [eX, List.dropLast_concat]
  rw [eX] at hn
  intro u hu e
  exact (List.nodup_append.1 hn).2.2 hu (by rw [e]; simp)

/-- In a list without repetition the first element differs from the others. -/
theorem nodup_tail_ne (l : List Nat) (s : Nat) (hn : l.Nodup) (hs : l.head? = some s) :
    ∀ v ∈ l.tail, v ≠ s := by
  cases l with
  | nil => simp at hs
  | cons b V =>
    simp only [List.head?_cons, Option.some.injEq] at hs
    rw [hs] at hn
    intro v hv e
    rw [List.tail_cons] at hv
    exact (List.nodup_cons.1 hn).1 (e ▸ hv)

/-- Linking the clear record `x` between the neighbours `p` and `s` of a list gives
the list with `x` at that place. -/
theorem MinList.Holds.splice (mem mem' : Nat → Nat) (L : Nat) (A B : List Nat) (x p s : Nat)
    (h : MinList.Holds mem L (A ++ B)) (hx : node_clear L (A ++ B) x)
    (hp : (L :: A).getLast? = some p) (hs : (B ++ [L + 4]).head? = some s)
    (hm : ∀ i, mem' i = if i = x then s else if i = x + 4 then p else if i = p then x
      else if i = s + 4 then x else mem i) :
    MinList.Holds mem' L (A ++ x :: B) := by
  obtain ⟨hc, h0, hL, hpw⟩ := h
  unfold MinList.head_node MinList.tail_node at hc
  have hL' : ∀ n ∈ A ++ x :: B, n + 8 ≤ L ∨ L + 12 ≤ n := by
    intro n hn
    rcases List.mem_append.1 hn with hn | hn
    · exact hL n (List.mem_append_left _ hn)
    · rcases List.mem_cons.1 hn with hn | hn
      · rw [hn]; exact hx.1
      · exact hL n (List.mem_append_right _ hn)
  have hpw' : (A ++ x :: B).Pairwise (fun a b => a + 8 ≤ b ∨ b + 8 ≤ a) := by
    rw [List.pairwise_append] at hpw ⊢
    refine ⟨hpw.1, List.pairwise_cons.2
      ⟨fun b hb => hx.2 b (List.mem_append_right _ hb), hpw.2.1⟩, ?_⟩
    intro a ha b hb
    rcases List.mem_cons.1 hb with hb | hb
    · rw [hb]; have := hx.2 a (List.mem_append_left _ ha); omega
    · exact hpw.2.2 a ha b hb
  have hcell := clear_link_cells L _ hL' hpw'
  have hnd := clear_nodup L _ hL' hpw'
  have e1 : L :: (A ++ x :: B) ++ [L + 4] = (L :: A) ++ x :: (B ++ [L + 4]) := by simp
  have e0 : L :: (A ++ B) ++ [L + 4] = (L :: A) ++ (B ++ [L + 4]) := by simp
  rw [e1] at hnd
  rw [e0, List.chain'_append] at hc
  have hd := List.nodup_append.1 hnd
  have hd2 := List.nodup_cons.1 hd.2.1
  have inA : ∀ a ∈ L :: A, a ∈ L :: (A ++ x :: B) := by
    intro a ha
    simp only [List.mem_cons, List.mem_append] at ha ⊢; tauto
  have inB : ∀ b ∈ B ++ [L + 4], b ∈ (A ++ x :: B) ++ [L + 4] := by
    intro b hb
    simp only [List.mem_cons, List.mem_append] at hb ⊢; tauto
  have mxN : x ∈ L :: (A ++ x :: B) := by simp
  have mxP : x ∈ (A ++ x :: B) ++ [L + 4] := by simp
  have mp : p ∈ L :: A := List.mem_of_getLast?_eq_some hp
  have ms : s ∈ B ++ [L + 4] := List.mem_of_mem_head? hs
  have nAx : ∀ a ∈ L :: A, a ≠ x := fun a ha e => hd.2.2 ha (by rw [e]; simp)
  have nAB : ∀ a ∈ L :: A, ∀ b ∈ B ++ [L + 4], a ≠ b :=
    fun a ha b hb e => hd.2.2 ha (by rw [e]; exact List.mem_cons_of_mem _ hb)
  have nBx : ∀ b ∈ B ++ [L + 4], b ≠ x := fun b hb e => hd2.1 (e ▸ hb)
  have nXp := nodup_dropLast_ne _ p hd.1 hp
  have nVs := nodup_tail_ne _ s hd2.2 hs
  have c1 := hcell p x (inA p mp) mxP
  have c2 := hcell x s mxN (inB s ms)
  have c3 := hcell p s (inA p mp) (inB s ms)
  have c4 := nAx p mp
  have c5 := nBx s ms
  have fA : List.Chain' (linked mem') (L :: A) := by
    apply linked_chain_frame mem mem' _ hc.1
    · intro u hu
      have hu' := List.mem_of_mem_dropLast hu
      have := nAx u hu'
      have := hcell u x (inA u hu') mxP
      have := nXp u hu
      have := hcell u s (inA u hu') (inB s ms)
      rw [hm, if_neg (by omega), if_neg (by omega), if_neg (by omega), if_neg (by omega)]
    · intro v hv
      rw [List.tail_cons] at hv
      have hv' : v ∈ L :: A := List.mem_cons_of_mem _ hv
      have hv2 : v ∈ (A ++ x :: B) ++ [L + 4] := by simp [hv]
      have := hcell x v mxN hv2
      have := nAx v hv'
      have := hcell p v (inA p mp) hv2
      have := nAB v hv' s ms
      rw [hm, if_neg (by omega), if_neg (by omega), if_neg (by omega), if_neg (by omega)]
  have fB : List.Chain' (linked mem') (B ++ [L + 4]) := by
    apply linked_chain_frame mem mem' _ hc.2.1
    · intro u hu
      rw [List.dropLast_concat] at hu
      have hu' : u ∈ B ++ [L + 4] := List.mem_append_left _ hu
      have hu2 : u ∈ L :: (A ++ x :: B) := by simp [hu]
      have := nBx u hu'
      have := hcell u x hu2 mxP
      have := nAB p mp u hu'
      have := hcell u s hu2 (inB s ms)
      rw [hm, if_neg (by omega), if_neg (by omega), if_neg (by omega), if_neg (by omega)]
    · intro v hv
      have hv' := List.mem_of_mem_tail hv
      have := hcell x v mxN (inB v hv')
      have := nBx v hv'
      have := hcell p v (inA p mp) (inB v hv')
      have := nVs v hv
      rw [hm, if_neg (by omega), if_neg (by omega), if_neg (by omega), if_neg (by omega)]
  refine ⟨?_, ?_, hL', hpw'⟩
  · unfold MinList.head_node MinList.tail_node
    rw [e1, List.chain'_append]
    refine ⟨fA, List.chain'_cons'.2 ⟨?_, fB⟩, ?_⟩
    · intro y hy
      have : y = s := by rw [Option.mem_def, hs] at hy; exact (Option.some.inj hy).symm
      rw [this]
      unfold linked MinNode.next MinNode.prev
      constructor
      · rw [hm, if_pos rfl]
      · rw [hm, if_neg (by omega), if_neg (by omega), if_neg (by omega), if_pos rfl]
    · intro a ha b hb
      have ea : a = p := by rw [Option.mem_def, hp] at ha; exact (Option.some.inj ha).symm
      have eb : b = x := by simpa using hb.symm
      rw [ea, eb]
      unfold linked MinNode.next MinNode.prev
      constructor
      · rw [hm, if_neg (by omega), if_neg (by omega), if_pos rfl]
      · rw [hm, if_neg (by omega), if_pos rfl]
  · have k1 := hx.1
    have k2 : p ≠ L + 4 := by
      rcases List.mem_cons.1 mp with e | e
      · omega
      · have := hL p (List.mem_append_left _ e); omega
    have k3 : s ≠ L := by
      rcases List.mem_append.1 ms with e | e
      · have := hL s (List.mem_append_right _ e); omega
      · simp at e; omega
    rw [hm, if_neg (by omega), if_neg (by omega), if_neg (by omega), if_neg (by omega)]
    exact h0

/-- Linking the neighbours `p` and `s` of the node `n` to each other gives the list
without `n`. -/
theorem MinList.Holds.unlink (mem mem' : Nat → Nat) (L : Nat) (A B : List Nat) (n p s : Nat)
    (h : MinList.Holds mem L (A ++ n :: B))
    (hp : (L :: A).getLast? = some p) (hs : (B ++ [L + 4]).head? = some s)
    (hm : ∀ i, mem' i = if i = p then s else if i = s + 4 then p else mem i) :
    MinList.Holds mem' L (A ++ B) := by
  obtain ⟨hc, h0, hL, hpw⟩ := h
  unfold MinList.head_node MinList.tail_node at hc
  have hL' : ∀ m ∈ A ++ B, m + 8 ≤ L ∨ L + 12 ≤ m := by
    intro m hm
    rcases List.mem_append.1 hm with hm | hm
    · exact hL m (List.mem_append_left _ hm)
    · exact hL m (List.mem_append_right _ (List.mem_cons_of_mem _ hm))
  have hpw' : (A ++ B).Pairwise (fun a b => a + 8 ≤ b ∨ b + 8 ≤ a) := by
    rw [List.pairwise_append] at hpw ⊢
    exact ⟨hpw.1, (List.pairwise_cons.1 hpw.2.1).2,
      fun a ha b hb => hpw.2.2 a ha b (List.mem_cons_of_mem _ hb)⟩
  have hcell := clear_link_cells L _ hL hpw
  have hnd := clear_nodup L _ hL hpw
  have e1 : L :: (A ++ n :: B) ++ [L + 4] = (L :: A) ++ n :: (B ++ [L + 4]) := by simp
  have e0 : L :: (A ++ B) ++ [L + 4] = (L :: A) ++ (B ++ [L + 4]) := by simp
  rw [e1] at hnd
  rw [e1, List.chain'_append] at hc
  have hd := List.nodup_append.1 hnd
  have hd2 := List.nodup_cons.1 hd.2.1
  have inA : ∀ a ∈ L :: A, a ∈ L :: (A ++ n :: B) := by
    intro a ha
    simp only [List.mem_cons, List.mem_append] at ha ⊢; tauto
  have inB : ∀ b ∈ B ++ [L + 4], b ∈ (A ++ n :: B) ++ [L + 4] := by
    intro b hb
    simp only [List.mem_cons, List.mem_append] at hb ⊢; tauto
  have mp : p ∈ L :: A := List.mem_of_getLast?_eq_some hp
  have ms : s ∈ B ++ [L + 4] := List.mem_of_mem_head? hs
  have nAB : ∀ a ∈ L :: A, ∀ b ∈ B ++ [L + 4], a ≠ b :=
    fun a ha b hb e => hd.2.2 ha (by rw [e]; exact List.mem_cons_of_mem _ hb)
  have nXp := nodup_dropLast_ne _ p hd.1 hp
  have nVs := nodup_tail_ne _ s hd2.2 hs
  have c3 := hcell p s (inA p mp) (inB s ms)
  have fA : List.Chain' (linked mem') (L :: A) := by
    apply linked_chain_frame mem mem' _ hc.1
    · intro u hu
      have hu' := List.mem_of_mem_dropLast hu
      have := nXp u hu
      have := hcell u s (inA u hu') (inB s ms)
      rw [hm, if_neg (by omega), if_neg (by omega)]
    · intro v hv
      rw [List.tail_cons] at hv
      have hv' : v ∈ L :: A := List.mem_cons_of_mem _ hv
      have hv2 : v ∈ (A ++ n :: B) ++ [L + 4] := by simp [hv]
      have := hcell p v (inA p mp) hv2
      have := nAB v hv' s ms
      rw [hm, if_neg (by omega), if_neg (by omega)]
  have fB : List.Chain' (linked mem') (B ++ [L + 4]) := by
    apply linked_chain_frame mem mem' _ (List.chain'_cons'.1 hc.2.1).2
    · intro u hu
      rw [List.dropLast_concat] at hu
      have hu' : u ∈ B ++ [L + 4] := List.mem_append_left _ hu
      have hu2 : u ∈ L :: (A ++ n :: B) := by simp [hu]
      have := nAB p mp u hu'
      have := hcell u s hu2 (inB s ms)
      rw [hm, if_neg (by omega), if_neg (by omega)]
    · intro v hv
      have hv' := List.mem_of_mem_tail hv
      have := hcell p v (inA p mp) (inB v hv')
      have := nVs v hv
      rw [hm, if_neg (by omega), if_neg (by omega)]
  refine ⟨?_, ?_, hL', hpw'⟩
  · unfold MinList.head_node MinList.tail_node
    rw [e0, List.chain'_append]
    refine ⟨fA, fB, ?_⟩
    intro a ha b hb
    have ea : a = p := by rw [Option.mem_def, hp] at ha; exact (Option.some.inj ha).symm
    have eb : b = s := by rw [Option.mem_def, hs] at hb; exact (Option.some.inj hb).symm
    rw [ea, eb]
    unfold linked MinNode.next MinNode.prev
    constructor
    · rw [hm, if_pos rfl]
    · rw [hm, if_neg (by omega), if_pos rfl]
  · have k2 : p ≠ L + 4 := by
      rcases List.mem_cons.1 mp with e | e
      · omega
      · have := hL p (List.mem_append_left _ e); omega
    have k3 : s ≠ L := by
      rcases List.mem_append.1 ms with e | e
      · have := hL s (List.mem_append_right _ (List.mem_cons_of_mem _ e)); omega
      · simp at e; omega
    rw [hm, if_neg (by omega), if_neg (by omega)]
    exact h0

/-- The links around a place of the list: the neighbour before it and the neighbour
after it point at each other. -/
theorem MinList.Holds.link_at (mem : Nat → Nat) (L : Nat) (A B : List Nat) (p s : Nat)
    (h : MinList.Holds mem L (A ++ B))
    (hp : (L :: A).getLast? = some p) (hs : (B ++ [L + 4]).head? = some s) :
    mem p = s ∧ mem (s + 4) = p := by
  have hc := h.1
  unfold MinList.head_node MinList.tail_node at hc
  have e0 : L :: (A ++ B) ++ [L + 4] = (L :: A) ++ (B ++ [L + 4]) := by simp
  rw [e0, List.chain'_append] at hc
  exact hc.2.2 p hp s hs

/-- A record that lies clear of the list differs, in both of its cells, from the
`next` cell of the head marker and of every node. -/
theorem node_clear_cells (L : Nat) (nodes : List Nat) (x a : Nat)
    (hL : ∀ n ∈ nodes, n + 8 ≤ L ∨ L + 12 ≤ n)
    (hx : node_clear L nodes x) (ha : a ∈ L :: nodes ++ [L + 4]) :
    (a + 8 ≤ x ∨ x + 8 ≤ a) ∧ (a = L ∨ a = L + 4 ∨ (a + 8 ≤ L ∨ L + 12 ≤ a)) := by
  simp only [List.cons_append, List.mem_cons, List.mem_append, List.not_mem_nil, or_false] at ha
  have := hx.1
  rcases ha with ha | ha | ha
  · omega
  · have := hx.2 a ha
    have := hL a ha
    omega
  · omega

/-- Method `push` appends the record. -/
theorem MinList.Holds.push (mem : Nat → Nat) (L : Nat) (nodes : List Nat) (x : Nat)
    (h : MinList.Holds mem L nodes) (hx : node_clear L nodes x) :
    MinList.Holds (MinList.push mem L x) L (nodes ++ [x]) := by
  obtain ⟨p, hp⟩ : ∃ p, (L :: nodes).getLast? = some p := by
    cases e : (L :: nodes).getLast? with
    | none => simp at e
    | some p => exact ⟨p, rfl⟩
  have hs : (([] : List Nat) ++ [L + 4]).head? = some (L + 4) := rfl
  have h' : MinList.Holds mem L (nodes ++ []) := by rw [List.append_nil]; exact h
  have hx' : node_clear L (nodes ++ []) x := by rw [List.append_nil]; exact hx
  have hl := MinList.Holds.link_at mem L nodes [] p (L + 4) h' hp hs
  have kp := node_clear_cells L nodes x p h.2.2.1 hx
    (by simp only [List.cons_append]
        exact List.mem_append_left _ (List.mem_of_getLast?_eq_some hp))
  have kp2 : p ≠ L + 4 := by
    rcases List.mem_cons.1 (List.mem_of_getLast?_eq_some hp) with e | e
    · omega
    · have := h.2.2.1 p e; omega
  have k1 := hx.1
  apply MinList.Holds.splice mem _ L nodes [] x p (L + 4) h' hx' hp hs
  intro i
  simp only [MinList.push, store, MinList.tail_node]
  rw [if_neg (show ¬ (L + 8 = x) by omega), if_neg (show ¬ (L + 8 = x + 4) by omega), hl.2]
  split_ifs <;> omega

/-- The marker or node before a place of the list exists. -/
theorem exists_getLast_cons (L : Nat) (A : List Nat) : ∃ p, (L :: A).getLast? = some p := by
  cases e : (L :: A).getLast? with
  | none => simp at e
  | some p => exact ⟨p, rfl⟩

/-- The node or marker after a place of the list exists. -/
theorem exists_head_concat (B : List Nat) (t : Nat) : ∃ s, (B ++ [t]).head? = some s := by
  cases B with
  | nil => exact ⟨t, rfl⟩
  | cons b B => exact ⟨b, rfl⟩

/-- Method `unshift` prepends the record. -/
theorem MinList.Holds.unshift (mem : Nat → Nat) (L : Nat) (nodes : List Nat) (x : Nat)
    (h : MinList.Holds mem L nodes) (hx : node_clear L nodes x) :
    MinList.Holds (MinList.unshift mem L x) L (x :: nodes) := by
  obtain ⟨s, hs⟩ := exists_head_concat nodes (L + 4)
  have hp : (L :: ([] : List Nat)).getLast? = some L := rfl
  have hl := MinList.Holds.link_at mem L [] nodes L s h hp hs
  have ks := node_clear_cells L nodes x s h.2.2.1 hx
    (List.mem_cons_of_mem _ (List.mem_of_mem_head? hs))
  have ks2 : s ≠ L := by
    rcases List.mem_append.1 (List.mem_of_mem_head? hs) with e | e
    · have := h.2.2.1 s e; omega
    · simp at e; omega
  have k1 := hx.1
  apply MinList.Holds.splice mem _ L [] nodes x L s h hx hp hs
  intro i
  simp only [MinList.unshift, store, MinList.head_node]
  rw [if_neg (show ¬ (L = x + 4) by omega), if_neg (show ¬ (L = x) by omega), hl.1]
  split_ifs <;> omega

/-- Method `insert_after` puts the record right after the existing node. -/
theorem MinList.Holds.insert_after (mem : Nat → Nat) (L : Nat) (A B : List Nat) (e x : Nat)
    (h : MinList.Holds mem L (A ++ e :: B)) (hx : node_clear L (A ++ e :: B) x) :
    MinList.Holds (MinList.insert_after mem e x) L (A ++ e :: x :: B) := by
  obtain ⟨s, hs⟩ := exists_head_concat B (L + 4)
  have hp : (L :: (A ++ [e])).getLast? = some e := by
    rw [← List.cons_append, List.getLast?_concat]
  have e1 : A ++ e :: B = (A ++ [e]) ++ B := by simp
  have e2 : A ++ e :: x :: B = (A ++ [e]) ++ x :: B := by simp
  rw [e1] at h hx
  rw [e2]
  have hl := MinList.Holds.link_at mem L (A ++ [e]) B e s h hp hs
  have ke := hx.2 e (by simp)
  have ks := node_clear_cells L _ x s h.2.2.1 hx
    (by have hm := List.mem_of_mem_head? hs
        simp only [List.cons_append, List.mem_cons, List.mem_append] at hm ⊢
        tauto)
  apply MinList.Holds.splice mem _ L (A ++ [e]) B x e s h hx hp hs
  intro i
  simp only [MinList.insert_after, MinNode.insert_after, MinNode.next, store]
  rw [if_neg (show ¬ (e = x + 4) by omega), if_neg (show ¬ (x = e) by omega), if_pos trivial, hl.1]
  split_ifs <;> omega

/-- Method `insert_before` puts the record right before the existing node. -/
theorem MinList.Holds.insert_before (mem : Nat → Nat) (L : Nat) (A B : List Nat) (e x : Nat)
    (h : MinList.Holds mem L (A ++ e :: B)) (hx : node_clear L (A ++ e :: B) x) :
    MinList.Holds (MinList.insert_before mem e x) L (A ++ x :: e :: B) := by
  obtain ⟨p, hp⟩ := exists_getLast_cons L A
  have hs : (e :: B ++ [L + 4]).head? = some e := rfl
  have hl := MinList.Holds.link_at mem L A (e :: B) p e h hp hs
  have ke := hx.2 e (by simp)
  have kp := node_clear_cells L _ x p h.2.2.1 hx
    (by have hm := List.mem_of_getLast?_eq_some hp
        simp only [List.cons_append, List.mem_cons, List.mem_append] at hm ⊢
        tauto)
  apply MinList.Holds.splice mem _ L A (e :: B) x p e h hx hp hs
  intro i
  simp only [MinList.insert_before, MinNode.insert_before, MinNode.prev, store]
  rw [if_neg (show ¬ (e + 4 = x) by omega), if_neg (show ¬ (x + 4 = e + 4) by omega),
    if_pos trivial, hl.2]
  split_ifs <;> omega

/-- Method `MinNode::remove` on a node of the list takes exactly this node out. -/
theorem MinList.Holds.remove (mem : Nat → Nat) (L : Nat) (A B : List Nat) (n : Nat)
    (h : MinList.Holds mem L (A ++ n :: B)) :
    MinList.Holds (MinNode.remove mem n) L (A ++ B) := by
  obtain ⟨p, hp⟩ := exists_getLast_cons L A
  obtain ⟨s, hs⟩ := exists_head_concat B (L + 4)
  have hs1 : (n :: B ++ [L + 4]).head? = some n := rfl
  have hp1 : (L :: (A ++ [n])).getLast? = some n := by
    rw [← List.cons_append, List.getLast?_concat]
  have l1 := MinList.Holds.link_at mem L A (n :: B) p n h hp hs1
  have e1 : A ++ n :: B = (A ++ [n]) ++ B := by simp
  have l2 := MinList.Holds.link_at mem L (A ++ [n]) B n s (e1 ▸ h) hp1 hs
  have hcell := clear_link_cells L _ h.2.2.1 h.2.2.2
  have hnd := clear_nodup L _ h.2.2.1 h.2.2.2
  have e2 : L :: (A ++ n :: B) ++ [L + 4] = (L :: A) ++ n :: (B ++ [L + 4]) := by simp
  rw [e2] at hnd
  have mp : p ∈ L :: A := List.mem_of_getLast?_eq_some hp
  have ms : s ∈ B ++ [L + 4] := List.mem_of_mem_head? hs
  have c1 : p ≠ n := fun e => (List.nodup_append.1 hnd).2.2 mp (by rw [e]; simp)
  have c2 := hcell p n
    (by simp only [List.mem_cons, List.mem_append] at mp ⊢; tauto) (by simp)
  have c3 := hcell p s
    (by simp only [List.mem_cons, List.mem_append] at mp ⊢; tauto)
    (by simp only [List.mem_cons, List.mem_append] at ms ⊢; tauto)
  apply MinList.Holds.unlink mem _ L A B n p s h hp hs
  intro i
  simp only [MinNode.remove, MinNode.next, MinNode.prev, store]
  rw [l1.2, l2.1, if_neg (show ¬ (n = p) by omega), if_neg (show ¬ (n + 4 = p) by omega)]
  split_ifs <;> omega

/-- A newly constructed list holds no node. -/
theorem MinList.Holds.ctor (mem : Nat → Nat) (L : Nat) :
    MinList.Holds (MinList.ctor mem L) L [] := by
  refine ⟨?_, ?_, fun _ h => absurd h (List.not_mem_nil _), List.Pairwise.nil⟩
  · refine List.chain'_pair.2 ⟨?_, ?_⟩ <;>
      simp [MinNode.next, MinNode.prev, MinList.ctor, MinList.head_node, MinList.tail_node,
        store]
  · simp [MinList.ctor, store]

/-- The field `head` is the first node, or the tail marker when there is none; the
field `tail_prev` is the last node, or the head marker when there is none. -/
theorem MinList.Holds.ends (mem : Nat → Nat) (L : Nat) (nodes : List Nat)
    (h : MinList.Holds mem L nodes) :
    mem L = nodes.head?.getD (L + 4) ∧ mem (L + 8) = nodes.getLast?.getD L := by
  constructor
  · obtain ⟨s, hs⟩ := exists_head_concat nodes (L + 4)
    have hl := MinList.Holds.link_at mem L [] nodes L s h rfl hs
    rw [hl.1]
    cases nodes with
    | nil => simpa using hs.symm
    | cons b B => simpa using hs.symm
  · obtain ⟨p, hp⟩ := exists_getLast_cons L nodes
    have hl := MinList.Holds.link_at mem L nodes [] p (L + 4)
      (by rw [List.append_nil]; exact h) hp rfl
    rw [hl.2]
    rcases List.eq_nil_or_concat nodes with e | ⟨A, a, e⟩
    · subst e; simpa using hp.symm
    · rw [List.concat_eq_append] at e
      subst e
      rw [← List.cons_append, List.getLast?_concat] at hp
      rw [List.getLast?_concat]
      simpa using hp.symm

/-- Method `isempty` is true exactly when the list holds no node. -/
theorem MinList.Holds.isempty_iff (mem : Nat → Nat) (L : Nat) (nodes : List Nat)
    (h : MinList.Holds mem L nodes) : MinList.isempty mem L = true ↔ nodes = [] := by
  have he := (MinList.Holds.ends mem L nodes h).1
  unfold MinList.isempty MinList.tail_node
  rw [decide_eq_true_iff, he]
  cases nodes with
  | nil => simp
  | cons b B =>
    have := h.2.2.1 b (by simp)
    simp only [List.head?_cons, Option.getD_some]
    constructor
    · intro e; omega
    · intro e; cases e

/-- Method `shift` returns the first node and takes it out; on a list without nodes
it returns null and changes nothing. -/
theorem MinList.Holds.shift (mem : Nat → Nat) (L : Nat) (nodes : List Nat)
    (h : MinList.Holds mem L nodes) :
    (MinList.shift mem L).1 = nodes.head?.getD 0 ∧
    MinList.Holds (MinList.shift mem L).2 L nodes.tail ∧
    (nodes = [] → (MinList.shift mem L).2 = mem) := by
  have he := (MinList.Holds.ends mem L nodes h).1
  have hi := MinList.Holds.isempty_iff mem L nodes h
  cases nodes with
  | nil =>
    have : MinList.isempty mem L = true := hi.2 rfl
    simp only [MinList.shift, this, if_true]
    exact ⟨rfl, h, fun _ => trivial⟩
  | cons b B =>
    have : ¬ (MinList.isempty mem L = true) := fun e => by cases hi.1 e
    simp only [MinList.shift, this, if_false]
    simp only [List.head?_cons, Option.getD_some] at he
    rw [he]
    exact ⟨rfl, MinList.Holds.remove mem L [] B b h, fun e => by cases e⟩

/-- Method `pop` returns the last node and takes it out; on a list without nodes it
returns null and changes nothing. -/
theorem MinList.Holds.pop (mem : Nat → Nat) (L : Nat) (nodes : List Nat)
    (h : MinList.Holds mem L nodes) :
    (MinList.pop mem L).1 = nodes.getLast?.getD 0 ∧
    MinList.Holds (MinList.pop mem L).2 L nodes.dropLast ∧
    (nodes = [] → (MinList.pop mem L).2 = mem) := by
  have he := (MinList.Holds.ends mem L nodes h).2
  have hi := MinList.Holds.isempty_iff mem L nodes h
  rcases List.eq_nil_or_concat nodes with e | ⟨A, a, e⟩
  · subst e
    have : MinList.isempty mem L = true := hi.2 rfl
    simp only [MinList.pop, this, if_true]
    exact ⟨rfl, h, fun _ => trivial⟩
  · rw [List.concat_eq_append] at e
    subst e
    have : ¬ (MinList.isempty mem L = true) := fun e => by
      have := hi.1 e
      simp at this
    simp only [MinList.pop, this, if_false]
    simp only [List.getLast?_concat, Option.getD_some] at he
    rw [he, List.getLast?_concat, List.dropLast_concat]
    refine ⟨rfl, ?_, fun e => by simp at e⟩
    have := MinList.Holds.remove mem L A [] a h
    rw [List.append_nil] at this
    exact this

/-- The place of the first occurrence of a node in a sequence. -/
theorem takeWhile_ne_append (e : Nat) : ∀ (A B : List Nat), e ∉ A →
    (A ++ e :: B).takeWhile (fun n => n ≠ e) = A ∧
    (A ++ e :: B).dropWhile (fun n => n ≠ e) = e :: B
  | [], B, _ => by simp
  | a :: A, B, h => by
    have ha : a ≠ e := fun c => h (by simp [c])
    have := takeWhile_ne_append e A B (fun c => h (List.mem_cons_of_mem _ c))
    simp only [List.cons_append, List.takeWhile_cons, List.dropWhile_cons, ha, ne_eq,
      not_false_eq_true, decide_True, if_true]
    exact ⟨by rw [this.1], this.2⟩

/-- One call that fits keeps the list a list, and changes its sequence of nodes as
the sequence view says. -/
theorem MinList.Holds.apply (mem : Nat → Nat) (L : Nat) (nodes : List Nat) (op : ListOp)
    (h : MinList.Holds mem L nodes) (hf : op.fits L nodes) :
    MinList.Holds (MinList.apply mem L op) L (op.on nodes) := by
  cases op with
  | push that => exact MinList.Holds.push mem L nodes that h hf
  | unshift that => exact MinList.Holds.unshift mem L nodes that h hf
  | shift => exact (MinList.Holds.shift mem L nodes h).2.1
  | pop => exact (MinList.Holds.pop mem L nodes h).2.1
  | remove node =>
    obtain ⟨A, B, e, hA⟩ := List.eq_append_cons_of_mem hf
    subst e
    simp only [MinList.apply, MinList.remove, ListOp.on]
    rw [List.erase_append_right _ hA, List.erase_cons_head]
    exact MinList.Holds.remove mem L A B node h
  | insert_before existing inserted =>
    obtain ⟨A, B, e, hA⟩ := List.eq_append_cons_of_mem hf.1
    subst e
    have t := takeWhile_ne_append existing A B hA
    simp only [MinList.apply, ListOp.on]
    rw [t.1, t.2]
    exact MinList.Holds.insert_before mem L A B existing inserted h hf.2
  | insert_after existing inserted =>
    obtain ⟨A, B, e, hA⟩ := List.eq_append_cons_of_mem hf.1
    subst e
    have t := takeWhile_ne_append existing A B hA
    simp only [MinList.apply, ListOp.on]
    rw [t.1, t.2]
    simp only [List.take_succ_cons, List.take_zero, List.drop_succ_cons, List.drop_zero,
      List.append_assoc, List.singleton_append]
    exact MinList.Holds.insert_after mem L A B existing inserted h hf.2

/-- A sequence of calls that fit, on a list that holds `nodes`. -/
theorem MinList.Holds.run (L : Nat) : ∀ (ops : List ListOp) (mem : Nat → Nat) (nodes : List Nat),
    MinList.Holds mem L nodes → ListOp.all_fit L nodes ops →
    MinList.Holds (MinList.run mem L ops) L (ListOp.run nodes ops)
  | [], _, _, h, _ => h
  | op :: ops, mem, nodes, h, hf =>
    MinList.Holds.run L ops _ _ (MinList.Holds.apply mem L nodes op h hf.1) hf.2

/-- The forward iteration along a chain of links that ends at the tail marker visits
the nodes of the chain, in order. -/
theorem MinList.iterate_chain (mem : Nat → Nat) (L : Nat) : ∀ (B : List Nat) (s fuel : Nat),
    (B ++ [L + 4]).head? = some s → List.Chain' (linked mem) (B ++ [L + 4]) →
    (∀ b ∈ B, b ≠ L + 4) → B.length < fuel → MinList.iterate mem L fuel s = some B
  | _, _, 0, _, _, _, hf => by omega
  | [], s, fuel + 1, hs, _, _, _ => by
    have : s = L + 4 := by simpa using hs.symm
    simp [MinList.iterate, MinList.tail_node, this]
  | b :: B, s, fuel + 1, hs, hc, hb, hf => by
    have es : s = b := by simpa using hs.symm
    obtain ⟨s', hs'⟩ := exists_head_concat B (L + 4)
    rw [List.cons_append, List.chain'_cons'] at hc
    have hl := hc.1 s' hs'
    have hne := hb b (by simp)
    have ih := MinList.iterate_chain mem L B s' fuel hs' hc.2
      (fun c hc' => hb c (List.mem_cons_of_mem _ hc'))
      (by simp only [List.length_cons] at hf; omega)
    unfold linked at hl
    simp only [MinList.iterate, MinList.tail_node, es, ne_eq, hne, not_false_eq_true, if_true,
      hl.1, ih, Option.map_some']

/-- The forward iteration from `begin()` visits exactly the nodes that the list
holds, in order, and ends at the tail marker. -/
theorem MinList.Holds.nodes_eq (mem : Nat → Nat) (L : Nat) (nodes : List Nat) (fuel : Nat)
    (h : MinList.Holds mem L nodes) (hf : nodes.length < fuel) :
    MinList.nodes mem L fuel = some nodes := by
  obtain ⟨s, hs⟩ := exists_head_concat nodes (L + 4)
  have hl := MinList.Holds.link_at mem L [] nodes L s h rfl hs
  have hc := h.1
  unfold MinList.head_node MinList.tail_node at hc
  rw [List.cons_append, List.chain'_cons'] at hc
  unfold MinList.nodes
  rw [hl.1]
  exact MinList.iterate_chain mem L nodes s fuel hs hc.2
    (fun b hb => by have := h.2.2.1 b hb; omega) hf

/-- Every node of a list is the `prev` of its `next` and the `next` of its `prev`. -/
theorem MinList.Holds.links (mem : Nat → Nat) (L : Nat) (nodes : List Nat) (n : Nat)
    (h : MinList.Holds mem L nodes) (hn : n ∈ nodes) :
    MinNode.prev mem (MinNode.next mem n) = n ∧ MinNode.next mem (MinNode.prev mem n) = n := by
  obtain ⟨A, B, e, -⟩ := List.eq_append_cons_of_mem hn
  subst e
  obtain ⟨p, hp⟩ := exists_getLast_cons L A
  obtain ⟨s, hs⟩ := exists_head_concat B (L + 4)
  have l1 := MinList.Holds.link_at mem L A (n :: B) p n h hp rfl
  have e1 : A ++ n :: B = (A ++ [n]) ++ B := by simp
  have l2 := MinList.Holds.link_at mem L (A ++ [n]) B n s (e1 ▸ h)
    (by rw [← List.cons_append, List.getLast?_concat]) hs
  unfold MinNode.prev MinNode.next
  rw [l2.1, l2.2, l1.2, l1.1]
  exact ⟨rfl, rfl⟩

/-- The loop of `find_name` along a chain of links that ends at the tail marker
returns the first node after the start whose name compares equal, or null. -/
theorem List.find_name_loop_chain (mem : Nat → Nat) (name_of : Nat → List Nat) (L : Nat)
    (name : List Nat) : ∀ (B : List Nat) (p fuel : Nat),
    List.Chain' (linked mem) (p :: B ++ [L + 4]) →
    (∀ b ∈ B, b ≠ L + 4) → B.length < fuel →
    List.find_name_loop mem name_of L name fuel p =
      some ((B.find? (fun n => strcmp name (name_of n) = 0)).getD 0)
  | _, _, 0, _, _, hf => by omega
  | [], p, fuel + 1, hc, _, _ => by
    have hl : linked mem p (L + 4) := List.chain'_pair.1 hc
    unfold linked at hl
    simp [List.find_name_loop, MinList.tail_node, hl.1]
  | b :: B, p, fuel + 1, hc, hb, hf => by
    rw [List.cons_append, List.cons_append, List.chain'_cons] at hc
    have hl := hc.1
    have hne := hb b (by simp)
    have ih := List.find_name_loop_chain mem name_of L name B b fuel hc.2
      (fun c hc' => hb c (List.mem_cons_of_mem _ hc'))
      (by simp only [List.length_cons] at hf; omega)
    unfold linked at hl
    simp only [List.find_name_loop, MinList.tail_node, hl.1, ne_eq, hne, not_false_eq_true,
      if_true, List.find?_cons]
    by_cases hm : strcmp name (name_of b) = 0
    · simp [hm]
    · simp [hm, ih]

/-- Method `enqueue` splits the list at the first node of strictly lower priority
and puts the new node there. -/
theorem List.enqueue_split {α : Type} (node : α → Node) (node_ : α) :
    ∀ (l : List α), ∃ A B, l = A ++ B ∧ List.enqueue node node_ l = A ++ node_ :: B ∧
      (∀ a ∈ A, (node node_).priority ≤ (node a).priority) ∧
      (∀ b, B.head? = some b → (node b).priority < (node node_).priority)
  | [] => ⟨[], [], rfl, rfl, by simp, by simp⟩
  | np :: rest => by
    simp only [List.enqueue]
    by_cases h : (node np).priority < (node node_).priority
    · rw [if_pos h]
      exact ⟨[], np :: rest, rfl, rfl, by simp, by simpa using h⟩
    · rw [if_neg h]
      obtain ⟨A, B, e1, e2, h1, h2⟩ := List.enqueue_split node node_ rest
      refine ⟨np :: A, B, by rw [e1]; rfl, by rw [e2]; rfl, ?_, h2⟩
      intro a ha
      rcases List.mem_cons.1 ha with rfl | ha
      · omega
      · exact h1 a ha

/-- On a list in non-increasing priority order, a record put at the first node of
strictly lower priority comes before nodes of strictly lower priority only, and the
order stays non-increasing. -/
theorem List.enqueue_ordered {α : Type} (node : α → Node) (node_ : α) (A B : List α)
    (hs : (A ++ B).Pairwise (fun a b => (node b).priority ≤ (node a).priority))
    (h1 : ∀ a ∈ A, (node node_).priority ≤ (node a).priority)
    (h2 : ∀ b, B.head? = some b → (node b).priority < (node node_).priority) :
    (∀ b ∈ B, (node b).priority < (node node_).priority) ∧
    (A ++ node_ :: B).Pairwise (fun a b => (node b).priority ≤ (node a).priority) := by
  have hB : ∀ b ∈ B, (node b).priority < (node node_).priority := by
    intro b hb
    cases B with
    | nil => simp at hb
    | cons b0 B' =>
      have h0 := h2 b0 rfl
      rcases List.mem_cons.1 hb with rfl | hb
      · exact h0
      · have := (List.pairwise_cons.1 (List.pairwise_append.1 hs).2.1).1 b hb
        omega
  refine ⟨hB, ?_⟩
  have hp := List.pairwise_append.1 hs
  refine List.pairwise_append.2 ⟨hp.1, List.pairwise_cons.2 ⟨?_, hp.2.1⟩, ?_⟩
  · intro b hb
    have := hB b hb
    omega
  · intro a ha b hb
    rcases List.mem_cons.1 hb with rfl | hb
    · exact h1 a ha
    · exact hp.2.2 a ha b hb

/-- The loop of `enqueue` from a place of the list on: the record is linked in where
the sequence view of `enqueue` puts it. -/
theorem List.enqueue_loop_holds (mem : Nat → Nat) (node_of : Nat → Node) (L x : Nat) :
    ∀ (B A : List Nat) (s fuel : Nat), MinList.Holds mem L (A ++ B) →
    node_clear L (A ++ B) x → (B ++ [L + 4]).head? = some s → B.length < fuel →
    ∃ mem', List.enqueue_loop mem node_of L x fuel s = some mem' ∧
      MinList.Holds mem' L (A ++ List.enqueue node_of x B)
  | _, _, _, 0, _, _, _, hf => by omega
  | [], A, s, fuel + 1, h, hx, hs, _ => by
    have es : s = L + 4 := by simpa using hs.symm
    rw [List.append_nil] at h hx
    refine ⟨MinList.push mem L x, ?_, MinList.Holds.push mem L A x h hx⟩
    simp [List.enqueue_loop, MinList.tail_node, es]
  | b :: B, A, s, fuel + 1, h, hx, hs, hf => by
    have es : s = b := by simpa using hs.symm
    have hne : b ≠ L + 4 := by
      have := h.2.2.1 b (by simp)
      omega
    simp only [List.enqueue_loop, MinList.tail_node, es, ne_eq, hne, not_false_eq_true, if_true,
      List.enqueue]
    by_cases hp : (node_of b).priority < (node_of x).priority
    · rw [if_pos hp, if_pos hp]
      exact ⟨_, rfl, MinList.Holds.insert_before mem L A B b x h hx⟩
    · rw [if_neg hp, if_neg hp]
      obtain ⟨s', hs'⟩ := exists_head_concat B (L + 4)
      have e1 : A ++ b :: B = (A ++ [b]) ++ B := by simp
      have hl := MinList.Holds.link_at mem L (A ++ [b]) B b s' (e1 ▸ h)
        (by rw [← List.cons_append, List.getLast?_concat]) hs'
      have ih := List.enqueue_loop_holds mem node_of L x B (A ++ [b]) s' fuel (e1 ▸ h)
        (e1 ▸ hx) hs' (by simp only [List.length_cons] at hf; omega)
      unfold MinNode.next
      rw [hl.1]
      simpa using ih

/-! ## Lemmas on the packed structures, the scan, the granularity and `make_library` -/

/-- The body of the decode loop leaves the state as it is at a repeat instruction
with the unit width field `0x30`. -/
theorem PackedStruct.step_ill_formed (t : PackedStruct) (s : Unpack) :
    t.step 0x70 s = s := by
  simp [PackedStruct.step, show (112 &&& 192 : Nat) = 64 from by decide,
    show (112 &&& 48 : Nat) = 48 from by decide]

/-- The scan ends when every header it can meet declares an end above its own
address: the positions examined, followed by the position at which the loop is
left, start with the cursor and are strictly increasing. -/
theorem BuilderList.search_loop_ends (mem : Memory) (end_ : Nat) (hend : end_ + 1 < WORD) :
    ∀ (fuel p : Nat) (bl : BuilderList),
    (∀ q, p ≤ q → q < end_ → mem.is_romtag q = true → q < (mem.resident q).end_) →
    end_ - p < fuel →
    ∃ q, (BuilderList.search_loop mem end_ fuel p bl).stopped = some q ∧ end_ ≤ q ∧
      ((BuilderList.search_loop mem end_ fuel p bl).examined ++ [q]).head? = some p ∧
      List.Chain' (fun a b => a < b)
        ((BuilderList.search_loop mem end_ fuel p bl).examined ++ [q]) := by
  intro fuel
  induction fuel with
  | zero => intro p bl _ hf; omega
  | succ n ih =>
    intro p bl hh hf
    by_cases hp : p < end_
    · by_cases hr : mem.is_romtag p = true
      · have hlt := hh p (Nat.le_refl _) hp hr
        obtain ⟨q, h1, h2, h3, h4⟩ := ih (mem.resident p).end_ (bl.add mem p)
          (fun q hq => hh q (by omega)) (by omega)
        refine ⟨q, ?_, h2, ?_, ?_⟩
        · simp only [BuilderList.search_loop, hp, hr, if_true]
          exact h1
        · simp only [BuilderList.search_loop, hp, hr, if_true, List.cons_append, List.head?_cons]
        · simp only [BuilderList.search_loop, hp, hr, if_true, List.cons_append]
          rw [List.chain'_cons']
          refine ⟨?_, h4⟩
          intro y hy
          rw [Option.mem_def, h3] at hy
          have := Option.some.inj hy
          omega
      · have hw : (p + 2) % WORD = p + 2 := Nat.mod_eq_of_lt (by omega)
        have hr' : mem.is_romtag p = false := by simpa using hr
        obtain ⟨q, h1, h2, h3, h4⟩ := ih (p + 2) bl
          (fun q hq => hh q (by omega)) (by omega)
        refine ⟨q, ?_, h2, ?_, ?_⟩
        · simp only [BuilderList.search_loop, hp, hr', if_true, hw, Bool.false_eq_true, if_false]
          exact h1
        · simp only [BuilderList.search_loop, hp, hr', if_true, Bool.false_eq_true, if_false,
            List.cons_append, List.head?_cons]
        · simp only [BuilderList.search_loop, hp, hr', if_true, hw, Bool.false_eq_true, if_false,
            List.cons_append]
          rw [List.chain'_cons']
          refine ⟨?_, h4⟩
          intro y hy
          rw [Option.mem_def, h3] at hy
          have := Option.some.inj hy
          omega
    · refine ⟨p, ?_, by omega, ?_, ?_⟩
      · simp only [BuilderList.search_loop, hp, if_false]
      · simp only [BuilderList.search_loop, hp, if_false, List.nil_append, List.head?_cons]
      · simp only [BuilderList.search_loop, hp, if_false, List.nil_append]
        exact List.chain'_singleton _

/-- The scan of `rom_loop` from 8192 never leaves the header at 8192. -/
theorem BuilderList.search_loop_stuck (fuel : Nat) : ∀ (bl : BuilderList),
    (BuilderList.search_loop rom_loop 8200 fuel 8192 bl).stopped = none ∧
    ∀ p ∈ (BuilderList.search_loop rom_loop 8200 fuel 8192 bl).examined, p = 8192 := by
  induction fuel with
  | zero => intro bl; exact ⟨rfl, by simp [BuilderList.search_loop]⟩
  | succ n ih =>
    intro bl
    have hr : rom_loop.is_romtag 8192 = true := by decide
    have he : (rom_loop.resident 8192).end_ = 8192 := by decide
    have := ih (bl.add rom_loop 8192)
    simp only [BuilderList.search_loop, hr, he, if_true, show (8192 : Nat) < 8200 from by decide]
    refine ⟨this.1, ?_⟩
    intro p hp
    rcases List.mem_cons.1 hp with e | e
    · exact e
    · exact this.2 p e


/-- In a memory without headers the scan of a range that ends at `2^32 - 1` from an
even position is not left: the cursor wraps from `2^32 - 2` to `0`. -/
theorem BuilderList.search_loop_wraps : ∀ (fuel p : Nat) (bl : BuilderList),
    p % 2 = 0 → p < WORD →
    (BuilderList.search_loop rom_blank 4294967295 fuel p bl).stopped = none := by
  intro fuel
  induction fuel with
  | zero => intro p bl _ _; rfl
  | succ n ih =>
    intro p bl he hp
    have hW : WORD = 4294967296 := rfl
    have hlt : p < 4294967295 := by omega
    have hr : rom_blank.is_romtag p = false := by
      simp [Memory.is_romtag, rom_blank, Resident.MATCHWORD]
    simp only [BuilderList.search_loop, hlt, hr, if_true, Bool.false_eq_true, if_false]
    exact ih _ bl (by unfold WORD; omega) (Nat.mod_lt _ (by omega))

/-- The carve of `Heap::allocate` keeps the chunks on the 8-byte grid and returns an
address on it. -/
theorem allocate_chain_granular {r : Nat} {l : List Chunk} {p : Nat} {l' : List Chunk}
    (hr : r % 8 = 0) (hg : ∀ c ∈ l, c.addr % 8 = 0 ∧ c.size % 8 = 0 ∧ 0 < c.size)
    (h : allocate_chain r l = some (p, l')) :
    p % 8 = 0 ∧ ∀ c ∈ l', c.addr % 8 = 0 ∧ c.size % 8 = 0 ∧ 0 < c.size := by
  obtain ⟨pre, c, post, e, -, hc, hp, hl⟩ := allocate_chain_some h
  subst e
  have gc := hg c (by simp)
  refine ⟨by rw [hp]; exact gc.1, ?_⟩
  intro d hd
  rw [hl] at hd
  rcases List.mem_append.1 hd with hd | hd
  · exact hg d (by simp [hd])
  · split_ifs at hd with he
    · exact hg d (by simp [hd])
    · rcases List.mem_cons.1 hd with rfl | hd
      · simp only
        omega
      · exact hg d (by simp [hd])

/-- The carve of `Heap::allocate_reverse` keeps the chunks on the 8-byte grid and
returns an address on it. -/
theorem allocate_reverse_chain_granular {r : Nat} {l : List Chunk} {p : Nat} {l' : List Chunk}
    (hr : r % 8 = 0) (hg : ∀ c ∈ l, c.addr % 8 = 0 ∧ c.size % 8 = 0 ∧ 0 < c.size)
    (h : allocate_reverse_chain r l = some (p, l')) :
    p % 8 = 0 ∧ ∀ c ∈ l', c.addr % 8 = 0 ∧ c.size % 8 = 0 ∧ 0 < c.size := by
  obtain ⟨pre, c, post, e, -, hc, hp, hl⟩ := allocate_reverse_chain_some h
  subst e
  have gc := hg c (by simp)
  refine ⟨by rw [hp]; omega, ?_⟩
  intro d hd
  rw [hl] at hd
  rcases List.mem_append.1 hd with hd | hd
  · exact hg d (by simp [hd])
  · split_ifs at hd with he
    · exact hg d (by simp [hd])
    · rcases List.mem_cons.1 hd with rfl | hd
      · simp only
        omega
      · exact hg d (by simp [hd])

/-- The rounded size is a multiple of 8. -/
theorem roundup8_mod (n : Nat) : roundup8 n % 8 = 0 := by
  unfold roundup8
  omega

/-- The links written by `Heap::deallocate` for a span on the 8-byte grid keep the
chunks on the grid. -/
theorem deallocate_link_granular {m r : Nat} (hm : m % 8 = 0) (hr : r % 8 = 0) (hr0 : 0 < r)
    (hmr : m + r < WORD) {prev : Option Chunk} {l chain : List Chunk}
    (hg : ∀ c ∈ prev.toList ++ l,
      (c.addr % 8 = 0 ∧ c.size % 8 = 0 ∧ 0 < c.size) ∧ c.addr + c.size < WORD)
    (h : deallocate_link m r prev l = some chain) :
    ∀ c ∈ chain, c.addr % 8 = 0 ∧ c.size % 8 = 0 ∧ 0 < c.size := by
  unfold deallocate_link at h
  cases hn : deallocate_next m r l with
  | none => simp [hn] at h
  | some sn =>
    obtain ⟨size', mc_next⟩ := sn
    simp only [hn] at h
    have hs : size' % 8 = 0 ∧ 0 < size' ∧ m + size' < WORD ∧ ∀ c ∈ mc_next, c ∈ l := by
      cases l with
      | nil =>
        simp only [deallocate_next, Option.some.injEq, Prod.mk.injEq] at hn
        obtain ⟨rfl, rfl⟩ := hn
        exact ⟨hr, hr0, hmr, fun _ hc => hc⟩
      | cons mc rest =>
        have gm := hg mc (by simp)
        simp only [deallocate_next] at hn
        split_ifs at hn with h1 h2
        · simp only [Option.some.injEq, Prod.mk.injEq] at hn
          obtain ⟨rfl, rfl⟩ := hn
          have : r + mc.size < WORD := by omega
          rw [Nat.mod_eq_of_lt this]
          exact ⟨by omega, by omega, by omega, fun c hc => List.mem_cons_of_mem _ hc⟩
        · simp only [Option.some.injEq, Prod.mk.injEq] at hn
          obtain ⟨rfl, rfl⟩ := hn
          exact ⟨hr, hr0, hmr, fun _ hc => hc⟩
    obtain ⟨s1, s2, s3, s4⟩ := hs
    have hl : ∀ c ∈ mc_next, c.addr % 8 = 0 ∧ c.size % 8 = 0 ∧ 0 < c.size :=
      fun c hc => (hg c (List.mem_append_right _ (s4 c hc))).1
    cases prev with
    | none =>
      simp only [deallocate_previous, Option.some.injEq] at h
      subst h
      intro c hc
      rcases List.mem_cons.1 hc with rfl | hc
      · exact ⟨hm, s1, s2⟩
      · exact hl c hc
    | some previous =>
      have gp := hg previous (by simp)
      simp only [deallocate_previous] at h
      split_ifs at h with h1 h2
      · simp only [Option.some.injEq] at h
        subst h
        intro c hc
        rcases List.mem_cons.1 hc with rfl | hc
        · have : previous.size + size' < WORD := by omega
          simp only
          rw [Nat.mod_eq_of_lt this]
          omega
        · exact hl c hc
      · simp only [Option.some.injEq] at h
        subst h
        intro c hc
        rcases List.mem_cons.1 hc with rfl | hc
        · exact gp.1
        · rcases List.mem_cons.1 hc with rfl | hc
          · exact ⟨hm, s1, s2⟩
          · exact hl c hc

/-- Method `Heap::deallocate` for a span on the 8-byte grid keeps the chunks on the
grid. -/
theorem deallocate_chain_granular {m r : Nat} (hm : m % 8 = 0) (hr : r % 8 = 0) (hr0 : 0 < r)
    (hmr : m + r < WORD) : ∀ (l : List Chunk) (prev : Option Chunk) (chain : List Chunk),
    (∀ c ∈ prev.toList ++ l,
      (c.addr % 8 = 0 ∧ c.size % 8 = 0 ∧ 0 < c.size) ∧ c.addr + c.size < WORD) →
    deallocate_chain m r prev l = some chain →
    ∀ c ∈ chain, c.addr % 8 = 0 ∧ c.size % 8 = 0 ∧ 0 < c.size
  | [], prev, chain, hg, h => by
    simp only [deallocate_chain] at h
    exact deallocate_link_granular hm hr hr0 hmr hg h
  | chunk :: next, prev, chain, hg, h => by
    simp only [deallocate_chain] at h
    split_ifs at h with h1
    · exact deallocate_link_granular hm hr hr0 hmr hg h
    · cases hc : deallocate_chain m r (some chunk) next with
      | none => simp [hc] at h
      | some ch =>
        simp only [hc, Option.some.injEq] at h
        subst h
        have ih := deallocate_chain_granular hm hr hr0 hmr next (some chunk) ch
          (fun c hc' => hg c (by
            simp only [Option.toList_some, List.singleton_append] at hc'
            exact List.mem_append_right _ hc')) hc
        intro c hc'
        rcases List.mem_append.1 hc' with e | e
        · exact (hg c (List.mem_append_left _ e)).1
        · exact ih c e

/-- Methods `Heap::allocate` and `Heap::allocate_reverse` keep a zone granular and
return an address on the 8-byte grid. -/
theorem Heap.Granular.allocate_keeps {h : Heap} (hg : h.Granular) (n : Nat) :
    ((h.allocate n).2.Granular ∧ (h.allocate n).1 % 8 = 0) ∧
    ((h.allocate_reverse n).2.Granular ∧ (h.allocate_reverse n).1 % 8 = 0) := by
  constructor
  · unfold Heap.allocate
    split_ifs with h1
    · exact ⟨hg, rfl⟩
    · cases hc : allocate_chain (roundup8 n) h.first with
      | none => exact ⟨hg, rfl⟩
      | some pc =>
        obtain ⟨p, chain⟩ := pc
        have := allocate_chain_granular (roundup8_mod n) hg hc
        exact ⟨this.2, this.1⟩
  · unfold Heap.allocate_reverse
    split_ifs with h1
    · exact ⟨hg, rfl⟩
    · cases hc : allocate_reverse_chain (roundup8 n) h.first with
      | none => exact ⟨hg, rfl⟩
      | some pc =>
        obtain ⟨p, chain⟩ := pc
        have := allocate_reverse_chain_granular (roundup8_mod n) hg hc
        exact ⟨this.2, this.1⟩

/-- Method `Heap::deallocate` of a block that the zone has handed out, at an address
on the 8-byte grid, keeps the zone granular. -/
theorem Heap.Granular.deallocate_keeps {h : Heap} (hg : h.Granular) (hz : h.Zoned)
    {b : Nat × Nat} (hb : h.Holds b) (ha : b.1 % 8 = 0) :
    (h.deallocate b.1 b.2).Granular := by
  obtain ⟨b1, b2, b3, b4, -⟩ := hb
  obtain ⟨hw, -, hl, hu⟩ := hz
  rw [Heap.deallocate_eq (by omega) b1]
  cases hc : deallocate_chain b.1 (roundup8 b.2) none h.first with
  | none => exact hg
  | some chain =>
    simp only [Option.getD_some]
    exact deallocate_chain_granular ha (roundup8_mod b.2) (by omega) (by omega) h.first none chain
      (fun c hc' => by
        simp only [Option.toList_none, List.nil_append] at hc'
        have := (hw.bounded c hc').2
        exact ⟨hg c hc', by omega⟩) hc

/-- Method `HeapList::allocate` keeps every zone on the 8-byte grid. -/
theorem HeapList.allocate_granular (size attributes options : Nat) :
    ∀ zones : List Heap, (∀ z ∈ zones, z.Granular) →
      ∀ z ∈ (HeapList.allocate size attributes options zones).2, z.Granular
  | [], _, z, hz => by simp [HeapList.allocate] at hz
  | heap :: rest, hg, z, hz => by
    have ih := HeapList.allocate_granular size attributes options rest
      (fun y hy => hg y (List.mem_cons_of_mem _ hy))
    have hk := (hg heap (by simp)).allocate_keeps size
    simp only [HeapList.allocate] at hz
    split_ifs at hz with h1 h2 h3
    · rcases List.mem_cons.1 hz with rfl | hz
      · exact hk.2.1
      · exact hg z (List.mem_cons_of_mem _ hz)
    · rcases List.mem_cons.1 hz with rfl | hz
      · exact hk.2.1
      · exact ih z hz
    · rcases List.mem_cons.1 hz with rfl | hz
      · exact hk.1.1
      · exact hg z (List.mem_cons_of_mem _ hz)
    · rcases List.mem_cons.1 hz with rfl | hz
      · exact hk.1.1
      · exact ih z hz
    · rcases List.mem_cons.1 hz with rfl | hz
      · exact hg z (by simp)
      · exact ih z hz

/-- The links written by `Heap::deallocate` for a span of at least 8 bytes keep every
chunk at 8 bytes or more. -/
theorem deallocate_link_roomy {m r : Nat} (hr : 8 ≤ r) (hmr : m + r < WORD)
    {prev : Option Chunk} {l chain : List Chunk}
    (hg : ∀ c ∈ prev.toList ++ l, 8 ≤ c.size ∧ c.addr + c.size < WORD)
    (h : deallocate_link m r prev l = some chain) :
    ∀ c ∈ chain, 8 ≤ c.size := by
  obtain ⟨size', mc_next, hn, hp⟩ := deallocate_link_some h
  have hs : 8 ≤ size' ∧ m + size' < WORD ∧ ∀ c ∈ mc_next, c ∈ l := by
    rcases deallocate_next_shape hn with ⟨rfl, rfl, rfl⟩ | ⟨n, rfl, h1, rfl⟩ |
      ⟨n, rest, rfl, -, rfl, rfl⟩
    · exact ⟨hr, hmr, fun _ hc => hc⟩
    · have gn := hg n (by simp)
      have : r + n.size < WORD := by omega
      rw [Nat.mod_eq_of_lt this]
      exact ⟨by omega, by omega, fun c hc => List.mem_cons_of_mem _ hc⟩
    · exact ⟨hr, hmr, fun _ hc => hc⟩
  obtain ⟨s1, s2, s3⟩ := hs
  have hl : ∀ c ∈ mc_next, 8 ≤ c.size :=
    fun c hc => (hg c (List.mem_append_right _ (s3 c hc))).1
  rcases deallocate_previous_shape hp with ⟨rfl, rfl⟩ | ⟨pv, rfl, h1, rfl⟩ | ⟨pv, rfl, h1, rfl⟩
  · intro c hc
    rcases List.mem_cons.1 hc with rfl | hc
    · exact s1
    · exact hl c hc
  · have gp := hg pv (by simp)
    intro c hc
    rcases List.mem_cons.1 hc with rfl | hc
    · have : pv.size + size' < WORD := by omega
      simp only
      rw [Nat.mod_eq_of_lt this]
      omega
    · exact hl c hc
  · have gp := hg pv (by simp)
    intro c hc
    rcases List.mem_cons.1 hc with rfl | hc
    · exact gp.1
    · rcases List.mem_cons.1 hc with rfl | hc
      · exact s1
      · exact hl c hc

/-- Method `Heap::deallocate` for a span of at least 8 bytes keeps every chunk at 8
bytes or more. -/
theorem deallocate_chain_roomy {m r : Nat} (hr : 8 ≤ r) (hmr : m + r < WORD) :
    ∀ (l : List Chunk) (prev : Option Chunk) (chain : List Chunk),
    (∀ c ∈ prev.toList ++ l, 8 ≤ c.size ∧ c.addr + c.size < WORD) →
    deallocate_chain m r prev l = some chain →
    ∀ c ∈ chain, 8 ≤ c.size
  | [], prev, chain, hg, h => by
    simp only [deallocate_chain] at h
    exact deallocate_link_roomy hr hmr hg h
  | chunk :: next, prev, chain, hg, h => by
    simp only [deallocate_chain] at h
    split_ifs at h with h1
    · exact deallocate_link_roomy hr hmr hg h
    · cases hc : deallocate_chain m r (some chunk) next with
      | none => simp [hc] at h
      | some ch =>
        simp only [hc, Option.some.injEq] at h
        subst h
        have ih := deallocate_chain_roomy hr hmr next (some chunk) ch
          (fun c hc' => hg c (by
            simp only [Option.toList_some, List.singleton_append] at hc'
            exact List.mem_append_right _ hc')) hc
        intro c hc'
        rcases List.mem_append.1 hc' with e | e
        · exact (hg c (List.mem_append_left _ e)).1
        · exact ih c e

/-- The invariant of a client session with the granularity: the zone is granular and
every live block starts on the 8-byte grid. -/
theorem Session.granular_step {s s' : Session} (hs : s.Sound) (hg : s.heap.Granular)
    (hl : ∀ b ∈ s.live, b.1 % 8 = 0) {c : Call} (h : s.step c = some s') :
    s'.heap.Granular ∧ ∀ b ∈ s'.live, b.1 % 8 = 0 := by
  cases c with
  | allocate n =>
    simp only [Session.step, Option.some.injEq] at h
    subst h
    have := (hg.allocate_keeps n).1
    refine ⟨this.1, ?_⟩
    intro b hb
    simp only at hb
    split_ifs at hb
    · rcases List.mem_cons.1 hb with rfl | hb
      · exact this.2
      · exact hl b hb
    · exact hl b hb
  | allocate_reverse n =>
    simp only [Session.step, Option.some.injEq] at h
    subst h
    have := (hg.allocate_keeps n).2
    refine ⟨this.1, ?_⟩
    intro b hb
    simp only at hb
    split_ifs at hb
    · rcases List.mem_cons.1 hb with rfl | hb
      · exact this.2
      · exact hl b hb
    · exact hl b hb
  | deallocate m n =>
    simp only [Session.step] at h
    split_ifs at h with hm
    simp only [Option.some.injEq] at h
    subst h
    exact ⟨hg.deallocate_keeps hs.1 (hs.2.1 (m, n) hm) (hl (m, n) hm),
      fun b hb => hl b (List.mem_of_mem_erase hb)⟩

/-- The granularity after a sequence of calls of a client session. -/
theorem Session.granular_run : ∀ (calls : List Call) (s s' : Session), s.Sound →
    s.heap.Granular → (∀ b ∈ s.live, b.1 % 8 = 0) → s.run calls = some s' →
    s'.heap.Granular ∧ ∀ b ∈ s'.live, b.1 % 8 = 0
  | [], s, s', _, hg, hl, h => by
    simp only [Session.run, Option.some.injEq] at h
    subst h
    exact ⟨hg, hl⟩
  | c :: cs, s, s', hs, hg, hl, h => by
    simp only [Session.run] at h
    cases hc : s.step c with
    | none => simp [hc] at h
    | some s1 =>
      simp only [hc] at h
      have g := Session.granular_step hs hg hl hc
      exact Session.granular_run cs s1 s' (hs.after_step hc) g.1 g.2 h

/-- A table of `n ≤ 5461` entries: `count()` is `6 * n`, and `unpack(library)` marks
the library and writes the vectors at `-6`, `-12`, ..., `-6 * n`. -/
theorem PackedFunctions.entries_unpack (t : PackedFunctions) (n fuel : Nat)
    (ht : t.entries n) (hn : n ≤ 5461) (hf : n < fuel) :
    t.count fuel = some (6 * n) ∧
    ∃ target : Nat → Nat, t.unpack fuel = some (6 * n, LibraryCall.set_function_before ::
      (List.range n).map (fun (j : Nat) =>
        LibraryCall.set_function (-(6 * ((j : Int) + 1))) (target j))) := by
  have hw : (0 + 6 * n) % WORD = 6 * n := by unfold WORD; omega
  rcases ht with ⟨h0, he, hs⟩ | ⟨h0, he, hs⟩
  · constructor
    · have := t.count16_loop_eq n fuel 1 0 hf he hs
      rw [hw] at this
      simp only [PackedFunctions.count, h0, if_true, PackedFunctions.count16]
      exact this
    · refine ⟨fun j => uint32_cast ((t.addr : Int) + t.displacements (1 + j)), ?_⟩
      simp only [PackedFunctions.unpack, h0, if_true, PackedFunctions.unpack16,
        t.unpack16_loop_small t.addr n fuel 1 hn hf he hs, Option.map_some']
  · constructor
    · have := t.count32_loop_eq n fuel 0 0 hf (by simpa using he) (by simpa using hs)
      rw [hw] at this
      simp only [PackedFunctions.count, h0, if_false, PackedFunctions.count32]
      exact this
    · refine ⟨fun j => uint32_cast (t.pointers (0 + j)), ?_⟩
      simp only [PackedFunctions.unpack, h0, if_false, PackedFunctions.unpack32,
        t.unpack32_loop_small n fuel 0 hn hf (by simpa using he) (by simpa using hs),
        Option.map_some']

/-- The steps of `make_library` for a table of `n ≤ 5461` entries. -/
theorem Library.make_library_eq (AllocMem : Nat → Nat → Nat) (t : PackedFunctions)
    (initstruct : Option PackedStruct) (init : Option Nat) (n data_size fuel : Nat)
    (mem : Nat → Nat) (hn : n ≤ 5461) (ht : t.entries n) (hfuel : n < fuel)
    (hfit : (6 * n + 3) / 4 * 4 + data_size + 8 < WORD) :
    ∃ target : Nat → Nat,
    Library.make_library AllocMem (some t) initstruct init data_size fuel mem =
      if AllocMem ((6 * n + 3) / 4 * 4 + data_size + 8) MEMF_PUBLIC = 0 then
        some ⟨0, (6 * n + 3) / 4 * 4, 0, 0, [], mem⟩
      else
        (PackedStruct.unpack_if initstruct fuel mem
          (AllocMem ((6 * n + 3) / 4 * 4 + data_size + 8) MEMF_PUBLIC + 8 + (6 * n + 3) / 4 * 4)
          data_size).map (fun mem' =>
            ⟨AllocMem ((6 * n + 3) / 4 * 4 + data_size + 8) MEMF_PUBLIC + 8, (6 * n + 3) / 4 * 4,
              AllocMem ((6 * n + 3) / 4 * 4 + data_size + 8) MEMF_PUBLIC + 8 + (6 * n + 3) / 4 * 4,
              init.getD (AllocMem ((6 * n + 3) / 4 * 4 + data_size + 8) MEMF_PUBLIC + 8 +
                    (6 * n + 3) / 4 * 4),
              LibraryCall.set_function_before :: (List.range n).map (fun (j : Nat) =>
                LibraryCall.set_function (-(6 * ((j : Int) + 1))) (target j)), mem'⟩) := by
  obtain ⟨hc, target, hu⟩ := t.entries_unpack n fuel ht hn hfuel
  refine ⟨target, ?_⟩
  have hW : WORD = 4294967296 := rfl
  have e1 : (6 * n + 3) % WORD / 4 * 4 = (6 * n + 3) / 4 * 4 := by
    rw [Nat.mod_eq_of_lt (by omega)]
  have e2 : ((6 * n + 3) / 4 * 4 + data_size) % WORD = (6 * n + 3) / 4 * 4 + data_size :=
    Nat.mod_eq_of_lt (by omega)
  have e3 : ((6 * n + 3) / 4 * 4 + data_size + 8) % WORD = (6 * n + 3) / 4 * 4 + data_size + 8 :=
    Nat.mod_eq_of_lt (by omega)
  have e4 : (MEMF_PUBLIC + MEMF_NONE * 65536) % WORD = MEMF_PUBLIC := by decide
  have v : Library.vector_size (some t) fuel = some ((6 * n + 3) / 4 * 4) := by
    simp only [Library.vector_size, hc, Option.map_some', e1]
  have u : PackedFunctions.unpack_if (some t) fuel = some (LibraryCall.set_function_before ::
      (List.range n).map (fun (j : Nat) =>
        LibraryCall.set_function (-(6 * ((j : Int) + 1))) (target j))) := by
    simp only [PackedFunctions.unpack_if, hu, Option.map_some']
  unfold Library.make_library new_allocate
  rw [v, u, Option.some_bind]
  simp only [e2, e3, e4, Option.some_bind]
  by_cases ha : AllocMem ((6 * n + 3) / 4 * 4 + data_size + 8) MEMF_PUBLIC = 0
  · simp only [ha, ne_eq, not_true_eq_false, if_false, if_true]
  · have ha' : ¬ (AllocMem ((6 * n + 3) / 4 * 4 + data_size + 8) MEMF_PUBLIC + 8 = 0) := by omega
    simp only [ha, ne_eq, not_false_eq_true, if_true, if_false, ha']


/-! ## The claims -/

theorem zone_256_wf : zone_256.WF :=
  ⟨by decide, by decide, by decide⟩

theorem zone_256_zoned : zone_256.Zoned :=
  ⟨zone_256_wf, by unfold Heap.Inside; decide, by decide, by decide⟩

theorem zone_100_50_200_wf : zone_100_50_200.WF :=
  ⟨by decide, by decide, by decide⟩

theorem zone_chip_zoned : zone_chip.Zoned :=
  ⟨⟨by decide, by decide, by decide⟩, by unfold Heap.Inside; decide, by decide, by decide⟩

/-- C1 on a fresh zone of 256 bytes at 4096: `allocate(16)` returns 4096 and
`deallocate(4096, 16)` gives the zone back as it was; a second `deallocate(4096, 16)`
raises the cached total by 16 and then returns at the overlap check with the chain
untouched, one chunk of 256 bytes: `count_free()` is 256 and `available()` is 272,
while `is_sane()` is true. -/
theorem Heap.double_free_raises_total :
    (zone_256.allocate 16).1 = 4096 ∧
    zone_256.run [.allocate 16, .deallocate 4096 16] = zone_256 ∧
    (zone_256.run [.allocate 16, .deallocate 4096 16, .deallocate 4096 16]).first =
      [⟨4096, 256⟩] ∧
    (zone_256.run [.allocate 16, .deallocate 4096 16, .deallocate 4096 16]).count_free = 256 ∧
    (zone_256.run [.allocate 16, .deallocate 4096 16, .deallocate 4096 16]).available = 272 ∧
    (zone_256.run [.allocate 16, .deallocate 4096 16, .deallocate 4096 16]).is_sane = true := by
  decide

/-- C2: starting from a freshly constructed zone (non-null base, ending at least
eight bytes below the top of the address space), after any sequence of `allocate`
and `allocate_reverse` calls interleaved with `deallocate` calls that release only
blocks returned earlier and still live, each with its requested size, any two live
blocks `[a, a + roundup8 n)` are disjoint and every live block lies inside the
zone's range `[lower, upper)`, which is the range the zone was constructed with;
`roundup8 n` is `n` rounded up to the next multiple of 8. -/
theorem Session.live_blocks_disjoint (size_ attributes_ : Nat) (priority_ : Int)
    (base_ : Nat) (hb : base_ ≠ 0) (ht : base_ + size_ + 8 ≤ WORD) (calls : List Call)
    (s : Session)
    (hrun : Session.run ⟨Heap.ctor size_ attributes_ priority_ base_, []⟩ calls = some s) :
    s.live.Pairwise (fun a b => a.1 + roundup8 a.2 ≤ b.1 ∨ b.1 + roundup8 b.2 ≤ a.1) ∧
    (∀ b ∈ s.live, s.heap.lower ≤ b.1 ∧ b.1 + roundup8 b.2 ≤ s.heap.upper) ∧
    (∀ b ∈ s.live, 0 < b.2 ∧ b.2 ≤ roundup8 b.2 ∧ roundup8 b.2 < b.2 + 8 ∧ 8 ∣ roundup8 b.2) ∧
    s.heap.lower = base_ ∧ s.heap.upper = base_ + size_ := by
  have h0 : Session.Sound ⟨Heap.ctor size_ attributes_ priority_ base_, []⟩ :=
    ⟨Heap.ctor_zoned hb ht, by simp, by simp⟩
  obtain ⟨hz, hh, hp⟩ := h0.after_session hrun
  have hr := Session.run_range hrun
  refine ⟨hp, fun b hb => ⟨(hh b hb).2.2.1, (hh b hb).2.2.2.1⟩, ?_, hr.1, hr.2⟩
  intro b hb
  obtain ⟨g1, g2, g3, g4, -⟩ := hh b hb
  have hu := hz.2.2.2
  have := roundup8_spec (n := b.2) (by unfold WORD at *; omega)
  exact ⟨by omega, g2, this.2.1, this.2.2⟩

/-- C2 on four calls on a fresh 256-byte zone; two blocks are live at the end. -/
theorem Session.live_blocks_disjoint_witness :
    (4096 : Nat) ≠ 0 ∧ 4096 + 256 + 8 ≤ WORD ∧
    Session.run ⟨Heap.ctor 256 1 0 4096, []⟩
      [.allocate 10, .allocate_reverse 20, .deallocate 4096 10, .allocate 30] =
      some ⟨⟨1, 0, [⟨4128, 200⟩], 4096, 4352, 200⟩, [(4096, 30), (4328, 20)]⟩ ∧
    [(4096, 30), (4328, 20)].Pairwise
      (fun a b : Nat × Nat => a.1 + roundup8 a.2 ≤ b.1 ∨ b.1 + roundup8 b.2 ≤ a.1) :=
  ⟨by decide, by decide, by decide,
    (Session.live_blocks_disjoint 256 1 0 4096 (by decide) (by decide)
      [.allocate 10, .allocate_reverse 20, .deallocate 4096 10, .allocate 30]
      ⟨⟨1, 0, [⟨4128, 200⟩], 4096, 4352, 200⟩, [(4096, 30), (4328, 20)]⟩ (by decide)).1⟩

/-- Two adjacent blocks taken from a single chunk and released in either order give
back the zone as it was. -/
theorem Heap.release_two_adjacent (h : Heap) (c : Chunk) (n1 n2 : Nat)
    (hfirst : h.first = [c]) (hsize : c.size < WORD) (hfree : h.free < WORD)
    (hp1 : (h.allocate n1).1 ≠ 0)
    (hp2 : ((h.allocate n1).2.allocate n2).1 ≠ 0) :
    (h.allocate n1).1 = c.addr ∧
    ((h.allocate n1).2.allocate n2).1 = c.addr + roundup8 n1 ∧
    ((((h.allocate n1).2.allocate n2).2.deallocate (h.allocate n1).1 n1).deallocate
        ((h.allocate n1).2.allocate n2).1 n2 = h) ∧
    ((((h.allocate n1).2.allocate n2).2.deallocate ((h.allocate n1).2.allocate n2).1 n2).deallocate
        (h.allocate n1).1 n1 = h) := by
  obtain ⟨hn1, -, chain1, hc1, hh1⟩ := Heap.allocate_ne_zero hp1
  obtain ⟨hn2, -, chain2, hc2, hh2⟩ := Heap.allocate_ne_zero hp2
  generalize (h.allocate n1).1 = p1 at *
  generalize (h.allocate n1).2 = h1 at *
  generalize (h1.allocate n2).1 = p2 at *
  generalize (h1.allocate n2).2 = h2 at *
  subst hh2 hh1
  obtain ⟨attributes, pri, first, lower, upper, free⟩ := h
  obtain ⟨a, s⟩ := c
  simp only at hfirst hsize hfree hc1 hc2
  subst hfirst
  have hr1 := roundup8_lt n1
  have hr2 := roundup8_lt n2
  rw [Heap.deallocate_eq hp1 hn1, Heap.deallocate_eq hp2 hn2, Heap.deallocate_eq hp2 hn2, Heap.deallocate_eq hp1 hn1]
  generalize roundup8 n1 = r1 at *
  generalize roundup8 n2 = r2 at *
  simp only [allocate_chain] at hc1
  split_ifs at hc1 with h3 h4
  · simp only [Option.some.injEq, Prod.mk.injEq] at hc1
    obtain ⟨rfl, rfl⟩ := hc1
    simp [allocate_chain] at hc2
  · simp only [Option.some.injEq, Prod.mk.injEq] at hc1
    obtain ⟨rfl, rfl⟩ := hc1
    simp only [allocate_chain] at hc2
    split_ifs at hc2 with h5 h6
    · simp only [Option.some.injEq, Prod.mk.injEq] at hc2
      obtain ⟨rfl, rfl⟩ := hc2
      refine ⟨rfl, rfl, ?_, ?_⟩ <;>
        simp only [Heap.mk.injEq, true_and] <;>
        refine ⟨?_, by unfold WORD at *; omega⟩
      all_goals try simp only [deallocate_chain, deallocate_link, deallocate_next,
        deallocate_previous, Option.toList, List.nil_append, Option.getD]
      all_goals try split_ifs
      all_goals try simp only [deallocate_chain, deallocate_link, deallocate_next,
        deallocate_previous, Option.toList, List.nil_append, Option.getD]
      all_goals try simp
      all_goals try (unfold WORD at *; omega)
    · simp only [Option.some.injEq, Prod.mk.injEq] at hc2
      obtain ⟨rfl, rfl⟩ := hc2
      refine ⟨rfl, rfl, ?_, ?_⟩ <;>
        simp only [Heap.mk.injEq, true_and] <;>
        refine ⟨?_, by unfold WORD at *; omega⟩
      all_goals try simp only [deallocate_chain, deallocate_link, deallocate_next,
        deallocate_previous, Option.toList, List.nil_append, Option.getD]
      all_goals try split_ifs
      all_goals try simp only [deallocate_chain, deallocate_link, deallocate_next,
        deallocate_previous, Option.toList, List.nil_append, Option.getD]
      all_goals try split_ifs
      all_goals try simp
      all_goals try (unfold WORD at *; omega)

/-- The three shapes of `Heap::allocate_at` in which the span touches an end of the
chunk (start of the chunk, end of the chunk, or the whole chunk): in a well-formed
zone the call returns the address, the chain loses exactly the span, the zone stays
well-formed, and the cached total and `count_free()` both drop by exactly `r`. -/
theorem Heap.allocate_at_edge (h : Heap) (hwf : h.WF) (memory size : Nat)
    (hm : memory ≠ 0) (hsz : size ≠ 0) (hle : size ≤ h.free) (c : Chunk) (hc : c ∈ h.first)
    (h1 : c.addr ≤ memory) (h2 : memory + roundup8 size ≤ c.addr + c.size)
    (hedge : c.addr = memory ∨ memory + roundup8 size = c.addr + c.size) :
    (h.allocate_at memory size).1 = memory ∧
    Carved memory (roundup8 size) h.first (h.allocate_at memory size).2.first ∧
    (h.allocate_at memory size).2.WF ∧
    (h.allocate_at memory size).2.free + roundup8 size = h.free ∧
    (h.allocate_at memory size).2.count_free + roundup8 size = h.count_free := by
  have hfree := hwf.free_le
  have hr := roundup8_spec (n := size) (by unfold WORD at *; omega)
  obtain ⟨l', e1, e2⟩ := allocate_at_chain_edge hwf.sorted (by omega) hc h1 h2 hedge
  have hb := e2.bytes
  have hcache := hwf.cache
  have e : h.allocate_at memory size =
      (memory, { h with first := l', free := (h.free + WORD - roundup8 size) % WORD }) := by
    unfold Heap.allocate_at
    rw [if_neg (by omega), e1]
  rw [e]
  have hfree' : (h.free + WORD - roundup8 size) % WORD + roundup8 size = h.free := by
    unfold WORD at *; omega
  refine ⟨rfl, e2, ⟨e2.sorted hwf.sorted, ?_, ?_⟩, hfree', ?_⟩
  · intro x hx
    obtain ⟨d, hd, g1, g2⟩ := e2.within x hx
    have := hwf.bounded d hd
    constructor <;> omega
  · show (h.free + WORD - roundup8 size) % WORD = chain_bytes l'
    omega
  · rw [Heap.count_free_eq, Heap.count_free_eq]
    show chain_bytes l' % WORD + roundup8 size = chain_bytes h.first % WORD
    unfold WORD at *
    omega

/-- C7 at a span strictly inside a chunk: `allocate_at(4112, 16)` on the fresh
256-byte zone at 4096 returns 4112 and lowers the cached total by 16, but the chunk
is only shortened by 16 (to 240 bytes, so it still covers the block) and the
remainder header at 4128 also gets 240 bytes: `count_free()` is 480, not 240. -/
theorem Heap.allocate_at_inside_chunk :
    zone_256.WF ∧
    (zone_256.allocate_at 4112 16).1 = 4112 ∧
    (zone_256.allocate_at 4112 16).2.first = [⟨4096, 240⟩, ⟨4128, 240⟩] ∧
    (zone_256.allocate_at 4112 16).2.free = 240 ∧
    (zone_256.allocate_at 4112 16).2.count_free = 480 :=
  ⟨zone_256_wf, by decide, by decide, by decide, by decide⟩

/-- C9 on two requests, of 1000 and of 16 bytes, against a fresh zone of 256 bytes
at 4096, where `count_free()` and `available()` are both 256.  The directory record
gets the 16 bytes `[4096, 4112)`, which hold its `count` field (offset 14), and the
free chain then is the one chunk whose header lies at 4112; `entries[0]` of the
record lies at offset 16, that is on that header.  The first request fails and
leaves the zone as it is, so the loop stores the pair (null, 1000) at 4112: the
header there then reads `next = nullptr`, `size = 1000`.  From the zone in that
state the second request is granted at 4112 (its pair is stored at offset 24, inside
that block), and the release of the two entries and of the record ends with one
chunk of 1016 bytes at 4096 and a cached total of 256: after the call has reported
the failure, `count_free()` is 1016 and `available()` is 256. -/
theorem HeapList.allocate_multiple_overruns_record :
    zone_256.count_free = 256 ∧ zone_256.available = 256 ∧
    HeapList.allocate_mementry request_1000_16.count [zone_256] =
      (4096, [⟨1, 0, [⟨4112, 240⟩], 4096, 4352, 240⟩]) ∧
    roundup8 ((2 + request_1000_16.count * 4) % WORD) = 16 ∧
    4096 + 14 + 2 ≤ 4096 + 16 ∧
    4096 + MemEntry.offsetof_entries 0 = 4112 ∧
    (HeapList.allocate (request_1000_16.entries 0).size (request_1000_16.entries 0).attributes
      (request_1000_16.entries 1).options [⟨1, 0, [⟨4112, 240⟩], 4096, 4352, 240⟩]) =
      (0, [⟨1, 0, [⟨4112, 240⟩], 4096, 4352, 240⟩]) ∧
    (HeapList.allocate (request_1000_16.entries 1).size (request_1000_16.entries 1).attributes
      (request_1000_16.entries 1).options [⟨1, 0, [⟨4112, 1000⟩], 4096, 4352, 240⟩]) =
      (4112, [⟨1, 0, [⟨4128, 984⟩], 4096, 4352, 224⟩]) ∧
    4112 ≤ 4096 + MemEntry.offsetof_entries 1 ∧ 4096 + MemEntry.offsetof_entries 2 ≤ 4128 ∧
    HeapList.deallocate_multiple 4096 ⟨2, [(0, 1000), (4112, 16)]⟩
        [⟨1, 0, [⟨4128, 984⟩], 4096, 4352, 224⟩] =
      [⟨1, 0, [⟨4096, 1016⟩], 4096, 4352, 256⟩] ∧
    (⟨1, 0, [⟨4096, 1016⟩], 4096, 4352, 256⟩ : Heap).count_free = 1016 ∧
    (⟨1, 0, [⟨4096, 1016⟩], 4096, 4352, 256⟩ : Heap).available = 256 := by
  decide

/-- C10 on two requests that both fail (sizes 1000 and 2000 against a zone of 256
bytes): the response carries 2000, the size of the last failing request, not 1000;
and when a request that fits follows a failing one it is attempted, the directory
records a non-null address for it. -/
theorem HeapList.allocate_multiple_reports_last_failure :
    (HeapList.allocate_multiple request_1000_2000 [zone_256]).1 = ⟨2000, 0⟩ ∧
    (HeapList.allocate_multiple request_1000_16 [zone_256]).1 = ⟨1000, 0⟩ ∧
    (HeapList.allocate_multiple request_1000_16 [zone_256]).2.1.entries =
      [(0, 1000), (4112, 16)] := by
  decide

/-- C11 on a request with a zero-size entry (sizes 16 and 0 against a fresh zone of
256 bytes): the response reports success (`failed = 0`, directory at 4096) and the
directory of count 2 holds a null address for the second request. -/
theorem HeapList.allocate_multiple_zero_size_entry :
    (HeapList.allocate_multiple request_16_0 [zone_256]).1 = ⟨0, 4096⟩ ∧
    (HeapList.allocate_multiple request_16_0 [zone_256]).2.1 = ⟨2, [(4112, 16), (0, 0)]⟩ := by
  decide

/-- The two outcomes of `HeapList::allocate`: the list splits at the first providing
zone whose allocation succeeds, or every providing zone fails and nothing changes. -/
theorem HeapList.allocate_split (size attributes options : Nat) (zones : List Heap)
    (hnn : ∀ z ∈ zones, ∀ c ∈ z.first, c.addr ≠ 0) :
    (∃ A z B, zones = A ++ z :: B ∧ z.provides attributes = true ∧
      (if options &&& MEMF_REVERSE ≠ 0 then z.allocate_reverse size else z.allocate size).1 ≠ 0 ∧
      (∀ y ∈ A, y.provides attributes = true →
        (if options &&& MEMF_REVERSE ≠ 0 then y.allocate_reverse size
          else y.allocate size).1 = 0) ∧
      (HeapList.allocate size attributes options zones).1 =
        (if options &&& MEMF_REVERSE ≠ 0 then z.allocate_reverse size else z.allocate size).1 ∧
      (HeapList.allocate size attributes options zones).2 =
        A ++ (if options &&& MEMF_REVERSE ≠ 0 then z.allocate_reverse size
          else z.allocate size).2 :: B) ∨
    ((∀ z ∈ zones, z.provides attributes = true →
        (if options &&& MEMF_REVERSE ≠ 0 then z.allocate_reverse size
          else z.allocate size).1 = 0) ∧
      (HeapList.allocate size attributes options zones).1 = 0 ∧
      (HeapList.allocate size attributes options zones).2 = zones) := by
  induction zones with
  | nil => exact Or.inr ⟨by simp, rfl, rfl⟩
  | cons heap rest ih =>
    have ih' := ih (fun z hz => hnn z (List.mem_cons_of_mem _ hz))
    have hh := hnn heap (by simp)
    simp only [HeapList.allocate]
    by_cases h1 : heap.provides attributes = true
    · rw [if_pos h1]
      by_cases h2 : (if options &&& MEMF_REVERSE ≠ 0 then heap.allocate_reverse size
          else heap.allocate size).1 = 0
      · have h3 : (if options &&& MEMF_REVERSE ≠ 0 then heap.allocate_reverse size
          else heap.allocate size).2 = heap := by
          split_ifs at h2 ⊢
          · exact Heap.allocate_reverse_eq_zero hh h2
          · exact Heap.allocate_eq_zero hh h2
        rw [if_neg (by simpa using h2), h3]
        rcases ih' with ⟨A, z, B, e1, e2, e3, e4, e5, e6⟩ | ⟨e1, e2, e3⟩
        · refine Or.inl ⟨heap :: A, z, B, by rw [e1]; rfl, e2, e3, ?_, e5, by rw [e6]; rfl⟩
          intro y hy hp
          rcases List.mem_cons.1 hy with rfl | hy
          · exact h2
          · exact e4 y hy hp
        · refine Or.inr ⟨?_, e2, by rw [e3]⟩
          intro y hy hp
          rcases List.mem_cons.1 hy with rfl | hy
          · exact h2
          · exact e1 y hy hp
      · rw [if_pos h2]
        exact Or.inl ⟨[], heap, rest, rfl, h1, h2, by simp, rfl, rfl⟩
    · rw [if_neg h1]
      rcases ih' with ⟨A, z, B, e1, e2, e3, e4, e5, e6⟩ | ⟨e1, e2, e3⟩
      · refine Or.inl ⟨heap :: A, z, B, by rw [e1]; rfl, e2, e3, ?_, e5, by rw [e6]; rfl⟩
        intro y hy hp
        rcases List.mem_cons.1 hy with rfl | hy
        · exact absurd hp h1
        · exact e4 y hy hp
      · refine Or.inr ⟨?_, e2, by rw [e3]⟩
        intro y hy hp
        rcases List.mem_cons.1 hy with rfl | hy
        · exact absurd hp h1
        · exact e1 y hy hp

/-- C13: `HeapList::available(attributes, options)` with `MEMF_TOTAL` clear.  With
`MEMF_LARGEST` clear it returns the sum of the cached totals of the zones that
provide the attributes, as a `size_t`; the sum itself when the zones are well-formed
and their ranges pairwise disjoint.  With `MEMF_LARGEST` set it returns the largest
size of a free chunk over the zones that provide the attributes, `0` when there is
none.  The method only reads the zones. -/
theorem HeapList.available_reports (attributes options : Nat) (zones : List Heap)
    (htotal : options &&& MEMF_TOTAL = 0) :
    (options &&& MEMF_LARGEST = 0 →
      HeapList.available attributes options zones = free_total attributes zones % WORD) ∧
    (options &&& MEMF_LARGEST = 0 → (∀ z ∈ zones, z.Zoned) →
      zones.Pairwise ranges_disjoint →
      HeapList.available attributes options zones = free_total attributes zones) ∧
    (options &&& MEMF_LARGEST ≠ 0 →
      HeapList.available attributes options zones = largest_chunk attributes zones) := by
  have hfree : options &&& MEMF_LARGEST = 0 →
      HeapList.available attributes options zones = free_total attributes zones % WORD := by
    intro h
    have := available_loop_free attributes options htotal h zones 0
    simpa [HeapList.available] using this
  refine ⟨hfree, ?_, ?_⟩
  · intro h hz hd
    rw [hfree h, Nat.mod_eq_of_lt (free_total_lt attributes zones hz hd)]
  · intro h
    have := available_loop_largest attributes options htotal h zones 0
    simpa [HeapList.available] using this

theorem HeapList.available_reports_witness :
    (0 &&& MEMF_TOTAL = 0 ∧ 0 &&& MEMF_LARGEST = 0 ∧
      HeapList.available 1 0 [zone_100_50_200, zone_chip, zone_256] = 694) ∧
    (2 &&& MEMF_TOTAL = 0 ∧ 2 &&& MEMF_LARGEST ≠ 0 ∧
      HeapList.available 2 2 [zone_100_50_200, zone_chip, zone_256] = 64) :=
  ⟨⟨by decide, by decide,
    (HeapList.available_reports 1 0 [zone_100_50_200, zone_chip, zone_256] (by decide)).1
      (by decide)⟩,
   ⟨by decide, by decide,
    (HeapList.available_reports 2 2 [zone_100_50_200, zone_chip, zone_256] (by decide)).2.2
      (by decide)⟩⟩

/-- C14 on two feeds of same-named headers.  Feeding the header at 4096 (version 2,
priority 0) and then the one at 4352 (version 1, priority 5) leaves 4352, the
header of the lower version.  Feeding 4352 (version 1, priority 5), 4096
(version 2, priority 0) and 5120 (version 2, priority 3) leaves 4096, although
5120 has the same version and a higher priority: the node still carries the
priority 5 of the first header. -/
theorem BuilderList.add_replaces_on_priority_alone :
    ([4096, 4352].foldl (BuilderList.add rom) BuilderList.ctor).flatten = [4352, 0] ∧
    (rom.resident 4352).version < (rom.resident 4096).version ∧
    ([4352, 4096, 5120].foldl (BuilderList.add rom) BuilderList.ctor).flatten = [4096, 0] ∧
    (rom.resident 5120).version = (rom.resident 4096).version ∧
    (rom.resident 4096).priority < (rom.resident 5120).priority ∧
    ([4352, 4096].foldl (BuilderList.add rom) BuilderList.ctor).nodes.map
      (fun i => i.priority) = [5] := by
  decide

/-- C15 on the headers at 4096 (version 2, priority 0) and 4352 (version 1,
priority 5), which have the same name: fed in this order the flattened array holds
4352, fed in the other order it holds 4096.  For the pair of the spec (4352 with
version 1, priority 5 and 4608 with version 1, priority 9) both orders leave
4608. -/
theorem BuilderList.add_order_dependent :
    ([4096, 4352].foldl (BuilderList.add rom) BuilderList.ctor).flatten = [4352, 0] ∧
    ([4352, 4096].foldl (BuilderList.add rom) BuilderList.ctor).flatten = [4096, 0] ∧
    (rom.resident 4096).name = (rom.resident 4352).name ∧
    ([4352, 4608].foldl (BuilderList.add rom) BuilderList.ctor).flatten = [4608, 0] ∧
    ([4608, 4352].foldl (BuilderList.add rom) BuilderList.ctor).flatten = [4608, 0] := by
  decide

/-- C16 (amended): one run of `BuilderList::search(start, end_)`, for any memory,
range, builder list and number of iterations.  The test at a position is the magic
word `0x4AFC` together with the pointer to self.  Every position examined is below
`end_`, the position at which the loop is left is at or above `end_`, and the loop
is only still running when it has examined one position per iteration.  The
positions examined, followed by the position at which the loop is left, start with
`start` and go from `p` to the declared end of the header at `p` when the test
holds at `p` and to `p + 2` (as a 32-bit pointer) when it fails.  The builder list
is the given list after `add` of the examined positions where the test holds, in
order.  When `end_` is below `2^32 - 1` the step `p + 2` does not wrap; if moreover
every examined header declares an end above its own address, the positions
examined are strictly increasing and none of them lies inside the body
`(p, end)` of an examined header `p`. -/
theorem BuilderList.search_scan (mem : Memory) (fuel : Nat) (bl : BuilderList)
    (start end_ : Nat) :
    (∀ p, mem.is_romtag p = true ↔
      ((mem.resident p).match_word = 0x4afc ∧ (mem.resident p).match_tag = p)) ∧
    (∀ p ∈ (bl.search mem fuel start end_).examined, p < end_) ∧
    (∀ q, (bl.search mem fuel start end_).stopped = some q → end_ ≤ q) ∧
    ((bl.search mem fuel start end_).stopped = none →
      (bl.search mem fuel start end_).examined.length = fuel) ∧
    (0 < fuel → ((bl.search mem fuel start end_).examined ++
      (bl.search mem fuel start end_).stopped.toList).head? = some start) ∧
    List.Chain' (fun p q => q = if mem.is_romtag p then (mem.resident p).end_
        else (p + 2) % WORD)
      ((bl.search mem fuel start end_).examined ++
        (bl.search mem fuel start end_).stopped.toList) ∧
    (bl.search mem fuel start end_).list =
      ((bl.search mem fuel start end_).examined.filter mem.is_romtag).foldl
        (BuilderList.add mem) bl ∧
    (end_ + 1 < WORD → ∀ p ∈ (bl.search mem fuel start end_).examined,
      (p + 2) % WORD = p + 2) ∧
    (end_ + 1 < WORD →
      (∀ p ∈ (bl.search mem fuel start end_).examined, mem.is_romtag p = true →
        p < (mem.resident p).end_) →
      (bl.search mem fuel start end_).examined.Pairwise (fun p q => p < q) ∧
      ∀ p ∈ (bl.search mem fuel start end_).examined, mem.is_romtag p = true →
        ∀ q ∈ (bl.search mem fuel start end_).examined,
          ¬ (p < q ∧ q < (mem.resident p).end_)) := by
  obtain ⟨h1, h2, h3, h4, h5, h6⟩ := BuilderList.search_loop_scan mem end_ fuel start bl
  have hwrap : end_ + 1 < WORD → ∀ p ∈ (BuilderList.search_loop mem end_ fuel start bl).examined,
      (p + 2) % WORD = p + 2 := by
    intro he p hp
    have := h1 p hp
    exact Nat.mod_eq_of_lt (by omega)
  refine ⟨?_, h1, h2, h3, h4, h5, h6, hwrap, ?_⟩
  · intro p
    simp [Memory.is_romtag, Resident.MATCHWORD]
  · intro he hfwd
    obtain ⟨g1, g2⟩ := chain_forward
      (fun x => if mem.is_romtag x then (mem.resident x).end_ else (x + 2) % WORD)
      _ h5.left_of_append (fun x hx => by
        by_cases hm : mem.is_romtag x = true
        · simp only [hm, if_true]
          exact hfwd x hx hm
        · simp only [hm]
          rw [hwrap he x hx]
          simp)
    refine ⟨g1, ?_⟩
    intro p hp hm q hq
    have := g2 p hp q hq
    simpa only [hm, if_true] using this

theorem BuilderList.search_scan_witness :
    (BuilderList.ctor.search rom 10 8192 8208).examined = [8192, 8200, 8202, 8204] ∧
    (BuilderList.ctor.search rom 10 8192 8208).stopped = some 8208 ∧
    (BuilderList.ctor.search rom 10 8192 8208).list =
      [8192, 8204].foldl (BuilderList.add rom) BuilderList.ctor ∧
    (∀ p ∈ (BuilderList.ctor.search rom 10 8192 8208).examined, p < 8208) ∧
    ((BuilderList.ctor.search rom 10 8192 8208).examined ++
      (BuilderList.ctor.search rom 10 8192 8208).stopped.toList).head? = some 8192 ∧
    (BuilderList.ctor.search rom 10 8192 8208).examined.Pairwise (fun p q => p < q) :=
  ⟨by decide, by decide, by decide,
   (BuilderList.search_scan rom 10 BuilderList.ctor 8192 8208).2.1,
   (BuilderList.search_scan rom 10 BuilderList.ctor 8192 8208).2.2.2.2.1 (by decide),
   ((BuilderList.search_scan rom 10 BuilderList.ctor 8192 8208).2.2.2.2.2.2.2.2 (by decide)
      (by decide)).1⟩

/-- C16 fails on a memory with a header at 8192 that declares 8256 as its end and a
header at 8256 that declares 8224: the scan goes from 8192 to 8256 and from there
back to 8224 and on to 8226, positions inside the body of the header at 8192.  And
on the range from `2^32 - 2` to `2^32 - 1` of a memory without headers the position
examined after `2^32 - 2` is 0. -/
theorem BuilderList.search_enters_body :
    rom_back.is_romtag 8192 = true ∧ (rom_back.resident 8192).end_ = 8256 ∧
    rom_back.is_romtag 8256 = true ∧ (rom_back.resident 8256).end_ = 8224 ∧
    (BuilderList.ctor.search rom_back 4 8192 8320).examined = [8192, 8256, 8224, 8226] ∧
    (8192 + 2 ≤ 8224 ∧ 8224 < 8256) ∧
    (BuilderList.ctor.search rom_blank 3 4294967294 4294967295).examined =
      [4294967294, 0, 2] := by
  decide

/-- C17: after feeding any sequence of headers (whose names are C strings, without a
zero byte) to `add` on a new builder list, `flatten` writes the surviving header
address of every node in list order and then one null terminator; the number of
slots written equals the field `count`, which is the number of distinct names fed
plus one. -/
theorem BuilderList.flatten_slots (mem : Memory) (rs : List Nat)
    (hnames : ∀ r ∈ rs, 0 ∉ (mem.resident r).name) :
    (rs.foldl (BuilderList.add mem) BuilderList.ctor).flatten =
      (rs.foldl (BuilderList.add mem) BuilderList.ctor).nodes.map (fun i => i.resident) ++ [0] ∧
    ((rs.foldl (BuilderList.add mem) BuilderList.ctor).flatten.length : Int) =
      (rs.foldl (BuilderList.add mem) BuilderList.ctor).count ∧
    (rs.foldl (BuilderList.add mem) BuilderList.ctor).count =
      ((rs.map (fun r => (mem.resident r).name)).dedup.length : Int) + 1 := by
  obtain ⟨h1, h2, h3⟩ := BuilderList.foldl_add_names mem rs BuilderList.ctor [] hnames
    (by simp) (by simp [BuilderList.ctor]) (by simp [BuilderList.ctor])
    (by simp [BuilderList.ctor])
  have hperm : ((rs.foldl (BuilderList.add mem) BuilderList.ctor).nodes.map
      (fun i => i.name)).Perm (rs.map (fun r => (mem.resident r).name)).dedup :=
    (List.perm_ext_iff_of_nodup h2 (List.nodup_dedup _)).2 (fun x => by
      rw [h3, List.mem_dedup]; simp)
  have hlen := hperm.length_eq
  simp only [List.length_map] at hlen
  refine ⟨rfl, ?_, ?_⟩
  · rw [h1]
    simp [BuilderList.flatten]
  · rw [h1, hlen]

theorem BuilderList.flatten_slots_witness :
    (∀ r ∈ [4096, 4352, 4864, 4608], 0 ∉ (rom.resident r).name) ∧
    (([4096, 4352, 4864, 4608].foldl (BuilderList.add rom) BuilderList.ctor).flatten =
      ([4096, 4352, 4864, 4608].foldl (BuilderList.add rom) BuilderList.ctor).nodes.map
        (fun i => i.resident) ++ [0] ∧
    (([4096, 4352, 4864, 4608].foldl (BuilderList.add rom) BuilderList.ctor).flatten.length
        : Int) =
      ([4096, 4352, 4864, 4608].foldl (BuilderList.add rom) BuilderList.ctor).count ∧
    ([4096, 4352, 4864, 4608].foldl (BuilderList.add rom) BuilderList.ctor).count =
      (([4096, 4352, 4864, 4608].map (fun r => (rom.resident r).name)).dedup.length : Int)
        + 1) :=
  ⟨by decide, BuilderList.flatten_slots rom [4096, 4352, 4864, 4608] (by decide)⟩

/-- C18 on the array at 16384, whose only entry before the terminator is a link
(bit 31 set) to the array at 20480, which holds the header 4864 named `b`:
`find_name` on the first array returns null, while on the second array it returns
4864; `initialise` for the start class of that header constructs nothing through
the first array and constructs 4864 through the second.  The walkers read the
link as the address of a header. -/
theorem ResidentArray.link_read_as_header :
    rom.entry 16384 = 2147483648 + 20480 ∧
    ResidentArray.find_name rom 10 16384 [98] = some 0 ∧
    ResidentArray.find_name rom 10 20480 [98] = some 4864 ∧
    ResidentArray.initialise rom 10 16384 2 0 = some [] ∧
    ResidentArray.initialise rom 10 20480 2 0 = some [4864] := by
  decide

/-- C19: `ResidentArray::initialise(start_class, min_version)` on an array below
`2^31` whose slots hold the header addresses `es` (non-null, bit 31 clear) followed
by the terminator.  With enough iterations the walk ends, and `Resident::initialise`
is invoked on exactly the entries whose flags meet `start_class` and whose version
is at least `min_version`, once per entry and in array order. -/
theorem ResidentArray.initialise_constructs (mem : Memory) (array : Nat) (es : List Nat)
    (start_class min_version fuel : Nat)
    (hlow : array + 4 * es.length < 2147483648)
    (hes : ∀ i (h : i < es.length), mem.entry (array + 4 * i) = es.get ⟨i, h⟩)
    (hnz : ∀ e ∈ es, e ≠ 0 ∧ e < 2147483648)
    (hterm : mem.entry (array + 4 * es.length) = 0)
    (hfuel : es.length < fuel) :
    ResidentArray.initialise mem fuel array start_class min_version =
      some (es.filter (fun e => decide ((mem.resident e).flags &&& start_class ≠ 0 ∧
        (mem.resident e).version ≥ min_version))) :=
  ResidentArray.initialise_loop_eq mem start_class min_version es fuel array hfuel hlow hes
    (fun e he => (hnz e he).1) hterm

theorem ResidentArray.initialise_constructs_witness :
    ResidentArray.initialise rom 10 24576 1 2 = some [4096] ∧
    ResidentArray.initialise rom 10 24576 3 1 = some [4096, 4352, 4864] :=
  ⟨ResidentArray.initialise_constructs rom 24576 [4096, 4352, 4864] 1 2 10
      (by decide) (by decide) (by decide) (by decide) (by decide),
   ResidentArray.initialise_constructs rom 24576 [4096, 4352, 4864] 3 1 10
      (by decide) (by decide) (by decide) (by decide) (by decide)⟩

/-- C20 (amended): for a table with `n` entries before the sentinel and enough
iterations, `count()` returns six times `n` as a `size_t`, reading the 16-bit
displacements after the first cell when that cell is `-1` and the 32-bit addresses
from the start of the table otherwise; `count(reference)` returns six times `n`
over the 16-bit displacements from the start of the table when `reference` is
non-null and over the 32-bit addresses when it is null; and when `n` is at most
5461, `count()` is `6 * n` and `unpack(library)` returns the same value. -/
theorem PackedFunctions.unpack_returns_count (t : PackedFunctions) (n fuel : Nat)
    (hfuel : n < fuel) :
    (t.displacements 0 = -1 → (∀ i, i < n → t.displacements (1 + i) ≠ -1) →
      t.displacements (1 + n) = -1 →
        t.count fuel = some (6 * n % WORD) ∧
        (n ≤ 5461 → t.count fuel = some (6 * n) ∧
          (t.unpack fuel).map Prod.fst = t.count fuel)) ∧
    (t.displacements 0 ≠ -1 → (∀ i, i < n → t.pointers i ≠ -1) → t.pointers n = -1 →
        t.count fuel = some (6 * n % WORD) ∧
        (n ≤ 5461 → t.count fuel = some (6 * n) ∧
          (t.unpack fuel).map Prod.fst = t.count fuel)) ∧
    (∀ reference, reference ≠ 0 → (∀ i, i < n → t.displacements i ≠ -1) →
      t.displacements n = -1 → t.count_with fuel reference = some (6 * n % WORD)) ∧
    ((∀ i, i < n → t.pointers i ≠ -1) → t.pointers n = -1 →
      t.count_with fuel 0 = some (6 * n % WORD)) := by
  have hmod : ∀ k : Nat, k ≤ 5461 → 6 * k % WORD = 6 * k := by
    intro k hk; unfold WORD; omega
  refine ⟨?_, ?_, ?_, ?_⟩
  · intro h0 he hs
    have hc : t.count fuel = some (6 * n % WORD) := by
      have := t.count16_loop_eq n fuel 1 0 (by omega) he hs
      simpa [PackedFunctions.count, PackedFunctions.count16, h0] using this
    refine ⟨hc, fun hn => ⟨by rw [hc, hmod n hn], ?_⟩⟩
    have := t.unpack16_loop_fst t.addr n fuel 1 0 (by omega) he hs
    rw [show int16_cast 0 = 0 from rfl, unpack_value_small n hn] at this
    rw [hc, hmod n hn]
    simp only [PackedFunctions.unpack, PackedFunctions.unpack16, h0, if_true, Option.map_map]
    exact this
  · intro h0 he hs
    have hc : t.count fuel = some (6 * n % WORD) := by
      have := t.count32_loop_eq n fuel 0 0 (by omega) (by simpa using he) (by simpa using hs)
      simpa [PackedFunctions.count, PackedFunctions.count32, h0] using this
    refine ⟨hc, fun hn => ⟨by rw [hc, hmod n hn], ?_⟩⟩
    have := t.unpack32_loop_fst n fuel 0 0 (by omega) (by simpa using he) (by simpa using hs)
    rw [show int16_cast 0 = 0 from rfl, unpack_value_small n hn] at this
    rw [hc, hmod n hn]
    simp only [PackedFunctions.unpack, PackedFunctions.unpack32, h0, if_false, Option.map_map]
    exact this
  · intro reference hr he hs
    have := t.count16_loop_eq n fuel 0 0 (by omega) (by simpa using he) (by simpa using hs)
    simpa [PackedFunctions.count_with, PackedFunctions.count16, hr] using this
  · intro he hs
    have := t.count32_loop_eq n fuel 0 0 (by omega) (by simpa using he) (by simpa using hs)
    simpa [PackedFunctions.count_with, PackedFunctions.count32] using this

/-- C20 fails on a table in the 16-bit form with 5462 entries: `count()` returns
32772, while `unpack(library)`, whose running offset is an `int16_t`, returns
4294934532. -/
theorem PackedFunctions.unpack_differs_from_count_5462 :
    table_5462.count 6000 = some 32772 ∧
    (table_5462.unpack 6000).map Prod.fst = some 4294934532 := by
  have h0 : table_5462.displacements 0 = -1 := by decide
  have he : ∀ i, i < 5462 → table_5462.displacements (1 + i) ≠ -1 := by
    intro i hi
    have : table_5462.cells (1 + i) = 0 := by
      simp only [table_5462]
      rw [if_neg (by omega), if_pos (by omega)]
    simp only [PackedFunctions.displacements, this]
    decide
  have hs : table_5462.displacements (1 + 5462) = -1 := by decide
  constructor
  · have := table_5462.count16_loop_eq 5462 6000 1 0 (by omega) he hs
    simpa [PackedFunctions.count, PackedFunctions.count16, h0] using this
  · have := table_5462.unpack16_loop_fst table_5462.addr 5462 6000 1 0 (by omega) he hs
    simp only [PackedFunctions.unpack, PackedFunctions.unpack16, h0, if_true, Option.map_map]
    rw [show int16_cast 0 = 0 from rfl] at this
    rw [show (Prod.fst ∘ fun r : Nat × List LibraryCall =>
        (r.1, LibraryCall.set_function_before :: r.2)) = Prod.fst from rfl, this]
    decide

theorem PackedFunctions.unpack_returns_count_witness :
    (table16 4096 [16, 65534, 0]).count 10 = some 18 ∧
    ((table16 4096 [16, 65534, 0]).unpack 10).map Prod.fst =
      (table16 4096 [16, 65534, 0]).count 10 ∧
    (table32 4096 [8192, 0, 12288]).count 10 = some 18 ∧
    ((table32 4096 [8192, 0, 12288]).unpack 10).map Prod.fst =
      (table32 4096 [8192, 0, 12288]).count 10 :=
  ⟨((PackedFunctions.unpack_returns_count (table16 4096 [16, 65534, 0]) 3 10 (by decide)).1
      (by decide) (by decide) (by decide)).2 (by decide) |>.1,
   ((PackedFunctions.unpack_returns_count (table16 4096 [16, 65534, 0]) 3 10 (by decide)).1
      (by decide) (by decide) (by decide)).2 (by decide) |>.2,
   ((PackedFunctions.unpack_returns_count (table32 4096 [8192, 0, 12288]) 3 10 (by decide)).2.1
      (by decide) (by decide) (by decide)).2 (by decide) |>.1,
   ((PackedFunctions.unpack_returns_count (table32 4096 [8192, 0, 12288]) 3 10 (by decide)).2.1
      (by decide) (by decide) (by decide)).2 (by decide) |>.2⟩

/-- C21 (amended): for a function table with `n` entries, `n` at most 5461, and
enough iterations, `unpack` returns `6 * n` and leaves in the library, for each
entry `k` (counted from 0), a vector at byte offset `-6 * (k + 1)` from the base:
the 16-bit opcode followed by the 32-bit target, the opcode being `0x4ef9` for a
non-null target and `0x4afc` for a null one; every byte outside the `n` vectors is
as before.  The target is the reference base plus the displacement (as a 32-bit
address) in the 16-bit form, the reference being the table itself for
`unpack(library)` and `reference` for `unpack(library, reference)`, and the
address itself in the 32-bit form. -/
theorem PackedFunctions.unpack_writes_vectors (t : PackedFunctions) (n fuel : Nat)
    (library : Library) (hn : n ≤ 5461) (hfuel : n < fuel) :
    (t.displacements 0 = -1 → (∀ i, i < n → t.displacements (1 + i) ≠ -1) →
      t.displacements (1 + n) = -1 →
      ∃ after, t.unpack_library fuel library = some (6 * n, after) ∧
        Library.vectors_written library after n
          (fun k => uint32_cast ((t.addr : Int) + t.displacements (1 + k)))) ∧
    (t.displacements 0 ≠ -1 → (∀ i, i < n → t.pointers i ≠ -1) → t.pointers n = -1 →
      ∃ after, t.unpack_library fuel library = some (6 * n, after) ∧
        Library.vectors_written library after n (fun k => uint32_cast (t.pointers k))) ∧
    (∀ reference, reference ≠ 0 → (∀ i, i < n → t.displacements i ≠ -1) →
      t.displacements n = -1 →
      ∃ after, t.unpack_library_with fuel library reference = some (6 * n, after) ∧
        Library.vectors_written library after n
          (fun k => uint32_cast ((reference : Int) + t.displacements k))) ∧
    ((∀ i, i < n → t.pointers i ≠ -1) → t.pointers n = -1 →
      ∃ after, t.unpack_library_with fuel library 0 = some (6 * n, after) ∧
        Library.vectors_written library after n (fun k => uint32_cast (t.pointers k))) := by
  refine ⟨?_, ?_, ?_, ?_⟩
  · intro h0 he hs
    have h := t.unpack16_loop_small t.addr n fuel 1 hn hfuel he hs
    refine ⟨_, ?_, (Library.run_unpack library n
      (fun k => (t.addr : Int) + t.displacements (1 + k))).1⟩
    simp only [PackedFunctions.unpack_library, PackedFunctions.unpack, PackedFunctions.unpack16,
      h0, if_true, h, Option.map_some']
  · intro h0 he hs
    have h := t.unpack32_loop_small n fuel 0 hn hfuel (by simpa using he) (by simpa using hs)
    simp only [Nat.zero_add] at h
    refine ⟨_, ?_, (Library.run_unpack library n (fun k => t.pointers k)).1⟩
    simp only [PackedFunctions.unpack_library, PackedFunctions.unpack, PackedFunctions.unpack32,
      h0, if_false, h, Option.map_some']
  · intro reference hr he hs
    have h := t.unpack16_loop_small reference n fuel 0 hn hfuel (by simpa using he)
      (by simpa using hs)
    simp only [Nat.zero_add] at h
    refine ⟨_, ?_, (Library.run_unpack library n
      (fun k => (reference : Int) + t.displacements k)).1⟩
    simp only [PackedFunctions.unpack_library_with, PackedFunctions.unpack_with,
      PackedFunctions.unpack16, hr, ne_eq, not_false_eq_true, if_true, h, Option.map_some']
  · intro he hs
    have h := t.unpack32_loop_small n fuel 0 hn hfuel (by simpa using he) (by simpa using hs)
    simp only [Nat.zero_add] at h
    refine ⟨_, ?_, (Library.run_unpack library n (fun k => t.pointers k)).1⟩
    simp only [PackedFunctions.unpack_library_with, PackedFunctions.unpack_with,
      PackedFunctions.unpack32, ne_eq, not_true_eq_false, if_false, h, Option.map_some']

/-- C21, on a table of three entries in the 16-bit form and on one in the 32-bit
form. -/
theorem PackedFunctions.unpack_writes_vectors_witness :
    (∃ after, (table16 4096 [16, 65534, 0]).unpack_library 10 library_12 = some (6 * 3, after) ∧
      Library.vectors_written library_12 after 3
        (fun k => uint32_cast (((table16 4096 [16, 65534, 0]).addr : Int) +
          (table16 4096 [16, 65534, 0]).displacements (1 + k)))) ∧
    (∃ after, (table32 4096 [8192, 0, 12288]).unpack_library 10 library_12 =
        some (6 * 3, after) ∧
      Library.vectors_written library_12 after 3
        (fun k => uint32_cast ((table32 4096 [8192, 0, 12288]).pointers k))) :=
  ⟨(PackedFunctions.unpack_writes_vectors (table16 4096 [16, 65534, 0]) 3 10 library_12
      (by decide) (by decide)).1 (by decide) (by decide) (by decide),
   (PackedFunctions.unpack_writes_vectors (table32 4096 [8192, 0, 12288]) 3 10 library_12
      (by decide) (by decide)).2.1 (by decide) (by decide) (by decide)⟩

/-- C21 fails on a table in the 16-bit form with 5462 entries, unpacked into a
library whose bytes are all zero: the vector of the last entry is written at byte
offset `+32764` (the `int16_t` offset has wrapped), and the cell at `-32772`, six
bytes below the vector before it, is left as it was. -/
theorem PackedFunctions.unpack_writes_above_base_5462 :
    ∃ after, table_5462.unpack_library 6000 library_12 = some (4294934532, after) ∧
      read16 after.bytes 32764 = 0x4ef9 ∧ read16 after.bytes (-32772) = 0 := by
  have h0 : table_5462.displacements 0 = -1 := by decide
  have he : ∀ i, i < 5462 → table_5462.displacements (1 + i) ≠ -1 := by
    intro i hi
    have : table_5462.cells (1 + i) = 0 := by
      simp only [table_5462]
      rw [if_neg (by omega), if_pos (by omega)]
    simp only [PackedFunctions.displacements, this]
    decide
  have hs : table_5462.displacements (1 + 5462) = -1 := by decide
  have h1 := table_5462.unpack16_loop_fst table_5462.addr 5462 6000 1 0 (by omega) he hs
  have h2 := table_5462.unpack16_loop_snd table_5462.addr 5462 6000 1 0 (by omega) he hs
  rw [show int16_cast 0 = 0 from rfl] at h1 h2
  have h3 := option_pair_eq h1 h2
  have hv : uint32_cast (-int16_cast (0 - 6 * ((5462 : Nat) : Int))) = 4294934532 := by decide
  have hc : LibraryCall.set_function (int16_cast (0 - 6 * (((5461 : Nat) : Int) + 1)))
      (uint32_cast ((table_5462.addr : Int) + table_5462.displacements (1 + 5461))) =
      LibraryCall.set_function 32764 4096 := by decide
  rw [List.range_succ, List.map_append, unpack_calls_small 5461 (by omega), hv] at h3
  simp only [List.map_cons, List.map_nil, hc] at h3
  obtain ⟨_, _, _, _, g5⟩ := Library.run_set_functions
    (fun (j : Nat) => uint32_cast ((table_5462.addr : Int) + table_5462.displacements (1 + j)))
    5461 library_12.set_function_before
  obtain ⟨s1, _, s3⟩ := Library.Function.set_function_spec
    (library_12.set_function_before.run ((List.range 5461).map (fun (j : Nat) =>
      LibraryCall.set_function (-(6 * ((j : Int) + 1)))
        (uint32_cast ((table_5462.addr : Int) + table_5462.displacements (1 + j)))))).bytes
    32764 4096
  refine ⟨library_12.run (LibraryCall.set_function_before :: ((List.range 5461).map
      (fun (j : Nat) => LibraryCall.set_function (-(6 * ((j : Int) + 1)))
        (uint32_cast ((table_5462.addr : Int) + table_5462.displacements (1 + j)))) ++
      [LibraryCall.set_function 32764 4096])), ?_, ?_, ?_⟩
  · simp only [PackedFunctions.unpack_library, PackedFunctions.unpack, PackedFunctions.unpack16,
      h0, if_true, h3, Option.map_some']
  · rw [Library.run_cons, Library.run_concat, Library.call_before]
    simp only [Library.call, Library.set_function]
    rw [s1]
    rfl
  · rw [Library.run_cons, Library.run_concat, Library.call_before]
    simp only [Library.call, Library.set_function]
    rw [read16_congr (s3 _ (by omega)) (s3 _ (by omega)),
      read16_congr (g5 _ (by omega)) (g5 _ (by omega))]
    rfl

/-- C22 on a table of two entries unpacked into a library with no flag set and no
checksum stored, by either overload: when `unpack` returns, `LIBF_CHANGED` is
still set and the stored checksum is still 0, while the 16-bit sum of the jump
table is 47605. -/
theorem PackedFunctions.unpack_leaves_library_changed :
    ((table32 4096 [8192, 0]).unpack_library 10 library_12).map
      (fun r => (r.1, r.2.flags &&& LIBF_CHANGED, r.2.sum, r.2.checksum)) =
      some (12, 2, 0, 47605) ∧
    ((table32 4096 [8192, 0]).unpack_library_with 10 library_12 0).map
      (fun r => (r.1, r.2.flags &&& LIBF_CHANGED, r.2.sum, r.2.checksum)) =
      some (12, 2, 0, 47605) := by
  decide

/-- C23: for a library whose `LIBF_SUMUSED` flag is set, after `sum_library` the
flag `LIBF_CHANGED` is clear and the stored checksum is the sum modulo `2^16` of
the `neg_size / 2` 16-bit cells below the base; `LIBF_SUMUSED` and every flag other
than `LIBF_CHANGED` are as before, and so are the bytes around the base, `neg_size`
and hence the checksum of the jump table. -/
theorem Library.sum_library_invariant (l : Library) (hflags : l.flags < 256)
    (hused : l.flags &&& LIBF_SUMUSED ≠ 0) :
    l.sum_library.1.flags &&& LIBF_CHANGED = 0 ∧
    l.sum_library.1.sum = l.checksum ∧
    l.sum_library.1.flags &&& LIBF_SUMUSED ≠ 0 ∧
    l.sum_library.1.flags ||| LIBF_CHANGED = l.flags ||| LIBF_CHANGED ∧
    l.sum_library.1.bytes = l.bytes ∧
    l.sum_library.1.neg_size = l.neg_size ∧
    l.sum_library.1.checksum = l.checksum := by
  rw [Library.sum_library_eq]
  have hb := clear_changed_bits l.flags hflags
  by_cases hc : l.flags &&& LIBF_CHANGED ≠ 0
  · rw [if_pos hc]
    refine ⟨hb.1, rfl, ?_, hb.2.1, rfl, rfl, rfl⟩
    show (l.flags &&& (255 - LIBF_CHANGED)) &&& LIBF_SUMUSED ≠ 0
    rw [hb.2.2]
    exact hused
  · rw [if_neg hc]
    simp only [ne_eq, not_not] at hc
    split_ifs <;> exact ⟨hc, rfl, hused, rfl, rfl, rfl, rfl⟩

/-- C23, on a library marked as changed whose stored checksum is stale. -/
theorem Library.sum_library_invariant_witness :
    library_changed.flags < 256 ∧ library_changed.flags &&& LIBF_SUMUSED ≠ 0 ∧
    library_changed.sum_library.1.flags &&& LIBF_CHANGED = 0 ∧
    library_changed.sum_library.1.sum = library_changed.checksum :=
  ⟨by decide, by decide,
   (Library.sum_library_invariant library_changed (by decide) (by decide)).1,
   (Library.sum_library_invariant library_changed (by decide) (by decide)).2.1⟩

/-- C24 (amended): for every library, `sum_library` calls the alert exactly when
`LIBF_CHANGED` is clear, the stored checksum is not zero and the stored checksum
differs from the 16-bit sum of the jump table.  So it never alerts while
`LIBF_CHANGED` is set, never when the stored and the actual sum agree, and when
they differ it alerts if and only if `LIBF_CHANGED` is clear and a checksum has
been stored. -/
theorem Library.sum_library_alert (l : Library) :
    l.sum_library.2 = true ↔
      (l.flags &&& LIBF_CHANGED = 0 ∧ l.sum ≠ 0 ∧ l.sum ≠ l.checksum) := by
  rw [Library.sum_library_eq]
  by_cases hc : l.flags &&& LIBF_CHANGED ≠ 0
  · rw [if_pos hc]
    simp [hc]
  · rw [if_neg hc]
    simp only [ne_eq, not_not] at hc
    by_cases hs : l.sum ≠ 0 ∧ l.sum ≠ l.checksum
    · rw [if_pos hs]
      simp [hc, hs]
    · rw [if_neg hs]
      simp only [Bool.false_eq_true, false_iff]
      tauto

/-- C24 fails on a library with `LIBF_SUMUSED` set and `LIBF_CHANGED` clear whose
stored checksum is 0 while its jump table sums to 5: `sum_library` does not call the
alert. -/
theorem Library.sum_library_silent_without_stored_sum :
    library_unsummed.sum ≠ library_unsummed.checksum ∧
    library_unsummed.flags &&& LIBF_SUMUSED ≠ 0 ∧
    library_unsummed.flags &&& LIBF_CHANGED = 0 ∧
    library_unsummed.sum_library.2 = false := by
  decide
/-! ## The linked lists -/

/-- C25: on a list that holds `nodes`, `enqueue` ends and links the record in
immediately before the first node whose priority is strictly less than its own, or
at the tail when there is none: `nodes` is `A ++ B`, the list then holds
`A ++ node_ :: B` (the old nodes in their old order and the new one), no node of `A`
has a lower priority than the record, and the first node of `B` has a strictly lower
one.  On a list in non-increasing priority order every node of `B` has a strictly
lower priority, so the record comes after every node of equal priority, and the
result is in non-increasing priority order. -/
theorem List.enqueue_priority_order (mem : Nat → Nat) (node_of : Nat → Node) (L : Nat)
    (nodes : List Nat) (node_ fuel : Nat)
    (h : MinList.Holds mem L nodes) (hx : node_clear L nodes node_)
    (hfuel : nodes.length < fuel) :
    ∃ mem' A B, List.enqueue_links mem node_of L node_ fuel = some mem' ∧
      MinList.Holds mem' L (A ++ node_ :: B) ∧ nodes = A ++ B ∧
      A ++ node_ :: B = List.enqueue node_of node_ nodes ∧
      (∀ a ∈ A, (node_of node_).priority ≤ (node_of a).priority) ∧
      (∀ b, B.head? = some b → (node_of b).priority < (node_of node_).priority) ∧
      (nodes.Pairwise (fun a b => (node_of b).priority ≤ (node_of a).priority) →
        (∀ b ∈ B, (node_of b).priority < (node_of node_).priority) ∧
        (A ++ node_ :: B).Pairwise (fun a b => (node_of b).priority ≤ (node_of a).priority)) := by
  obtain ⟨s, hs⟩ := exists_head_concat nodes (L + 4)
  have hl := MinList.Holds.link_at mem L [] nodes L s h rfl hs
  obtain ⟨mem', e1, h1⟩ := List.enqueue_loop_holds mem node_of L node_ nodes [] s fuel h hx hs hfuel
  obtain ⟨A, B, e2, e3, h2, h3⟩ := List.enqueue_split node_of node_ nodes
  refine ⟨mem', A, B, ?_, ?_, e2, e3.symm, h2, h3, ?_⟩
  · unfold List.enqueue_links
    rw [hl.1]
    exact e1
  · rw [← e3]
    exact h1
  · intro hp
    exact List.enqueue_ordered node_of node_ A B (e2 ▸ hp) h2 h3

/-- C25, on a list of priorities 5, 5 and 0: a record of priority 5 goes after the
two nodes of priority 5. -/
theorem List.enqueue_priority_order_witness :
    ∃ mem' A B, List.enqueue_links list_three node_three 1000 5000 4 = some mem' ∧
      MinList.Holds mem' 1000 (A ++ 5000 :: B) ∧ [2000, 3000, 4000] = A ++ B ∧
      A ++ 5000 :: B = List.enqueue node_three 5000 [2000, 3000, 4000] ∧
      (∀ a ∈ A, (node_three 5000).priority ≤ (node_three a).priority) ∧
      (∀ b, B.head? = some b → (node_three b).priority < (node_three 5000).priority) ∧
      ([2000, 3000, 4000].Pairwise
          (fun a b => (node_three b).priority ≤ (node_three a).priority) →
        (∀ b ∈ B, (node_three b).priority < (node_three 5000).priority) ∧
        (A ++ 5000 :: B).Pairwise
          (fun a b => (node_three b).priority ≤ (node_three a).priority)) :=
  List.enqueue_priority_order list_three node_three 1000 [2000, 3000, 4000] 5000 4
    (MinList.Holds.run 1000 _ _ [] (MinList.Holds.ctor _ 1000)
      (by simp only [ListOp.all_fit, ListOp.fits, ListOp.on]; decide))
    (by decide) (by decide)

/-- C26: after the constructor and any sequence of calls of `push`, `unshift`,
`shift`, `pop`, `remove`, `insert_before` and `insert_after` that fit (a record that
is added lies clear of the list, a node that is named is in the list), every node
`n` of the list has `n.next.prev == n` and `n.prev.next == n`, the `next` of the head
marker is the first node (the tail marker when there is none), the `prev` of the tail
marker is the last node (the head marker when there is none), and the forward
iteration from `begin()` ends at the tail marker after it has visited the nodes of
the list, each one once. -/
theorem MinList.links_consistent (mem : Nat → Nat) (L : Nat) (ops : List ListOp)
    (hf : ListOp.all_fit L [] ops) :
    (∀ n ∈ ListOp.run [] ops,
      MinNode.prev (MinList.run (MinList.ctor mem L) L ops)
          (MinNode.next (MinList.run (MinList.ctor mem L) L ops) n) = n ∧
        MinNode.next (MinList.run (MinList.ctor mem L) L ops)
          (MinNode.prev (MinList.run (MinList.ctor mem L) L ops) n) = n) ∧
    MinNode.next (MinList.run (MinList.ctor mem L) L ops) (MinList.head_node L) =
      (ListOp.run [] ops).head?.getD (MinList.tail_node L) ∧
    MinNode.prev (MinList.run (MinList.ctor mem L) L ops) (MinList.tail_node L) =
      (ListOp.run [] ops).getLast?.getD (MinList.head_node L) ∧
    MinList.nodes (MinList.run (MinList.ctor mem L) L ops) L ((ListOp.run [] ops).length + 1) =
      some (ListOp.run [] ops) ∧
    (ListOp.run [] ops).Nodup := by
  have h := MinList.Holds.run L ops _ [] (MinList.Holds.ctor mem L) hf
  have he := MinList.Holds.ends _ L _ h
  refine ⟨fun n hn => MinList.Holds.links _ L _ n h hn, he.1, he.2,
    MinList.Holds.nodes_eq _ L _ _ h (Nat.lt_succ_self _), ?_⟩
  exact h.2.2.2.imp (fun hab => by omega)

/-- C26, on a sequence of eight calls that leaves the nodes at 6000 and 5000. -/
theorem MinList.links_consistent_witness :
    ListOp.run [] calls_eight = [6000, 5000] ∧
    MinList.nodes (MinList.run (MinList.ctor (fun _ => 0) 1000) 1000 calls_eight) 1000
      ((ListOp.run [] calls_eight).length + 1) = some (ListOp.run [] calls_eight) :=
  ⟨by decide,
    (MinList.links_consistent (fun _ => 0) 1000 calls_eight
      (by simp only [calls_eight, ListOp.all_fit, ListOp.fits, ListOp.on]; decide)).2.2.2.1⟩

/-- C27: a list read as the sequence `nodes` of its nodes from head to tail (the
forward iteration visits exactly `nodes`): a newly constructed list holds no node and
`isempty` is true exactly when `nodes` is empty; `push` appends the record and
`unshift` prepends it; `shift` returns the first node and leaves the others, `pop`
returns the last node and leaves the others; on the empty list both return null and
leave the memory as it is; `remove` of a node of the list returns it and leaves the
other nodes in their order. -/
theorem MinList.sequence_view (mem : Nat → Nat) (L : Nat) (nodes : List Nat) (n : Nat)
    (h : MinList.Holds mem L nodes) :
    MinList.nodes mem L (nodes.length + 1) = some nodes ∧
    MinList.Holds (MinList.ctor mem L) L [] ∧
    MinList.isempty (MinList.ctor mem L) L = true ∧
    (MinList.isempty mem L = true ↔ nodes = []) ∧
    (node_clear L nodes n → MinList.Holds (MinList.push mem L n) L (nodes ++ [n])) ∧
    (node_clear L nodes n → MinList.Holds (MinList.unshift mem L n) L (n :: nodes)) ∧
    (MinList.shift mem L).1 = nodes.head?.getD 0 ∧
    MinList.Holds (MinList.shift mem L).2 L nodes.tail ∧
    (MinList.pop mem L).1 = nodes.getLast?.getD 0 ∧
    MinList.Holds (MinList.pop mem L).2 L nodes.dropLast ∧
    (nodes = [] → MinList.shift mem L = (0, mem) ∧ MinList.pop mem L = (0, mem)) ∧
    (n ∈ nodes → (MinList.remove mem n).1 = n ∧
      MinList.Holds (MinList.remove mem n).2 L (nodes.filter (fun m => m ≠ n))) := by
  have hs := MinList.Holds.shift mem L nodes h
  have hp := MinList.Holds.pop mem L nodes h
  have hc := MinList.Holds.ctor mem L
  refine ⟨MinList.Holds.nodes_eq mem L nodes _ h (Nat.lt_succ_self _), hc,
    (MinList.Holds.isempty_iff _ L [] hc).2 rfl, MinList.Holds.isempty_iff mem L nodes h,
    MinList.Holds.push mem L nodes n h, MinList.Holds.unshift mem L nodes n h,
    hs.1, hs.2.1, hp.1, hp.2.1, ?_, ?_⟩
  · intro e
    constructor
    · refine Prod.ext ?_ (hs.2.2 e)
      rw [hs.1, e]; rfl
    · refine Prod.ext ?_ (hp.2.2 e)
      rw [hp.1, e]; rfl
  · intro hn
    have hnd : nodes.Nodup := h.2.2.2.imp (fun hab => by omega)
    have := MinList.Holds.apply mem L nodes (ListOp.remove n) h hn
    simp only [MinList.apply, ListOp.on, hnd.erase_eq_filter] at this
    rw [show nodes.filter (fun m => decide (m ≠ n)) = nodes.filter (fun x => x != n) from
      List.filter_congr (fun x _ => by by_cases hx : x = n <;> simp [hx])]
    exact ⟨rfl, this⟩

/-- C27, on the list of the nodes at 2000, 3000 and 4000. -/
theorem MinList.sequence_view_witness :
    (MinList.shift list_three 1000).1 = 2000 ∧ (MinList.pop list_three 1000).1 = 4000 ∧
    MinList.Holds (MinList.remove list_three 3000).2 1000 [2000, 4000] :=
  have h := MinList.sequence_view list_three 1000 [2000, 3000, 4000] 3000
    (MinList.Holds.run 1000 _ _ [] (MinList.Holds.ctor _ 1000)
      (by simp only [ListOp.all_fit, ListOp.fits, ListOp.on]; decide))
  ⟨h.2.2.2.2.2.2.1, h.2.2.2.2.2.2.2.2.1, (h.2.2.2.2.2.2.2.2.2.2.2 (by decide)).2⟩

/-- C28: on a list that holds `nodes`, whose names and the name asked for hold no
NUL byte inside, `find_name` with a null start returns the first node of the list
whose name is equal to `name`, byte for byte, and `find_name` with a node of the
list as the start returns the first such node strictly after the start; in both cases
it returns null when no node from there to the tail marker has the name.  The search
reads the memory only. -/
theorem List.find_name_first_match (mem : Nat → Nat) (name_of : Nat → List Nat) (L : Nat)
    (nodes : List Nat) (name : List Nat) (fuel : Nat)
    (h : MinList.Holds mem L nodes) (hfuel : nodes.length < fuel)
    (hname : 0 ∉ name) (hnames : ∀ n ∈ nodes, 0 ∉ name_of n) :
    List.find_name_from mem name_of L fuel name 0 =
      some ((nodes.find? (fun n => name_of n = name)).getD 0) ∧
    ∀ (A B : List Nat) (start : Nat), nodes = A ++ start :: B → start ≠ 0 →
      List.find_name_from mem name_of L fuel name start =
        some ((B.find? (fun n => name_of n = name)).getD 0) := by
  have hfind : ∀ B : List Nat, (∀ b ∈ B, b ∈ nodes) →
      B.find? (fun n => strcmp name (name_of n) = 0) = B.find? (fun n => name_of n = name) := by
    intro B
    induction B with
    | nil => intro _; rfl
    | cons b B ih =>
      intro hB
      have : strcmp name (name_of b) = 0 ↔ name_of b = name :=
        ⟨fun e => (strcmp_eq_zero _ _ hname (hnames b (hB b (by simp))) e).symm,
          fun e => by rw [e]; exact strcmp_self name⟩
      simp only [List.find?_cons, this, ih (fun c hc => hB c (List.mem_cons_of_mem _ hc))]
  have hc := h.1
  unfold MinList.head_node MinList.tail_node at hc
  constructor
  · unfold List.find_name_from MinList.head_node
    rw [if_neg (by simp), List.find_name_loop_chain mem name_of L name nodes L fuel hc
      (fun b hb => by have := h.2.2.1 b hb; omega) hfuel, hfind nodes (fun _ hb => hb)]
  · intro A B start e hstart
    subst e
    have e1 : L :: (A ++ start :: B) ++ [L + 4] = (L :: A) ++ (start :: B ++ [L + 4]) := by simp
    rw [e1] at hc
    unfold List.find_name_from
    rw [if_pos hstart, List.find_name_loop_chain mem name_of L name B start fuel
      hc.right_of_append
      (fun b hb => by have := h.2.2.1 b (by simp [hb]); omega)
      (by simp only [List.length_append, List.length_cons] at hfuel; omega),
      hfind B (fun b hb => by simp [hb])]

/-- C28, on the list of the names `a`, `b`, `a`: the search for `a` from the head
finds the node at 2000, from that node on the node at 4000, and from there on none. -/
theorem List.find_name_first_match_witness :
    List.find_name_from list_three (fun n => (node_three n).name) 1000 4 [97] 0 = some 2000 ∧
    List.find_name_from list_three (fun n => (node_three n).name) 1000 4 [97] 2000 =
      some 4000 ∧
    List.find_name_from list_three (fun n => (node_three n).name) 1000 4 [97] 4000 = some 0 :=
  have h := List.find_name_first_match list_three (fun n => (node_three n).name) 1000
    [2000, 3000, 4000] [97] 4
    (MinList.Holds.run 1000 _ _ [] (MinList.Holds.ctor _ 1000)
      (by simp only [ListOp.all_fit, ListOp.fits, ListOp.on]; decide))
    (by decide) (by decide) (by decide)
  ⟨h.1, h.2 [] [3000, 4000] 2000 rfl (by decide), h.2 [2000, 3000] [] 4000 rfl (by decide)⟩


/-- C33 on a library with `LIBF_SUMUSED` clear whose stored checksum 7 differs from
the sum 5 of its jump table: `sum_library` calls the alert and stores 5; on the same
library with `LIBF_CHANGED` set it clears `LIBF_CHANGED` and stores 5. -/
theorem Library.sum_library_ignores_opt_out :
    library_optout.flags &&& LIBF_SUMUSED = 0 ∧
    library_optout.sum = 7 ∧
    library_optout.sum_library.2 = true ∧
    library_optout.sum_library.1.sum = 5 ∧
    library_optout_changed.flags &&& LIBF_SUMUSED = 0 ∧
    library_optout_changed.flags = LIBF_CHANGED ∧
    library_optout_changed.sum_library.1.flags = 0 ∧
    library_optout_changed.sum_library.1.sum = 5 := by
  decide

/-- C34 on three tables unpacked to a target of 4 bytes at 2000 in a memory of bytes
`0xff`.  The instruction `0x60` (repeat a byte once), followed by zero bytes, writes
its own command byte `0x60`; the instruction `0x20` (copy one byte), followed by
zero bytes, writes its own command byte `0x20`; the instruction `0xa1` (copy two
bytes at an offset), followed by the offset 3 and the bytes `0xaa`, `0xbb`, writes
these two bytes at offset 3.  The bytes of the target that no instruction writes
are zero, the byte behind the target and the bytes written are left or set
regardless of `size`. -/
theorem PackedStruct.unpack_writes_command_byte :
    packed_repeat_byte.byte 1000 = 0x60 ∧ packed_repeat_byte.byte 1001 = 0 ∧
    (packed_repeat_byte.unpack 10 (fun _ => 255) 2000 4).map
      (fun m => (List.range 5).map (fun i => m (2000 + i))) = some [0x60, 0, 0, 0, 255] ∧
    packed_copy_byte.byte 1000 = 0x20 ∧ packed_copy_byte.byte 1001 = 0 ∧
    (packed_copy_byte.unpack 10 (fun _ => 255) 2000 4).map
      (fun m => (List.range 5).map (fun i => m (2000 + i))) = some [0x20, 0, 0, 0, 255] ∧
    (packed_copy_offset.unpack 10 (fun _ => 255) 2000 4).map
      (fun m => (List.range 6).map (fun i => m (2000 + i))) = some [0, 0, 0, 0xaa, 0xbb, 255] := by
  decide

/-- C35 on the table that holds the instruction `0x70` (a repeat with the unit width
field `0x30`) followed by zero bytes: the body of the loop leaves the cursor on the
instruction, and the decoder does not end, whatever the number of iterations it is
given. -/
theorem PackedStruct.unpack_loops_on_ill_formed :
    packed_ill_formed.byte 1000 = 0x70 ∧ packed_ill_formed.byte 1001 = 0 ∧
    (packed_ill_formed.step 0x70 ⟨1000, 2000, bzero (fun _ => 255) 2000 4⟩).input = 1000 ∧
    ¬ ∃ fuel, (packed_ill_formed.unpack fuel (fun _ => 255) 2000 4).isSome = true := by
  refine ⟨by decide, by decide, by rw [PackedStruct.step_ill_formed], ?_⟩
  have h : ∀ (fuel : Nat) (s : Unpack), s.input = 1000 →
      packed_ill_formed.unpack_loop fuel s = none := by
    intro fuel
    induction fuel with
    | zero => intro s _; rfl
    | succ n ih =>
      intro s hs
      have hb : packed_ill_formed.byte s.input = 0x70 := by rw [hs]; decide
      simp only [PackedStruct.unpack_loop, hb]
      rw [if_pos (by decide), PackedStruct.step_ill_formed]
      exact ih s hs
  rintro ⟨fuel, hf⟩
  have := h fuel ⟨packed_ill_formed.addr, 2000, bzero (fun _ => 255) 2000 4⟩ rfl
  simp [PackedStruct.unpack, this] at hf

/-- C36 (amended): for a range that ends at or below `2^32 - 2` and a memory in
which every position of the range that passes the header test declares an end above
its own address, `search(start, end_)` ends within `end_ - start + 1` iterations:
the loop is left at a position at or above `end_`, and the positions examined,
followed by that position, start with `start` and are strictly increasing, also at
the step after a match. -/
theorem BuilderList.search_terminates (mem : Memory) (bl : BuilderList)
    (start end_ fuel : Nat) (hend : end_ + 1 < WORD)
    (hh : ∀ p, start ≤ p → p < end_ → mem.is_romtag p = true → p < (mem.resident p).end_)
    (hfuel : end_ - start < fuel) :
    ∃ q, (bl.search mem fuel start end_).stopped = some q ∧ end_ ≤ q ∧
      ((bl.search mem fuel start end_).examined ++ [q]).head? = some start ∧
      List.Chain' (fun a b => a < b) ((bl.search mem fuel start end_).examined ++ [q]) :=
  BuilderList.search_loop_ends mem end_ hend fuel start bl hh hfuel

/-- C36 (amended), on the region of `rom` from 8192 to 8208. -/
theorem BuilderList.search_terminates_witness :
    ∃ q, (BuilderList.ctor.search rom 17 8192 8208).stopped = some q ∧ 8208 ≤ q ∧
      ((BuilderList.ctor.search rom 17 8192 8208).examined ++ [q]).head? = some 8192 ∧
      List.Chain' (fun a b => a < b) ((BuilderList.ctor.search rom 17 8192 8208).examined ++ [q]) :=
  BuilderList.search_terminates rom BuilderList.ctor 8192 8208 17 (by decide)
    (by
      intro p h1 h2
      interval_cases p <;> decide)
    (by decide)

/-- C36 fails on a memory whose header at 8192 declares 8192 as its end: the scan
of the range from 8192 to 8200 examines 8192 again and again and is not left,
whatever the number of iterations it is given.  It also fails on the range from
`2^32 - 2` to `2^32 - 1` of a memory without headers: the 32-bit cursor steps from
`2^32 - 2` to `0` and stays below the end. -/
theorem BuilderList.search_does_not_end :
    rom_loop.is_romtag 8192 = true ∧ (rom_loop.resident 8192).end_ = 8192 ∧
    (¬ ∃ fuel, (BuilderList.ctor.search rom_loop fuel 8192 8200).stopped ≠ none) ∧
    ¬ ∃ fuel, (BuilderList.ctor.search rom_blank fuel 4294967294 4294967295).stopped ≠ none := by
  refine ⟨by decide, by decide, ?_, ?_⟩
  · rintro ⟨fuel, hf⟩
    exact hf (BuilderList.search_loop_stuck fuel BuilderList.ctor).1
  · rintro ⟨fuel, hf⟩
    exact hf (BuilderList.search_loop_wraps fuel 4294967294 BuilderList.ctor (by decide)
      (by decide))

/-- C37 (amended): `make_library` for a table of `n` entries, `n` at most 5461, and
a data size `d` with `vector_size + d + 8` below `2^32`, `vector_size` being `6 * n`
rounded up to a multiple of 4.  It asks the allocator for `vector_size + d + 8`
bytes.  When the allocator returns null, the call returns null, makes no call on a
library and leaves the memory as it is.  Otherwise the array `alloc` of
`vector_size + d` bytes starts 8 bytes into the block, `library` is
`alloc + vector_size`, `unpack` marks the library and writes the `n` vectors at
`library - 6`, ..., `library - 6 * n`, each of which lies inside `[alloc, library)`,
and the data region `[library, library + d)` ends where the array ends.  The call
returns when the decode of `initstruct`, if there is one, ends. -/
theorem Library.make_library_block (AllocMem : Nat → Nat → Nat) (t : PackedFunctions)
    (initstruct : Option PackedStruct) (init : Option Nat) (n data_size fuel : Nat)
    (mem : Nat → Nat) (hn : n ≤ 5461) (ht : t.entries n) (hfuel : n < fuel)
    (hfit : (6 * n + 3) / 4 * 4 + data_size + 8 < WORD) :
    (AllocMem ((6 * n + 3) / 4 * 4 + data_size + 8) MEMF_PUBLIC = 0 →
      ∃ r, Library.make_library AllocMem (some t) initstruct init data_size fuel mem = some r ∧
        r.ret = 0 ∧ r.calls = [] ∧ r.mem = mem) ∧
    (AllocMem ((6 * n + 3) / 4 * 4 + data_size + 8) MEMF_PUBLIC ≠ 0 →
      (∀ mem', PackedStruct.unpack_if initstruct fuel mem
          (AllocMem ((6 * n + 3) / 4 * 4 + data_size + 8) MEMF_PUBLIC + 8 + (6 * n + 3) / 4 * 4)
          data_size = some mem' →
        ∃ r, Library.make_library AllocMem (some t) initstruct init data_size fuel mem =
          some r ∧ r.mem = mem') ∧
      ∀ r, Library.make_library AllocMem (some t) initstruct init data_size fuel mem = some r →
        r.alloc = AllocMem ((6 * n + 3) / 4 * 4 + data_size + 8) MEMF_PUBLIC + 8 ∧
        r.vector_size = (6 * n + 3) / 4 * 4 ∧ 6 * n ≤ r.vector_size ∧
        r.vector_size < 6 * n + 4 ∧ r.vector_size % 4 = 0 ∧
        r.library = r.alloc + r.vector_size ∧ r.ret = init.getD r.library ∧
        (∃ target : Nat → Nat, r.calls = LibraryCall.set_function_before ::
          (List.range n).map (fun (j : Nat) =>
            LibraryCall.set_function (-(6 * ((j : Int) + 1))) (target j))) ∧
        (∀ c ∈ r.calls, c.inside r.alloc r.library) ∧
        r.library + data_size = r.alloc + (r.vector_size + data_size)) := by
  obtain ⟨target, he⟩ := Library.make_library_eq AllocMem t initstruct init n data_size fuel mem
    hn ht hfuel hfit
  constructor
  · intro ha
    rw [he, if_pos ha]
    exact ⟨_, rfl, rfl, rfl, rfl⟩
  · intro ha
    rw [he, if_neg ha]
    constructor
    · intro mem' hm
      rw [hm]
      exact ⟨_, rfl, rfl⟩
    · intro r hr
      cases hu : PackedStruct.unpack_if initstruct fuel mem
          (AllocMem ((6 * n + 3) / 4 * 4 + data_size + 8) MEMF_PUBLIC + 8 + (6 * n + 3) / 4 * 4)
          data_size with
      | none => rw [hu] at hr; simp at hr
      | some mem' =>
        rw [hu] at hr
        simp only [Option.map_some', Option.some.injEq] at hr
        subst hr
        refine ⟨rfl, rfl, ?_, ?_, ?_, rfl, rfl, ⟨target, rfl⟩, ?_, ?_⟩
        · simp only; omega
        · simp only; omega
        · simp only; omega
        · intro c hc
          simp only at hc
          rcases List.mem_cons.1 hc with rfl | hc
          · trivial
          · obtain ⟨j, hj, rfl⟩ := List.mem_map.1 hc
            have hj' : j < n := List.mem_range.1 hj
            simp only [LibraryCall.inside]
            push_cast
            omega
        · simp only; omega

/-- C37 (amended), on a table of three entries and a data size of 40 bytes with an
allocator that returns 4096: the array starts at 4104, the library at 4124. -/
theorem Library.make_library_block_witness :
    ∃ r, Library.make_library alloc_at_4096 (some (table32 512 [8192, 0, 12288])) none none
        40 10 (fun _ => 0) = some r ∧
      r.alloc = 4104 ∧ r.vector_size = 20 ∧ r.library = r.alloc + r.vector_size :=
  have h := (Library.make_library_block alloc_at_4096 (table32 512 [8192, 0, 12288]) none none
    3 40 10 (fun _ => 0) (by decide) (by decide) (by decide) (by decide)).2 (by decide)
  (h.1 (fun _ => 0) rfl).elim (fun r hr =>
    ⟨r, hr.1, (h.2 r hr.1).1, (h.2 r hr.1).2.1, (h.2 r hr.1).2.2.2.2.2.1⟩)

/-- C37 fails on a table in the 16-bit form with 5462 entries: `make_library`, with
an allocator that returns 4096 and no data, places the library at `4104 + 32772`,
and `unpack` writes the vector of the last entry at the offset `+32764`, which is
not inside `[alloc, library)`.  It also fails on a table of three entries with the
data size `2^32 - 16`: the size `20 + d` of the array wraps to 4, the allocator is
asked for 12 bytes and grants `[4096, 4108)`, and the library is placed at 4124, so
that the vector at `library - 6` and the data region lie behind the block. -/
theorem Library.make_library_outside_block :
    (∃ r, Library.make_library alloc_at_4096 (some table_5462) none none 0 6000 (fun _ => 0) =
        some r ∧
      r.alloc = 4104 ∧ r.library = 4104 + 32772 ∧
      LibraryCall.set_function 32764 4096 ∈ r.calls ∧
      ¬ (LibraryCall.set_function 32764 4096).inside r.alloc r.library) ∧
    ∃ r, Library.make_library alloc_12_at_4096 (some (table32 512 [8192, 0, 12288])) none none
        4294967280 10 (fun _ => 0) = some r ∧
      r.alloc = 4104 ∧ r.vector_size = 20 ∧ r.library = 4124 ∧ 4096 + 12 ≤ r.library - 6 := by
  refine ⟨?_, ⟨_, rfl, by decide⟩⟩
  have h0 : table_5462.displacements 0 = -1 := by decide
  have he : ∀ i, i < 5462 → table_5462.displacements (1 + i) ≠ -1 := by
    intro i hi
    have : table_5462.cells (1 + i) = 0 := by
      simp only [table_5462]
      rw [if_neg (by omega), if_pos (by omega)]
    simp only [PackedFunctions.displacements, this]
    decide
  have hs : table_5462.displacements (1 + 5462) = -1 := by decide
  have hc := table_5462.count16_loop_eq 5462 6000 1 0 (by omega) he hs
  rw [show (0 + 6 * 5462) % WORD = 32772 from by decide, show 0 % WORD = 0 from rfl] at hc
  have h1 := table_5462.unpack16_loop_fst table_5462.addr 5462 6000 1 0 (by omega) he hs
  have h2 := table_5462.unpack16_loop_snd table_5462.addr 5462 6000 1 0 (by omega) he hs
  rw [show int16_cast 0 = 0 from rfl] at h1 h2
  have h3 := option_pair_eq h1 h2
  have hl : LibraryCall.set_function (int16_cast (0 - 6 * (((5461 : Nat) : Int) + 1)))
      (uint32_cast ((table_5462.addr : Int) + table_5462.displacements (1 + 5461))) =
      LibraryCall.set_function 32764 4096 := by decide
  rw [List.range_succ, List.map_append] at h3
  simp only [List.map_cons, List.map_nil, hl] at h3
  have v : Library.vector_size (some table_5462) 6000 = some 32772 := by
    simp only [Library.vector_size, PackedFunctions.count, h0, if_true, PackedFunctions.count16,
      hc, Option.map_some']
    decide
  have u : PackedFunctions.unpack_if (some table_5462) 6000 = some
      (LibraryCall.set_function_before :: ((List.range 5461).map (fun (j : Nat) =>
        LibraryCall.set_function (int16_cast (0 - 6 * ((j : Int) + 1)))
          (uint32_cast ((table_5462.addr : Int) + table_5462.displacements (1 + j)))) ++
        [LibraryCall.set_function 32764 4096])) := by
    simp only [PackedFunctions.unpack_if, PackedFunctions.unpack, h0, if_true,
      PackedFunctions.unpack16, h3, Option.map_some']
  have a : new_allocate alloc_at_4096 ((32772 + 0) % WORD) MEMF_PUBLIC MEMF_NONE = 4104 := by
    decide
  refine ⟨⟨4104, 32772, 4104 + 32772, 4104 + 32772,
    LibraryCall.set_function_before :: ((List.range 5461).map (fun (j : Nat) =>
        LibraryCall.set_function (int16_cast (0 - 6 * ((j : Int) + 1)))
          (uint32_cast ((table_5462.addr : Int) + table_5462.displacements (1 + j)))) ++
        [LibraryCall.set_function 32764 4096]), fun _ => 0⟩, ?_, rfl, rfl, ?_, ?_⟩
  · unfold Library.make_library
    rw [v, u, Option.some_bind]
    simp only [a, Option.some_bind, PackedStruct.unpack_if, Option.map_some', Option.getD_none]
    rfl
  · simp
  · simp only [LibraryCall.inside]
    omega

/-- C38 on a fresh zone of 256 bytes at 4096: the second `allocate(8)` returns 4104
and the first `allocate_reverse(8)` returns 4344, neither of which is a multiple of
64. -/
theorem Heap.allocate_not_aligned_64 :
    ((zone_256.allocate 8).2.allocate 8).1 = 4104 ∧ 4104 % 64 ≠ 0 ∧
    (zone_256.allocate_reverse 8).1 = 4344 ∧ 4344 % 64 ≠ 0 := by
  decide

/-- C39: starting from a freshly constructed zone whose base is a non-null multiple
of 8 and whose size is a positive multiple of 8 (the zone ending at least eight
bytes below the top of the address space), after any sequence of `allocate` and
`allocate_reverse` calls interleaved with `deallocate` calls that release only
blocks returned earlier and still live, each with its requested size, every free
chunk starts at a multiple of 8 and has a size that is a positive multiple of 8, so
at least the 8 bytes of the chunk header; every live block starts at a multiple of 8
as well. -/
theorem Session.granularity (size_ attributes_ : Nat) (priority_ : Int) (base_ : Nat)
    (hb : base_ ≠ 0) (ht : base_ + size_ + 8 ≤ WORD) (ha : base_ % 8 = 0)
    (hsz : 0 < size_ ∧ size_ % 8 = 0) (calls : List Call) (s : Session)
    (hrun : Session.run ⟨Heap.ctor size_ attributes_ priority_ base_, []⟩ calls = some s) :
    (∀ c ∈ s.heap.first, c.addr % 8 = 0 ∧ c.size % 8 = 0 ∧ 0 < c.size ∧ 8 ≤ c.size) ∧
    ∀ b ∈ s.live, b.1 % 8 = 0 := by
  have h0 : Session.Sound ⟨Heap.ctor size_ attributes_ priority_ base_, []⟩ :=
    ⟨Heap.ctor_zoned hb ht, by simp, by simp⟩
  have g0 : (Heap.ctor size_ attributes_ priority_ base_).Granular := by
    intro c hc
    simp only [Heap.ctor, List.mem_singleton] at hc
    subst hc
    exact ⟨ha, hsz.2, hsz.1⟩
  have h := Session.granular_run calls _ s h0 g0 (by simp) hrun
  refine ⟨fun c hc => ?_, h.2⟩
  have := h.1 c hc
  omega

/-- C39 on four calls on a fresh zone of 256 bytes at 4096; the chunk left is 200
bytes at 4128. -/
theorem Session.granularity_witness :
    Session.run ⟨Heap.ctor 256 1 0 4096, []⟩
      [.allocate 10, .allocate_reverse 20, .deallocate 4096 10, .allocate 30] =
      some ⟨⟨1, 0, [⟨4128, 200⟩], 4096, 4352, 200⟩, [(4096, 30), (4328, 20)]⟩ ∧
    (Chunk.mk 4128 200).addr % 8 = 0 ∧ (Chunk.mk 4128 200).size % 8 = 0 ∧
    8 ≤ (Chunk.mk 4128 200).size :=
  have h := ((Session.granularity 256 1 0 4096 (by decide) (by decide) (by decide) (by decide)
    [.allocate 10, .allocate_reverse 20, .deallocate 4096 10, .allocate 30]
    ⟨⟨1, 0, [⟨4128, 200⟩], 4096, 4352, 200⟩, [(4096, 30), (4328, 20)]⟩ (by decide)).1
      ⟨4128, 200⟩ (List.mem_singleton.2 rfl))
  ⟨by decide, h.1, h.2.1, h.2.2.2⟩

/-- C40 on the headers at 4352 (name `a`, version 1, priority 5), 8204 (name `g`,
priority 4) and 4096 (name `a`, version 2, priority 0), fed in this order: the
header at 4096 replaces the one at 4352 in its node, which keeps the priority 5 and
its place before the node of 8204; the array lists 4096 before 8204, although the
priority 0 of 4096 is below the priority 4 of 8204. -/
theorem BuilderList.flatten_not_by_own_priority :
    ([4352, 8204, 4096].foldl (BuilderList.add rom) BuilderList.ctor).flatten =
      [4096, 8204, 0] ∧
    (rom.resident 4096).priority = 0 ∧ (rom.resident 8204).priority = 4 ∧
    ([4352, 8204, 4096].foldl (BuilderList.add rom) BuilderList.ctor).nodes.map
      (fun i => i.priority) = [5, 4] := by
  decide


end exec
